import Mathlib

/-!
# sano-sitegen: the file-to-page pipeline of `main.go`

A shallow embedding of `src/main.go`.

* Go strings and byte slices are lists of characters.
* The functions of the Go standard library that the program calls
  (`strings.TrimPrefix`, `strings.TrimSuffix`, `strings.HasSuffix`,
  `filepath.Clean`, `filepath.Join`, `filepath.Base`, `filepath.Dir`,
  `filepath.Walk`, `os.ReadFile`, `os.WriteFile`, `os.MkdirAll`,
  `os.RemoveAll`) are embedded with their Unix behaviour, the file system as a
  tree of directories and files under the working directory.
* The libraries the program delegates to (front-matter parser, Markdown
  converter, chroma styles, template engine) are the fields of `Env`; a function
  that can fail returns `Except` with the error message.
* A function that changes the file system takes the tree and returns the tree
  it leaves together with its error.
* The goroutines of `processFilesConcurrently` are tasks that take effect one
  after the other in an order picked by the runtime, a permutation of the file
  list; that order is an argument of the model.
-/

namespace SanoSitegen

/-- Go `string` and `[]byte`: a sequence of characters. -/
abbrev Str := List Char

/-! ## package `strings` -/

/-- Go `strings.HasPrefix(s, prefix)`. -/
def HasPrefix (s pre : Str) : Bool := pre.isPrefixOf s

/-- Go `strings.HasSuffix(s, suffix)`. -/
def HasSuffix (s suf : Str) : Bool := suf.isSuffixOf s

/-- Go `strings.TrimPrefix(s, prefix)`: `s` without the leading `prefix`,
or `s` unchanged when it does not start with it. -/
def TrimPrefix (s pre : Str) : Str :=
  if HasPrefix s pre then s.drop pre.length else s

/-- Go `strings.TrimSuffix(s, suffix)`: `s` without the trailing `suffix`,
or `s` unchanged when it does not end with it. -/
def TrimSuffix (s suf : Str) : Str :=
  if HasSuffix s suf then s.take (s.length - suf.length) else s

/-! ## package `path/filepath` (Unix) -/

/-- The elements of a path between its separators, as `strings.Split(p, "/")`
gives them: `a//b` has the elements `a`, the empty string and `b`. -/
def splitSlash : Str → List Str
  | [] => [[]]
  | c :: cs =>
    if c = '/' then [] :: splitSlash cs
    else
      match splitSlash cs with
      | [] => [[c]]
      | e :: es => (c :: e) :: es

/-- The elements joined by single separators, `strings.Join(elems, "/")`. -/
def joinSlash : List Str → Str
  | [] => []
  | [e] => e
  | e :: es => e ++ '/' :: joinSlash es

/-- One round of the loop of `filepath.Clean` over the path element `e`.  The
output buffer is kept as the list of the elements written so far, last one
first.  An empty element and `.` are dropped; `..` removes the last element
when that is a name (`out.w > dotdot`), is appended when the path is not
rooted, and is dropped when it is; any other element is appended. -/
def cleanStep (rooted : Bool) (out : List Str) (e : Str) : List Str :=
  if e = [] ∨ e = ['.'] then out
  else if e = ['.', '.'] then
    match out with
    | [] => if rooted then [] else [e]
    | top :: rest =>
      if top = ['.', '.'] then (if rooted then out else e :: out) else rest
  else e :: out

/-- The output buffer of `filepath.Clean` when its loop over the elements of
`path` ends, last element first.  The path is rooted when it starts with a
separator. -/
def cleanOut (path : Str) : List Str :=
  (splitSlash path).foldl (cleanStep (path.head? = some '/')) []

/-- Go `filepath.Clean(path)`: the shortest path equivalent to `path` by
purely lexical processing.  The empty path gives `.`; a rooted path keeps its
leading separator; a relative path that cleans to nothing gives `.`. -/
def Clean (path : Str) : Str :=
  if path = [] then ['.']
  else if path.head? = some '/' then '/' :: joinSlash (cleanOut path).reverse
  else if cleanOut path = [] then ['.']
  else joinSlash (cleanOut path).reverse

/-- Go `filepath.Join(a, b)`: the non-empty arguments joined by a separator
and cleaned; empty arguments are ignored, and the join of only empty
arguments is the empty string. -/
def Join (a b : Str) : Str :=
  if a ≠ [] then Clean (a ++ '/' :: b)
  else if b ≠ [] then Clean b
  else []

/-- The characters of `path` after its last separator (all of `path` when it
has none). -/
def lastElem (path : Str) : Str := (splitSlash path).getLast?.getD []

/-- Trailing separators removed, as the first loop of `filepath.Base`. -/
def stripTrailingSlashes (path : Str) : Str :=
  (path.reverse.dropWhile (· = '/')).reverse

/-- Go `filepath.Base(path)`: the last element of `path`, trailing separators
removed first; `.` for the empty path and `/` for a path of separators only. -/
def Base (path : Str) : Str :=
  if path = [] then ['.']
  else
    let p := lastElem (stripTrailingSlashes path)
    if p = [] then ['/'] else p

/-- Go `filepath.Dir(path)`: all but the last element of `path`, cleaned. -/
def Dir (path : Str) : Str :=
  Clean (path.take (path.length - (lastElem path).length))

/-! ## The data model of `main.go` -/

/-- Go `time.Time`; the program only passes a date from the front matter to
the page. -/
abbrev Time := Int

/-- The `Page` struct (lines 25-33). -/
structure Page where
  Title : Str
  Desc : Str
  Date : Option Time
  Content : Str
  InlineCSS : Str
  InlineJS : Str
  AssetsPath : Str
deriving DecidableEq

/-- The `Metadata` struct (lines 35-42). -/
structure Metadata where
  Title : Str
  Desc : Str
  Date : Option Time
  Status : Bool
  CSS : Str
  JS : Str
deriving DecidableEq

/-- The keys a front-matter block holds, as the YAML decoder finds them: each
of `title`, `desc`, `date`, `status`, `css`, `js` is present with a value or
absent. -/
structure FrontMatter where
  title : Option Str
  desc : Option Str
  date : Option Time
  status : Option Bool
  css : Option Str
  js : Option Str
deriving DecidableEq

/-- The value of `var metadata Metadata` (line 185): every field zero. -/
def Metadata.zero : Metadata :=
  { Title := [], Desc := [], Date := none, Status := false, CSS := [], JS := [] }

/-- Decoding a front-matter block into a `Metadata` value: a key that is
present sets its field, an absent key leaves the field as it was. -/
def FrontMatter.decodeInto (fm : FrontMatter) (m : Metadata) : Metadata :=
  { Title := fm.title.getD m.Title
    Desc := fm.desc.getD m.Desc
    Date := match fm.date with
      | some d => some d
      | none => m.Date
    Status := fm.status.getD m.Status
    CSS := fm.css.getD m.CSS
    JS := fm.js.getD m.JS }

/-- The options `markdownParser` is constructed with (lines 44-53). -/
structure ParserConfig where
  gfm : Bool
  highlightStyle : Str
  lineNumbers : Bool
  unsafeHTML : Bool
deriving DecidableEq

/-- The process-wide `markdownParser` (lines 44-53). -/
def markdownParser : ParserConfig :=
  { gfm := true, highlightStyle := "monokailight".toList, lineNumbers := false,
    unsafeHTML := true }

/-- The external collaborators of the program: the front-matter parser, the
Markdown converter, the chroma style registry and CSS writer, and the
template engine.  Each may fail with an error message. -/
structure Env where
  /-- A chroma style. -/
  Style : Type
  /-- The function `frontmatter.Parse`: the front-matter keys and the body. -/
  parseFrontMatter : Str → Except Str (FrontMatter × Str)
  /-- The method `Convert` of a goldmark converter built with the given options. -/
  convert : ParserConfig → Str → Except Str Str
  /-- The map `styles.Registry` of chroma: the registered styles by name. -/
  Registry : Str → Option Style
  /-- The variable `styles.Fallback` of chroma. -/
  Fallback : Style
  /-- The method `WriteCSS` of the chroma HTML formatter, into a buffer. -/
  writeCSS : Style → Except Str Str
  /-- Parsing of a template text, the second half of `template.ParseFiles`. -/
  parseTemplate : Str → Except Str Str
  /-- The method `Execute` of a parsed template, into a buffer. -/
  executeTemplate : Str → Page → Except Str Str

/-- The function `styles.Get` of chroma: `if style, ok := Registry[name]; ok
{ return style }; return Fallback`.  The result is a pointer; `none` is `nil`. -/
def Env.stylesGet (env : Env) (name : Str) : Option env.Style :=
  match env.Registry name with
  | some style => some style
  | none => some env.Fallback

/-! ## The pure functions of `main.go` -/

/-- The function `generateHighlightCSS` (lines 123-136). -/
def generateHighlightCSS (env : Env) (styleName : Str) : Except Str Str :=
  match env.stylesGet styleName with
  | none => .error ("style ".toList ++ styleName ++ " not found".toList)
  | some style =>
    match env.writeCSS style with
    | .error e => .error ("error writing CSS: ".toList ++ e)
    | .ok css => .ok css

/-- The function `getDefaultTitle` (lines 213-218). -/
def getDefaultTitle (mdPath title : Str) : Str :=
  if title = [] then TrimSuffix (Base mdPath) ".md".toList
  else title

/-- The function `createPage` (lines 220-230). -/
def createPage (metadata : Metadata) (content inlineCSS inlineJS : Str) : Page :=
  { Title := metadata.Title
    Desc := metadata.Desc
    Date := metadata.Date
    Content := content
    InlineCSS := inlineCSS
    InlineJS := inlineJS
    AssetsPath := "./".toList }

/-- The function `markdownToHTML` (lines 265-272). -/
def markdownToHTML (env : Env) (content : Str) : Except Str Str :=
  match env.convert markdownParser content with
  | .error e => .error ("failed to convert markdown content: ".toList ++ e)
  | .ok html => .ok html

/-- Lines 195-208 of `processMarkdownFile`: the page assembled for a published
document from its metadata and body. -/
def assemblePage (env : Env) (mdPath : Str) (metadata : Metadata) (body : Str) :
    Except Str Page :=
  let metadata := { metadata with Title := getDefaultTitle mdPath metadata.Title }
  match markdownToHTML env body with
  | .error e =>
    .error ("failed to convert markdown to HTML for ".toList ++ mdPath ++ ": ".toList ++ e)
  | .ok htmlContent =>
    match generateHighlightCSS env "monokai".toList with
    | .error e => .error ("failed to generate CSS: ".toList ++ e)
    | .ok inlineCSS =>
      let inlineJS := metadata.JS
      .ok (createPage metadata htmlContent inlineCSS inlineJS)

/-- Lines 249-250 of `saveHTMLFile`: the path the page of `mdPath` is written to. -/
def htmlPath (mdPath srcDir distDir : Str) : Str :=
  let relativePath := TrimPrefix mdPath srcDir
  Join distDir (TrimSuffix relativePath ".md".toList ++ ".html".toList)

/-! ## The file system

The working directory of the process is a tree; the program reaches it through
path strings.  The model covers local paths: relative, without a `..` element.
`main` uses the roots `src` and `dist`, and every other path it hands to the
operating system is built from those by `filepath.Join`. -/

/-- A file with its bytes, or a directory with its entries by name, in the
order `ReadDir` lists them. -/
inductive Node where
  | file : Str → Node
  | dir : List (Str × Node) → Node

/-- The entries of a directory. -/
abbrev Entries := List (Str × Node)

/-- The tree under the working directory. -/
abbrev FS := Node

/-- The entry of a directory with the given name. -/
def getEntry : Entries → Str → Option Node
  | [], _ => none
  | (k, n) :: es, name => if k = name then some n else getEntry es name

/-- The entry with the given name replaced where it stands. -/
def replaceEntry : Entries → Str → Node → Entries
  | [], _, _ => []
  | (k, v) :: es, name, n =>
    if k = name then (k, n) :: es else (k, v) :: replaceEntry es name n

/-- A new entry put before the first entry with a greater name. -/
def insertEntry : Entries → Str → Node → Entries
  | [], name, n => [(name, n)]
  | (k, v) :: es, name, n =>
    if name < k then (name, n) :: (k, v) :: es else (k, v) :: insertEntry es name n

/-- The entry with the given name set: replaced when the directory has it, and
added in name order otherwise. -/
def setEntry (es : Entries) (name : Str) (n : Node) : Entries :=
  if (getEntry es name).isSome then replaceEntry es name n else insertEntry es name n

/-- The node reached from `n` through the names `cs`. -/
def Node.lookup : Node → List Str → Option Node
  | n, [] => some n
  | .file _, _ :: _ => none
  | .dir es, c :: cs =>
    match getEntry es c with
    | none => none
    | some n => n.lookup cs

/-- The tree after `mkdir -p` of the names `cs` below `n`: existing
directories are kept, missing ones are created empty, and a file on the way is
an error (`none`). -/
def Node.mkdirAll : Node → List Str → Option Node
  | .file _, _ => none
  | .dir es, [] => some (.dir es)
  | .dir es, c :: cs =>
    match ((getEntry es c).getD (.dir [])).mkdirAll cs with
    | none => none
    | some n => some (.dir (setEntry es c n))

/-- The tree after creating or truncating the file at `cs` below `n` and
writing `data` to it.  An error (`none`) when the place is a directory, or its
parent is missing or is a file. -/
def Node.writeFile : Node → List Str → Str → Option Node
  | .file _, [], data => some (.file data)
  | .dir _, [], _ => none
  | .file _, _ :: _, _ => none
  | .dir es, c :: cs, data =>
    match getEntry es c with
    | none => if cs = [] then some (.dir (setEntry es c (.file data))) else none
    | some n =>
      match n.writeFile cs data with
      | none => none
      | some n' => some (.dir (setEntry es c n'))

/-- The tree without the node at `cs` and all below it. -/
def Node.remove : Node → List Str → Node
  | n, [] => n
  | .file d, _ :: _ => .file d
  | .dir es, [c] => .dir (es.filter (fun e => e.1 ≠ c))
  | .dir es, c :: c' :: cs =>
    match getEntry es c with
    | none => .dir es
    | some n => .dir (setEntry es c (n.remove (c' :: cs)))

/-- The tree after `mkdirAll` of the names `ds` and the write of `data` to the
file `name` below them, and the tree as it was when one of the two fails. -/
def Node.save (n : Node) (ds : List Str) (name data : Str) : Node :=
  match n.mkdirAll ds with
  | none => n
  | some n1 =>
    match n1.writeFile (ds ++ [name]) data with
    | none => n
    | some n2 => n2

/-- The names a local path leads through from the working directory: its
elements other than the empty one and `.`.  `none` for the empty path, a
rooted path and a path with a `..` element, which the model does not cover. -/
def resolve (path : Str) : Option (List Str) :=
  if path = [] ∨ path.head? = some '/' then none
  else
    let elems := (splitSlash path).filter (fun e => e ≠ [] ∧ e ≠ ['.'])
    if ['.', '.'] ∈ elems then none else some elems

/-- The error of an operation on a path the model does not cover. -/
def errNotLocal : Str := "path outside the working directory".toList

/-- Go `os.Lstat(path)`: the node at `path`. -/
def Lstat (fs : FS) (path : Str) : Except Str Node :=
  match resolve path with
  | none => .error errNotLocal
  | some cs =>
    match fs.lookup cs with
    | none => .error "no such file or directory".toList
    | some n => .ok n

/-- Go `os.ReadFile(path)`. -/
def ReadFile (fs : FS) (path : Str) : Except Str Str :=
  match Lstat fs path with
  | .error e => .error e
  | .ok (.file data) => .ok data
  | .ok (.dir _) => .error "is a directory".toList

/-- Go `os.MkdirAll(path, os.ModePerm)`. -/
def MkdirAll (fs : FS) (path : Str) : Except Str FS :=
  match resolve path with
  | none => .error errNotLocal
  | some cs =>
    match fs.mkdirAll cs with
    | none => .error "not a directory".toList
    | some fs' => .ok fs'

/-- Go `os.WriteFile(path, data, 0644)`, and `os.Create(path)` followed by
writing `data`. -/
def WriteFile (fs : FS) (path data : Str) : Except Str FS :=
  match resolve path with
  | none => .error errNotLocal
  | some cs =>
    match fs.writeFile cs data with
    | none => .error "cannot open file for writing".toList
    | some fs' => .ok fs'

/-- Go `os.RemoveAll(path)`: no error when nothing is there or the path is
empty; an error for a path that ends in a `.` element. -/
def RemoveAll (fs : FS) (path : Str) : Except Str FS :=
  if path = [] then .ok fs
  else if lastElem path = ['.'] then .error "invalid argument".toList
  else
    match resolve path with
    | none => .error errNotLocal
    | some cs => .ok (fs.remove cs)

/-- The paths `filepath.Walk` visits below and including `path`, each with
whether it is a directory: a directory before its entries, the entries in
listing order, each under the name `filepath.Join(path, name)`. -/
def walkNode : Str → Node → List (Str × Bool)
  | path, .file _ => [(path, false)]
  | path, .dir es => (path, true) :: walkEntries path es
where
  /-- The visits of the entries of the directory `path`. -/
  walkEntries : Str → List (Str × Node) → List (Str × Bool)
  | _, [] => []
  | path, (name, n) :: rest => walkNode (Join path name) n ++ walkEntries path rest

/-! ## The stateful functions of `main.go` -/

/-- The tree a call leaves and the error it returns (`none` is `nil`). -/
structure Outcome where
  fs : FS
  err : Option Str

/-- The function `prepareDirectories` (lines 77-89). -/
def prepareDirectories (fs : FS) (distDir : Str) : Outcome :=
  match RemoveAll fs distDir with
  | .error e =>
    ⟨fs, some ("failed to clear destination directory ".toList ++ distDir ++ ": ".toList ++ e)⟩
  | .ok fs1 =>
    match MkdirAll fs1 distDir with
    | .error e =>
      ⟨fs1, some ("failed to create destination directory ".toList ++ distDir ++ ": ".toList ++ e)⟩
    | .ok fs2 => ⟨fs2, none⟩

/-- The function `collectMarkdownFiles` (lines 91-106): the visited paths that
are not directories and end in `.md`, in visiting order, and the error of the
walk. -/
def collectMarkdownFiles (fs : FS) (srcDir : Str) : List Str × Option Str :=
  match Lstat fs srcDir with
  | .error e => ([], some e)
  | .ok n =>
    (((walkNode srcDir n).filter
        (fun visit => !(visit.2 || !HasSuffix visit.1 ".md".toList))).map (·.1), none)

/-- The function `copyFile` (lines 158-177): the source is opened, the
destination is created or truncated, and the bytes the source then holds are
copied. -/
def copyFile (fs : FS) (srcPath destPath : Str) : Outcome :=
  match Lstat fs srcPath with
  | .error e =>
    ⟨fs, some ("failed to open source file ".toList ++ srcPath ++ ": ".toList ++ e)⟩
  | .ok _ =>
    match WriteFile fs destPath [] with
    | .error e =>
      ⟨fs, some ("failed to create destination file ".toList ++ destPath ++ ": ".toList ++ e)⟩
    | .ok fs1 =>
      match ReadFile fs1 srcPath with
      | .error e =>
        ⟨fs1, some ("error copying file from ".toList ++ srcPath ++ " to ".toList ++ destPath
          ++ ": ".toList ++ e)⟩
      | .ok data =>
        match WriteFile fs1 destPath data with
        | .error e =>
          ⟨fs1, some ("error copying file from ".toList ++ srcPath ++ " to ".toList ++ destPath
            ++ ": ".toList ++ e)⟩
        | .ok fs2 => ⟨fs2, none⟩

/-- The callback of `copyAssets` (lines 139-155) for one visited path. -/
def copyAssetsVisit (fs : FS) (src dest path : Str) (isDir : Bool) : Outcome :=
  let destPath := Join dest (TrimPrefix path src)
  if isDir then
    match MkdirAll fs destPath with
    | .error e =>
      ⟨fs, some ("error creating directory ".toList ++ destPath ++ ": ".toList ++ e)⟩
    | .ok fs1 => ⟨fs1, none⟩
  else copyFile fs path destPath

/-- The walk of `copyAssets` over the visited paths: it stops at the first
error. -/
def copyAssetsWalk (src dest : Str) : List (Str × Bool) → FS → Outcome
  | [], fs => ⟨fs, none⟩
  | (path, isDir) :: rest, fs =>
    match copyAssetsVisit fs src dest path isDir with
    | ⟨fs1, some e⟩ => ⟨fs1, some e⟩
    | ⟨fs1, none⟩ => copyAssetsWalk src dest rest fs1

/-- The function `copyAssets` (lines 138-156).  The source tree is read as it
is when the walk starts. -/
def copyAssets (fs : FS) (src dest : Str) : Outcome :=
  match Lstat fs src with
  | .error e => ⟨fs, some e⟩
  | .ok n => copyAssetsWalk src dest (walkNode src n) fs

/-- The function `saveHTMLFile` (lines 248-263). -/
def saveHTMLFile (fs : FS) (data mdPath srcDir distDir : Str) : Outcome :=
  let htmlPath := htmlPath mdPath srcDir distDir
  match MkdirAll fs (Dir htmlPath) with
  | .error e =>
    ⟨fs, some ("failed to create directory for output file ".toList ++ htmlPath
      ++ ": ".toList ++ e)⟩
  | .ok fs1 =>
    match WriteFile fs1 htmlPath data with
    | .error e =>
      ⟨fs1, some ("failed to write HTML output to ".toList ++ htmlPath ++ ": ".toList ++ e)⟩
    | .ok fs2 => ⟨fs2, none⟩

/-- Go `template.ParseFiles(path)`: the file is read and its text parsed. -/
def parseFiles (env : Env) (fs : FS) (path : Str) : Except Str Str :=
  match ReadFile fs path with
  | .error e => .error e
  | .ok text => env.parseTemplate text

/-- The function `renderHTMLPage` (lines 232-246). -/
def renderHTMLPage (env : Env) (fs : FS) (page : Page) (mdPath srcDir distDir : Str) :
    Outcome :=
  let layoutTemplatePath := Join srcDir "layout.html".toList
  match parseFiles env fs layoutTemplatePath with
  | .error e =>
    ⟨fs, some ("failed to parse layout template ".toList ++ layoutTemplatePath
      ++ ": ".toList ++ e)⟩
  | .ok layoutTemplate =>
    match env.executeTemplate layoutTemplate page with
    | .error e =>
      ⟨fs, some ("failed to execute layout template for page ".toList ++ page.Title
        ++ ": ".toList ++ e)⟩
    | .ok output => saveHTMLFile fs output mdPath srcDir distDir

/-- The function `processMarkdownFile` (lines 179-211). -/
def processMarkdownFile (env : Env) (fs : FS) (mdPath srcDir distDir : Str) : Outcome :=
  match ReadFile fs mdPath with
  | .error e => ⟨fs, some ("failed to read file ".toList ++ mdPath ++ ": ".toList ++ e)⟩
  | .ok content =>
    match env.parseFrontMatter content with
    | .error e =>
      ⟨fs, some ("failed to parse front matter for ".toList ++ mdPath ++ ": ".toList ++ e)⟩
    | .ok (frontMatter, body) =>
      let metadata := frontMatter.decodeInto Metadata.zero
      if !metadata.Status then ⟨fs, none⟩
      else
        match assemblePage env mdPath metadata body with
        | .error e => ⟨fs, some e⟩
        | .ok page => renderHTMLPage env fs page mdPath srcDir distDir

/-- The tree and the lines logged so far. -/
structure RunState where
  fs : FS
  log : List Str

/-- The body of one goroutine of `processFilesConcurrently` (lines 112-118):
the file is processed and an error is logged with its path, not returned. -/
def processTask (env : Env) (srcDir distDir : Str) (st : RunState) (file : Str) : RunState :=
  match processMarkdownFile env st.fs file srcDir distDir with
  | ⟨fs1, none⟩ => ⟨fs1, st.log⟩
  | ⟨fs1, some e⟩ =>
    ⟨fs1, st.log ++ ["Error processing file ".toList ++ file ++ ": ".toList ++ e]⟩

/-- The goroutines taking effect one after the other in the given order. -/
def runTasks (env : Env) (srcDir distDir : Str) (order : List Str) (st : RunState) :
    RunState :=
  order.foldl (processTask env srcDir distDir) st

/-- A choice of the runtime: the order in which the goroutines started for a
list of files take effect.  It is a permutation of the list. -/
def IsSchedule (sched : List Str → List Str) : Prop := ∀ files, (sched files).Perm files

/-- The function `processFilesConcurrently` (lines 108-121): one goroutine per
file, all waited for.  The goroutines take effect in the order the schedule
picks. -/
def processFilesConcurrently (env : Env) (sched : List Str → List Str) (files : List Str)
    (srcDir distDir : Str) (st : RunState) : RunState :=
  runTasks env srcDir distDir (sched files) st

/-- What a run of the program leaves: the tree, the log, and whether it
ended in `log.Fatalf`. -/
structure RunResult where
  fs : FS
  log : List Str
  fatal : Bool

/-- The function `main` (lines 55-75) for the roots `srcDir` and `distDir`. -/
def run (env : Env) (sched : List Str → List Str) (srcDir distDir : Str) (fs : FS) :
    RunResult :=
  match prepareDirectories fs distDir with
  | ⟨fs1, some e⟩ => ⟨fs1, ["Error setting up directories: ".toList ++ e], true⟩
  | ⟨fs1, none⟩ =>
    let copied := copyAssets fs1 (Join srcDir "assets".toList) distDir
    let log :=
      match copied.err with
      | some e => ["Error copying assets: ".toList ++ e]
      | none => []
    match collectMarkdownFiles copied.fs srcDir with
    | (_, some e) => ⟨copied.fs, log ++ ["Error collecting markdown files: ".toList ++ e], true⟩
    | (files, none) =>
      let st := processFilesConcurrently env sched files srcDir distDir ⟨copied.fs, log⟩
      ⟨st.fs, st.log, false⟩

/-- The function `main` (lines 55-75). -/
def main (env : Env) (sched : List Str → List Str) (fs : FS) : RunResult :=
  run env sched "src".toList "dist".toList fs

/-! ## Paths and trees as the operating system knows them -/

/-- A file name of a directory entry: not empty, not `.` or `..`, and without a
separator. -/
def validName (name : Str) : Bool :=
  decide (name ≠ [] ∧ name ≠ ['.'] ∧ name ≠ ['.', '.'] ∧ '/' ∉ name)

/-- An element that `filepath.Clean` keeps as a name: not empty, not `.` and
not `..`. -/
def IsName (e : Str) : Prop := e ≠ [] ∧ e ≠ ['.'] ∧ e ≠ ['.', '.']

/-- A path below a directory as a walk builds it: file names joined by
separators. -/
def isTreePath (r : Str) : Bool := (splitSlash r).all validName

/-- A clean relative path: `filepath.Clean` leaves it as it is and it does not
start with a separator. -/
def isCleanRel (p : Str) : Bool := decide (Clean p = p ∧ p.head? ≠ some '/')

/-- The relative path `r` with its trailing `.md` replaced by `.html`. -/
def swapExt (r : Str) : Str := TrimSuffix r ".md".toList ++ ".html".toList

/-- The path of the node reached from `root` through the names `p`, as a walk
from `root` builds it. -/
def pathBelow (root : Str) (p : List Str) : Str :=
  if p = [] then root else root ++ '/' :: joinSlash p

/-- A root that a walk extends by appending names: a clean path other than `.`
and `/`. -/
def IsWalkRoot (root : Str) : Prop := Clean root = root ∧ root ≠ ['.'] ∧ root ≠ ['/']

/-- Every name in the tree is a file name. -/
def Node.validNames : Node → Bool
  | .file _ => true
  | .dir es => entriesValid es
where
  /-- Every name in and below the entries is a file name. -/
  entriesValid : List (Str × Node) → Bool
  | [] => true
  | (name, n) :: rest => validName name && n.validNames && entriesValid rest

/-- Every name below the source root `src` of the tree is a file name. -/
def sourceValid (fs : FS) : Bool :=
  match fs.lookup ["src".toList] with
  | some n => n.validNames
  | none => true

/-- The names the output path of the Markdown file `f` leads through, for the
roots `src` and `dist`. -/
def outputNames (f : Str) : List Str :=
  (resolve (htmlPath f "src".toList "dist".toList)).getD []

/-- No output path of a file of the list is a directory on the way to, or the
same as, the output path of another file of the list. -/
def noPathClash (files : List Str) : Bool :=
  files.all fun f => files.all fun g =>
    decide (f = g) || !(outputNames f).isPrefixOf (outputNames g)

/-! ## An instance of the collaborators

A small instance used to evaluate the program on concrete trees.  It agrees
with the libraries on the inputs used: a document that starts with the header
below is published, a document without a front-matter delimiter has no keys, a
layout without template actions is rendered as its own text, and the styles
`monokai` and `monokailight` are registered. -/

/-- A front-matter block with `status: true` and nothing else. -/
def publishedHeader : Str := "---\nstatus: true\n---\n".toList

/-- A front-matter block with `status: false` and nothing else. -/
def draftHeader : Str := "---\nstatus: false\n---\n".toList

/-- A front-matter block without keys. -/
def FrontMatter.empty : FrontMatter :=
  { title := none, desc := none, date := none, status := none, css := none, js := none }

/-- The instance of the collaborators.  A document that opens a front-matter
block other than the two above is rejected as malformed. -/
def demoEnv : Env where
  Style := Str
  parseFrontMatter := fun content =>
    if HasPrefix content publishedHeader then
      .ok ({ FrontMatter.empty with status := some true }, content.drop publishedHeader.length)
    else if HasPrefix content draftHeader then
      .ok ({ FrontMatter.empty with status := some false }, content.drop draftHeader.length)
    else if HasPrefix content "---".toList then .error "malformed front matter".toList
    else .ok (FrontMatter.empty, content)
  convert := fun _ body => .ok body
  Registry := fun name =>
    if name = "monokai".toList ∨ name = "monokailight".toList then some name else none
  Fallback := "swapoff".toList
  writeCSS := fun style => .ok ("/* ".toList ++ style ++ " */".toList)
  parseTemplate := fun text => .ok text
  executeTemplate := fun layout _ => .ok layout

/-- A tree with a published document named `.md`, a document with malformed
front matter, a draft, and a published document in a directory. -/
def sampleTree : FS :=
  .dir [("src".toList, .dir [
    (".md".toList, .file publishedHeader),
    ("bad.md".toList, .file "---\n: :\n---\n".toList),
    ("draft.md".toList, .file draftHeader),
    ("layout.html".toList, .file "L".toList),
    ("posts".toList, .dir [("hello.md".toList, .file (publishedHeader ++ "# Hello".toList))])])]

/-- A tree with the asset `src/assets/logo.svg` and a published document. -/
def assetTree : FS :=
  .dir [("src".toList, .dir [
    ("assets".toList, .dir [("logo.svg".toList, .file "<svg/>".toList)]),
    ("index.md".toList, .file publishedHeader),
    ("layout.html".toList, .file "L".toList)])]

/-- A tree with the asset `src/assets/index.html` and the published document
`src/index.md`. -/
def assetClashTree : FS :=
  .dir [("src".toList, .dir [
    ("assets".toList, .dir [("index.html".toList, .file "A".toList)]),
    ("index.md".toList, .file publishedHeader),
    ("layout.html".toList, .file "L".toList)])]

/-- A tree with the published documents `src/a.html/b.md` and `src/a.md`. -/
def pathClashTree : FS :=
  .dir [("src".toList, .dir [
    ("a.html".toList, .dir [("b.md".toList, .file publishedHeader)]),
    ("a.md".toList, .file publishedHeader),
    ("layout.html".toList, .file "L".toList)])]

/-! ## Path elements -/

theorem splitSlash_ne_nil (s : Str) : splitSlash s ≠ [] := by
  cases s with
  | nil => simp [splitSlash]
  | cons c cs =>
    unfold splitSlash
    split
    · simp
    · split <;> simp

theorem splitSlash_cons_slash (s : Str) : splitSlash ('/' :: s) = [] :: splitSlash s := by
  simp [splitSlash]

theorem splitSlash_cons_char (c : Char) (s : Str) (hc : c ≠ '/') :
    ∃ e es, splitSlash s = e :: es ∧ splitSlash (c :: s) = (c :: e) :: es := by
  cases h : splitSlash s with
  | nil => exact absurd h (splitSlash_ne_nil s)
  | cons e es => exact ⟨e, es, rfl, by simp [splitSlash, hc, h]⟩

theorem splitSlash_noSlash (s : Str) (hs : '/' ∉ s) : splitSlash s = [s] := by
  induction s with
  | nil => rfl
  | cons c cs ih =>
    have hc : c ≠ '/' := fun h => hs (by simp [h])
    have hcs : '/' ∉ cs := fun h => hs (List.mem_cons_of_mem _ h)
    simp [splitSlash, hc, ih hcs]

theorem splitSlash_append_slash (a b : Str) :
    splitSlash (a ++ '/' :: b) = splitSlash a ++ splitSlash b := by
  induction a with
  | nil => simp [splitSlash]
  | cons c cs ih =>
    by_cases hc : c = '/'
    · subst hc
      simp [splitSlash, ih]
    · obtain ⟨e, es, h1, h2⟩ := splitSlash_cons_char c cs hc
      rw [h2]
      have : splitSlash (c :: cs ++ '/' :: b) = (c :: e) :: (es ++ splitSlash b) := by
        have h3 : splitSlash (cs ++ '/' :: b) = e :: (es ++ splitSlash b) := by
          rw [ih, h1]; rfl
        simp [splitSlash, hc, h3]
      simpa using this

theorem splitSlash_elem_noSlash (s : Str) : ∀ e ∈ splitSlash s, '/' ∉ e := by
  induction s with
  | nil => simp [splitSlash]
  | cons c cs ih =>
    by_cases hc : c = '/'
    · subst hc
      intro e he
      rw [splitSlash_cons_slash] at he
      rcases List.mem_cons.mp he with h | h
      · subst h; simp
      · exact ih e h
    · obtain ⟨e', es, h1, h2⟩ := splitSlash_cons_char c cs hc
      intro e he
      rw [h2] at he
      rw [h1] at ih
      rcases List.mem_cons.mp he with h | h
      · subst h
        intro hm
        rcases List.mem_cons.mp hm with h' | h'
        · exact hc h'.symm
        · exact ih e' (List.mem_cons_self _ _) h'
      · exact ih e (List.mem_cons_of_mem _ h)

theorem joinSlash_cons_cons (e e' : Str) (es : List Str) :
    joinSlash (e :: e' :: es) = e ++ '/' :: joinSlash (e' :: es) := rfl

theorem joinSlash_append (xs ys : List Str) (hx : xs ≠ []) (hy : ys ≠ []) :
    joinSlash (xs ++ ys) = joinSlash xs ++ '/' :: joinSlash ys := by
  induction xs with
  | nil => exact absurd rfl hx
  | cons x xs ih =>
    cases xs with
    | nil =>
      cases ys with
      | nil => exact absurd rfl hy
      | cons y ys => simp [joinSlash]
    | cons x' xs =>
      have := ih (by simp)
      simp only [List.cons_append, joinSlash_cons_cons] at this ⊢
      rw [this]; simp

theorem joinSlash_splitSlash (s : Str) : joinSlash (splitSlash s) = s := by
  induction s with
  | nil => rfl
  | cons c cs ih =>
    by_cases hc : c = '/'
    · subst hc
      rw [splitSlash_cons_slash]
      cases h : splitSlash cs with
      | nil => exact absurd h (splitSlash_ne_nil cs)
      | cons e es =>
        rw [joinSlash_cons_cons, ← h, ih]; rfl
    · obtain ⟨e, es, h1, h2⟩ := splitSlash_cons_char c cs hc
      rw [h2]
      rw [h1] at ih
      cases es with
      | nil => simp [joinSlash] at ih ⊢; exact ih
      | cons e' es =>
        rw [joinSlash_cons_cons] at ih ⊢
        simp [← ih]

theorem splitSlash_joinSlash (es : List Str) (hne : es ≠ []) (hs : ∀ e ∈ es, '/' ∉ e) :
    splitSlash (joinSlash es) = es := by
  induction es with
  | nil => exact absurd rfl hne
  | cons e es ih =>
    cases es with
    | nil => simpa [joinSlash] using splitSlash_noSlash e (hs e (by simp))
    | cons e' es =>
      rw [joinSlash_cons_cons, splitSlash_append_slash,
        splitSlash_noSlash e (hs e (by simp)), ih (by simp) (fun x hx => hs x (by simp [hx]))]
      rfl

/-! ## `filepath.Clean` and `filepath.Join` -/

theorem validName_iff (n : Str) : validName n = true ↔ IsName n ∧ '/' ∉ n := by
  simp [validName, IsName, and_assoc]

theorem cleanStep_name (rooted : Bool) (out : List Str) (e : Str) (he : IsName e) :
    cleanStep rooted out e = e :: out := by
  obtain ⟨h1, h2, h3⟩ := he
  simp [cleanStep, h1, h2, h3]

theorem foldl_cleanStep_names (rooted : Bool) (names : List Str)
    (hn : ∀ e ∈ names, IsName e) (out : List Str) :
    names.foldl (cleanStep rooted) out = names.reverse ++ out := by
  induction names generalizing out with
  | nil => rfl
  | cons e es ih =>
    rw [List.foldl_cons, cleanStep_name rooted out e (hn e (by simp)),
      ih (fun x hx => hn x (by simp [hx]))]
    simp

theorem head?_append_of_ne_nil (p q : Str) (hp : p ≠ []) : (p ++ q).head? = p.head? := by
  cases p with
  | nil => exact absurd rfl hp
  | cons c cs => rfl

theorem cleanOut_append_names (p : Str) (hp : p ≠ []) (names : List Str) (hne : names ≠ [])
    (hn : ∀ e ∈ names, IsName e) (hs : ∀ e ∈ names, '/' ∉ e) :
    cleanOut (p ++ '/' :: joinSlash names) = names.reverse ++ cleanOut p := by
  unfold cleanOut
  rw [head?_append_of_ne_nil p _ hp, splitSlash_append_slash, List.foldl_append,
    splitSlash_joinSlash names hne hs, foldl_cleanStep_names _ names hn]


theorem clean_ne_nil_of_fixed (p : Str) (hp : Clean p = p) : p ≠ [] := by
  intro h
  subst h
  simp [Clean] at hp

/-- Joining file names onto a clean path other than `.` and `/` appends them
after a separator. -/
theorem Join_clean_names (p : Str) (hp : Clean p = p) (hdot : p ≠ ['.']) (hroot : p ≠ ['/'])
    (names : List Str) (hne : names ≠ []) (hn : ∀ e ∈ names, IsName e)
    (hs : ∀ e ∈ names, '/' ∉ e) :
    Join p (joinSlash names) = p ++ '/' :: joinSlash names := by
  have hp0 : p ≠ [] := clean_ne_nil_of_fixed p hp
  have hrev : (names.reverse ++ cleanOut p).reverse = (cleanOut p).reverse ++ names := by simp
  have hnn : names.reverse ++ cleanOut p ≠ [] := by simp [hne]
  unfold Join
  rw [if_pos hp0]
  unfold Clean
  rw [if_neg (by simp), head?_append_of_ne_nil p _ hp0,
    cleanOut_append_names p hp0 names hne hn hs, hrev]
  unfold Clean at hp
  rw [if_neg hp0] at hp
  by_cases hr : p.head? = some '/'
  · rw [if_pos hr] at hp ⊢
    have hout : (cleanOut p).reverse ≠ [] := by
      intro h0
      rw [h0] at hp
      exact hroot hp.symm
    rw [joinSlash_append _ _ hout hne]
    conv_rhs => rw [← hp]
    simp
  · rw [if_neg hr] at hp ⊢
    rw [if_neg hnn]
    by_cases ho : cleanOut p = []
    · rw [if_pos ho] at hp
      exact absurd hp.symm hdot
    · rw [if_neg ho] at hp
      have hout : (cleanOut p).reverse ≠ [] := by simpa using ho
      rw [joinSlash_append _ _ hout hne]
      conv_rhs => rw [← hp]

theorem isTreePath_names (r : Str) (hr : isTreePath r = true) :
    splitSlash r ≠ [] ∧ (∀ e ∈ splitSlash r, IsName e) ∧ (∀ e ∈ splitSlash r, '/' ∉ e) ∧
      joinSlash (splitSlash r) = r := by
  refine ⟨splitSlash_ne_nil r, ?_, splitSlash_elem_noSlash r, joinSlash_splitSlash r⟩
  intro e he
  have := List.all_eq_true.mp hr e he
  exact ((validName_iff e).mp this).1

/-- Joining a path of file names onto a clean path other than `.` and `/`. -/
theorem Join_clean_treePath (p r : Str) (hp : Clean p = p) (hdot : p ≠ ['.'])
    (hroot : p ≠ ['/']) (hr : isTreePath r = true) : Join p r = p ++ '/' :: r := by
  obtain ⟨h1, h2, h3, h4⟩ := isTreePath_names r hr
  have := Join_clean_names p hp hdot hroot (splitSlash r) h1 h2 h3
  rwa [h4] at this

/-! ## `strings.TrimPrefix`, `strings.TrimSuffix` and the output path -/

theorem TrimPrefix_append (p q : Str) : TrimPrefix (p ++ q) p = q := by
  simp [TrimPrefix, HasPrefix]

theorem TrimSuffix_append (s suf : Str) : TrimSuffix (s ++ suf) suf = s := by
  simp [TrimSuffix, HasSuffix]

theorem HasSuffix_iff (s suf : Str) : HasSuffix s suf = true ↔ ∃ t, s = t ++ suf := by
  unfold HasSuffix
  rw [List.isSuffixOf_iff_suffix]
  constructor
  · rintro ⟨t, ht⟩; exact ⟨t, ht.symm⟩
  · rintro ⟨t, ht⟩; exact ⟨t, ht.symm⟩

theorem cleanStep_empty (rooted : Bool) (out : List Str) : cleanStep rooted out [] = out := by
  simp [cleanStep]

theorem cleanOut_double_slash (d x : Str) (hd : d ≠ []) :
    cleanOut (d ++ '/' :: '/' :: x) = cleanOut (d ++ '/' :: x) := by
  unfold cleanOut
  rw [head?_append_of_ne_nil d _ hd, head?_append_of_ne_nil d _ hd, splitSlash_append_slash,
    splitSlash_append_slash, splitSlash_cons_slash, List.foldl_append, List.foldl_append,
    List.foldl_cons, cleanStep_empty]

theorem Clean_congr (p q : Str) (hp : p ≠ []) (hq : q ≠ []) (hh : p.head? = q.head?)
    (ho : cleanOut p = cleanOut q) : Clean p = Clean q := by
  unfold Clean
  rw [if_neg hp, if_neg hq, hh, ho]

/-- A separator at the start of the second argument of `filepath.Join` is
absorbed by the one the join inserts. -/
theorem Join_slash (d x : Str) (hd : d ≠ []) : Join d ('/' :: x) = Join d x := by
  unfold Join
  rw [if_pos hd, if_pos hd]
  apply Clean_congr
  · simp
  · simp
  · rw [head?_append_of_ne_nil d _ hd, head?_append_of_ne_nil d _ hd]
  · exact cleanOut_double_slash d x hd

/-- The output path of a Markdown file `srcDir/r` below a clean source root
other than `.` and `/`. -/
theorem htmlPath_join (srcDir distDir r : Str) (hsrc : Clean srcDir = srcDir)
    (hdot : srcDir ≠ ['.']) (hroot : srcDir ≠ ['/']) (hdist : distDir ≠ [])
    (hr : isTreePath r = true) (hmd : HasSuffix r ".md".toList = true) :
    htmlPath (Join srcDir r) srcDir distDir = Join distDir (swapExt r) := by
  obtain ⟨t, ht⟩ := (HasSuffix_iff r _).mp hmd
  rw [Join_clean_treePath srcDir r hsrc hdot hroot hr]
  unfold htmlPath swapExt
  simp only []
  rw [TrimPrefix_append, ht]
  have : '/' :: (t ++ ".md".toList) = ('/' :: t) ++ ".md".toList := rfl
  rw [this, TrimSuffix_append, TrimSuffix_append]
  exact Join_slash distDir _ hdist

/-! ## The output path is injective -/

theorem splitSlash_append_noSlash (t s : Str) (hs : '/' ∉ s) :
    ∃ init last, splitSlash t = init ++ [last] ∧ splitSlash (t ++ s) = init ++ [last ++ s] := by
  induction t with
  | nil => exact ⟨[], [], rfl, by simpa using splitSlash_noSlash s hs⟩
  | cons c cs ih =>
    obtain ⟨init, last, h1, h2⟩ := ih
    by_cases hc : c = '/'
    · subst hc
      refine ⟨[] :: init, last, ?_, ?_⟩
      · rw [splitSlash_cons_slash, h1]; rfl
      · rw [List.cons_append, splitSlash_cons_slash, h2]; rfl
    · cases init with
      | nil =>
        refine ⟨[], c :: last, ?_, ?_⟩
        · simp [splitSlash, hc, h1]
        · simp only [List.nil_append] at h2
          simp [splitSlash, hc, h2]
      | cons e es =>
        refine ⟨(c :: e) :: es, last, ?_, ?_⟩
        · simp [splitSlash, hc, h1]
        · simp only [List.cons_append] at h2
          simp [splitSlash, hc, h2]

theorem swapExt_append (t : Str) : swapExt (t ++ ".md".toList) = t ++ ".html".toList := by
  unfold swapExt
  rw [TrimSuffix_append]

theorem isTreePath_swapExt (r : Str) (hr : isTreePath r = true)
    (hmd : HasSuffix r ".md".toList = true) : isTreePath (swapExt r) = true := by
  obtain ⟨t, ht⟩ := (HasSuffix_iff r _).mp hmd
  subst ht
  rw [swapExt_append]
  obtain ⟨init, last, h1, h2⟩ := splitSlash_append_noSlash t ".md".toList (by decide)
  obtain ⟨init', last', h1', h2'⟩ := splitSlash_append_noSlash t ".html".toList (by decide)
  have heq : init = init' ∧ last = last' := by
    have := h1.symm.trans h1'
    have h := List.append_inj' this rfl
    exact ⟨h.1, by simpa using h.2⟩
  obtain ⟨rfl, rfl⟩ := heq
  unfold isTreePath at hr ⊢
  rw [h2] at hr
  rw [h2']
  rw [List.all_eq_true] at hr ⊢
  intro e he
  rcases List.mem_append.mp he with h | h
  · exact hr e (List.mem_append_left _ h)
  · have he' : e = last ++ ".html".toList := by simpa using h
    subst he'
    have hl := hr (last ++ ".md".toList) (by simp)
    rw [validName_iff] at hl ⊢
    obtain ⟨_, hns⟩ := hl
    refine ⟨⟨?_, ?_, ?_⟩, ?_⟩
    · simp
    · intro h0
      have := congrArg List.length h0
      simp at this
    · intro h0
      have := congrArg List.length h0
      simp at this
    · intro hm
      rcases List.mem_append.mp hm with h' | h'
      · exact hns (List.mem_append_left _ h')
      · revert h'; decide

theorem swapExt_injective (r1 r2 : Str) (h1 : HasSuffix r1 ".md".toList = true)
    (h2 : HasSuffix r2 ".md".toList = true) (h : swapExt r1 = swapExt r2) : r1 = r2 := by
  obtain ⟨t1, rfl⟩ := (HasSuffix_iff r1 _).mp h1
  obtain ⟨t2, rfl⟩ := (HasSuffix_iff r2 _).mp h2
  rw [swapExt_append, swapExt_append] at h
  rw [List.append_cancel_right h]

theorem cleanStep_mem (rooted : Bool) (out : List Str) (x e : Str)
    (he : e ∈ cleanStep rooted out x) : e ∈ out ∨ e = x := by
  unfold cleanStep at he
  split at he
  · exact Or.inl he
  · split at he
    · split at he
      · split at he
        · simp at he
        · right; simpa using he
      · split at he
        · split at he
          · exact Or.inl he
          · rcases List.mem_cons.mp he with h | h
            · exact Or.inr h
            · exact Or.inl h
        · exact Or.inl (List.mem_cons_of_mem _ he)
    · rcases List.mem_cons.mp he with h | h
      · exact Or.inr h
      · exact Or.inl h

theorem foldl_cleanStep_mem (rooted : Bool) (l : List Str) (out : List Str) (e : Str)
    (he : e ∈ l.foldl (cleanStep rooted) out) : e ∈ out ∨ e ∈ l := by
  induction l generalizing out with
  | nil => exact Or.inl he
  | cons x xs ih =>
    rcases ih _ he with h | h
    · rcases cleanStep_mem rooted out x e h with h' | h'
      · exact Or.inl h'
      · exact Or.inr (by simp [h'])
    · exact Or.inr (List.mem_cons_of_mem _ h)

theorem cleanOut_noSlash (p : Str) : ∀ e ∈ cleanOut p, '/' ∉ e := by
  intro e he
  rcases foldl_cleanStep_mem _ _ _ _ he with h | h
  · simp at h
  · exact splitSlash_elem_noSlash p e h

/-- The elements `filepath.Clean` ends with when the path is `b` followed by a
path of file names. -/
theorem cleanOut_prefix_treePath (b x : Str) (pre : List Str) (hx : isTreePath x = true)
    (hsplit : splitSlash (b ++ x) = pre ++ splitSlash x) :
    cleanOut (b ++ x) =
      (splitSlash x).reverse ++ pre.foldl (cleanStep ((b ++ x).head? = some '/')) [] := by
  obtain ⟨_, h2, _, _⟩ := isTreePath_names x hx
  unfold cleanOut
  rw [hsplit, List.foldl_append, foldl_cleanStep_names _ _ h2]

theorem joinSlash_append_cancel (s : List Str) (n1 n2 : List Str) (h1 : n1 ≠ []) (h2 : n2 ≠ [])
    (hs : ∀ e ∈ s, '/' ∉ e) (hn1 : ∀ e ∈ n1, '/' ∉ e) (hn2 : ∀ e ∈ n2, '/' ∉ e)
    (h : joinSlash (s ++ n1) = joinSlash (s ++ n2)) : n1 = n2 := by
  have e1 := splitSlash_joinSlash (s ++ n1) (by simp [h1])
    (fun e he => (List.mem_append.mp he).elim (hs e) (hn1 e))
  have e2 := splitSlash_joinSlash (s ++ n2) (by simp [h2])
    (fun e he => (List.mem_append.mp he).elim (hs e) (hn2 e))
  rw [h, e2] at e1
  exact (List.append_cancel_left e1).symm

theorem isTreePath_ne_nil (x : Str) (hx : isTreePath x = true) : x ≠ [] := by
  intro h
  subst h
  revert hx
  decide

theorem isTreePath_head (x : Str) (hx : isTreePath x = true) : x.head? ≠ some '/' := by
  intro h
  cases x with
  | nil => simp at h
  | cons c cs =>
    have hc : c = '/' := by simpa using h
    subst hc
    unfold isTreePath at hx
    rw [splitSlash_cons_slash] at hx
    simp [validName] at hx

theorem Clean_prefix_treePath (b x : Str) (pre : List Str) (hx : isTreePath x = true)
    (hsplit : splitSlash (b ++ x) = pre ++ splitSlash x) :
    Clean (b ++ x) =
      (if (b ++ x).head? = some '/' then ['/'] else []) ++
        joinSlash ((pre.foldl (cleanStep ((b ++ x).head? = some '/')) []).reverse ++
          splitSlash x) := by
  have hne : b ++ x ≠ [] := by
    intro h
    exact isTreePath_ne_nil x hx (List.append_eq_nil.mp h).2
  unfold Clean
  rw [if_neg hne, cleanOut_prefix_treePath b x pre hx hsplit]
  have hnn : (splitSlash x).reverse ++
      pre.foldl (cleanStep ((b ++ x).head? = some '/')) [] ≠ [] := by
    simp [splitSlash_ne_nil]
  rw [if_neg hnn]
  split <;> simp

/-- Cleaning is injective on the paths of file names put after a fixed prefix. -/
theorem Clean_prefix_injective (b x1 x2 : Str) (pre : List Str)
    (hx1 : isTreePath x1 = true) (hx2 : isTreePath x2 = true)
    (hs1 : splitSlash (b ++ x1) = pre ++ splitSlash x1)
    (hs2 : splitSlash (b ++ x2) = pre ++ splitSlash x2)
    (hpre : ∀ e ∈ pre, '/' ∉ e)
    (hh : ((b ++ x1).head? = some '/') ↔ ((b ++ x2).head? = some '/'))
    (h : Clean (b ++ x1) = Clean (b ++ x2)) : x1 = x2 := by
  rw [Clean_prefix_treePath b x1 pre hx1 hs1, Clean_prefix_treePath b x2 pre hx2 hs2] at h
  have hd : decide ((b ++ x1).head? = some '/') = decide ((b ++ x2).head? = some '/') := by
    simp only [decide_eq_decide]; exact hh
  rw [hd] at h
  have hj : joinSlash ((pre.foldl (cleanStep ((b ++ x2).head? = some '/')) []).reverse ++
        splitSlash x1) =
      joinSlash ((pre.foldl (cleanStep ((b ++ x2).head? = some '/')) []).reverse ++
        splitSlash x2) := by
    by_cases hr : (b ++ x2).head? = some '/'
    · rw [if_pos (hh.mpr hr), if_pos hr] at h
      exact List.append_cancel_left h
    · rw [if_neg (fun h' => hr (hh.mp h')), if_neg hr] at h
      simpa using h
  have hS : ∀ e ∈ (pre.foldl (cleanStep ((b ++ x2).head? = some '/')) []).reverse,
      '/' ∉ e := by
    intro e he
    rcases foldl_cleanStep_mem _ _ _ _ (List.mem_reverse.mp he) with h' | h'
    · simp at h'
    · exact hpre e h'
  have := joinSlash_append_cancel _ _ _ (splitSlash_ne_nil x1) (splitSlash_ne_nil x2) hS
    (splitSlash_elem_noSlash x1) (splitSlash_elem_noSlash x2) hj
  rw [← joinSlash_splitSlash x1, ← joinSlash_splitSlash x2, this]

theorem Join_root_treePath (r : Str) (hr : isTreePath r = true) : Join ['/'] r = '/' :: r := by
  unfold Join
  rw [if_pos (by simp)]
  have hsplit : splitSlash (['/', '/'] ++ r) = [[], []] ++ splitSlash r := by
    simp [splitSlash_cons_slash]
  have := Clean_prefix_treePath ['/', '/'] r [[], []] hr hsplit
  simp only [List.cons_append, List.nil_append] at this ⊢
  rw [this]
  simp [cleanStep, joinSlash_splitSlash]


theorem htmlPath_root (distDir r : Str) (hr : isTreePath r = true) :
    htmlPath (Join ['/'] r) ['/'] distDir = Join distDir (swapExt r) := by
  rw [Join_root_treePath r hr]
  unfold htmlPath
  simp only []
  have : TrimPrefix ('/' :: r) ['/'] = r := TrimPrefix_append ['/'] r
  rw [this]
  rfl

theorem htmlPath_join_nil (srcDir r : Str) (hsrc : Clean srcDir = srcDir)
    (hdot : srcDir ≠ ['.']) (hroot : srcDir ≠ ['/'])
    (hr : isTreePath r = true) (hmd : HasSuffix r ".md".toList = true) :
    htmlPath (Join srcDir r) srcDir [] = Clean (['/'] ++ swapExt r) := by
  obtain ⟨t, ht⟩ := (HasSuffix_iff r _).mp hmd
  rw [Join_clean_treePath srcDir r hsrc hdot hroot hr]
  unfold htmlPath
  simp only []
  rw [TrimPrefix_append, ht]
  have : '/' :: (t ++ ".md".toList) = ('/' :: t) ++ ".md".toList := rfl
  rw [this, TrimSuffix_append, swapExt_append]
  simp [Join]

/-- The output paths of the Markdown files below a clean source root other
than `.` are the cleaned forms of one fixed prefix followed by the relative
path with its extension swapped. -/
theorem htmlPath_prefix_form (srcDir distDir : Str) (hsrc : Clean srcDir = srcDir)
    (hdot : srcDir ≠ ['.']) :
    ∃ (b : Str) (pre : List Str), (∀ e ∈ pre, '/' ∉ e) ∧
      ∀ r, isTreePath r = true → HasSuffix r ".md".toList = true →
        htmlPath (Join srcDir r) srcDir distDir = Clean (b ++ swapExt r) ∧
        splitSlash (b ++ swapExt r) = pre ++ splitSlash (swapExt r) ∧
        ((b ++ swapExt r).head? = some '/' ↔ b.head? = some '/') := by
  by_cases hd : distDir = []
  · subst hd
    by_cases hroot : srcDir = ['/']
    · subst hroot
      refine ⟨[], [], by simp, ?_⟩
      intro r hr hmd
      have hx := isTreePath_swapExt r hr hmd
      refine ⟨?_, by simp, by simp [isTreePath_head _ hx]⟩
      rw [htmlPath_root [] r hr]
      simp [Join, isTreePath_ne_nil _ hx]
    · refine ⟨['/'], [[]], by simp, ?_⟩
      intro r hr hmd
      exact ⟨htmlPath_join_nil srcDir r hsrc hdot hroot hr hmd,
        by simp [splitSlash_cons_slash], by simp⟩
  · refine ⟨distDir ++ ['/'], splitSlash distDir, splitSlash_elem_noSlash distDir, ?_⟩
    intro r hr hmd
    have hj : htmlPath (Join srcDir r) srcDir distDir = Join distDir (swapExt r) := by
      by_cases hroot : srcDir = ['/']
      · subst hroot
        exact htmlPath_root distDir r hr
      · exact htmlPath_join srcDir distDir r hsrc hdot hroot hd hr hmd
    refine ⟨?_, ?_, ?_⟩
    · rw [hj]
      unfold Join
      rw [if_pos hd]
      simp
    · rw [List.append_assoc]
      exact splitSlash_append_slash distDir _
    · rw [List.append_assoc, head?_append_of_ne_nil distDir _ hd,
        head?_append_of_ne_nil distDir _ hd]

/-- Below a clean source root other than `.`, two Markdown files with the same
output path are the same file. -/
theorem htmlPath_eq_imp (srcDir distDir r1 r2 : Str) (hsrc : Clean srcDir = srcDir)
    (hdot : srcDir ≠ ['.'])
    (hr1 : isTreePath r1 = true) (hmd1 : HasSuffix r1 ".md".toList = true)
    (hr2 : isTreePath r2 = true) (hmd2 : HasSuffix r2 ".md".toList = true)
    (h : htmlPath (Join srcDir r1) srcDir distDir = htmlPath (Join srcDir r2) srcDir distDir) :
    r1 = r2 := by
  obtain ⟨b, pre, hpre, hform⟩ := htmlPath_prefix_form srcDir distDir hsrc hdot
  obtain ⟨e1, s1, g1⟩ := hform r1 hr1 hmd1
  obtain ⟨e2, s2, g2⟩ := hform r2 hr2 hmd2
  rw [e1, e2] at h
  have := Clean_prefix_injective b (swapExt r1) (swapExt r2) pre
    (isTreePath_swapExt r1 hr1 hmd1) (isTreePath_swapExt r2 hr2 hmd2) s1 s2 hpre
    (g1.trans g2.symm) h
  exact swapExt_injective r1 r2 hmd1 hmd2 this

/-! ## `filepath.Base` and the default title -/

theorem lastElem_append_slash (d name : Str) (hn : '/' ∉ name) :
    lastElem (d ++ '/' :: name) = name := by
  unfold lastElem
  rw [splitSlash_append_slash, splitSlash_noSlash name hn]
  simp

theorem lastElem_noSlash (name : Str) (hn : '/' ∉ name) : lastElem name = name := by
  unfold lastElem
  rw [splitSlash_noSlash name hn]
  rfl

theorem lastElem_dir_name (dir name : Str) (hn : '/' ∉ name)
    (hdir : dir = [] ∨ dir.getLast? = some '/') : lastElem (dir ++ name) = name := by
  rcases hdir with h | h
  · subst h
    exact lastElem_noSlash name hn
  · obtain ⟨d, hd⟩ : ∃ d, dir = d ++ ['/'] := by
      rcases List.eq_nil_or_concat dir with h0 | ⟨d, c, hdc⟩
      · subst h0; simp at h
      · subst hdc
        simp at h
        exact ⟨d, by rw [h]; simp⟩
    subst hd
    rw [List.append_assoc]
    exact lastElem_append_slash d name hn

theorem stripTrailingSlashes_id (p : Str) (c : Char) (hc : c ≠ '/') :
    stripTrailingSlashes (p ++ [c]) = p ++ [c] := by
  unfold stripTrailingSlashes
  simp [List.dropWhile, hc]

/-- The base name of a path whose last element is a non-empty name. -/
theorem Base_dir_name (dir name : Str) (c : Char) (hc : c ≠ '/') (hn : '/' ∉ name)
    (hdir : dir = [] ∨ dir.getLast? = some '/') :
    Base (dir ++ (name ++ [c])) = name ++ [c] := by
  have hnc : '/' ∉ name ++ [c] := by
    intro h
    rcases List.mem_append.mp h with h' | h'
    · exact hn h'
    · have h2 : '/' = c := by simpa using h'
      exact hc h2.symm
  unfold Base
  rw [if_neg (by simp)]
  have : dir ++ (name ++ [c]) = (dir ++ name) ++ [c] := by simp
  simp only []
  rw [this, stripTrailingSlashes_id _ c hc, ← this, lastElem_dir_name dir _ hnc hdir]
  simp

theorem Base_md (dir stem : Str) (hstem : '/' ∉ stem)
    (hdir : dir = [] ∨ dir.getLast? = some '/') :
    Base (dir ++ (stem ++ ".md".toList)) = stem ++ ".md".toList := by
  have h1 : stem ++ ".md".toList = (stem ++ ['.', 'm']) ++ ['d'] := by simp
  rw [h1]
  apply Base_dir_name dir _ 'd' (by decide) _ hdir
  intro h
  rcases List.mem_append.mp h with h' | h'
  · exact hstem h'
  · revert h'; decide

theorem getDefaultTitle_md (dir stem : Str) (hstem : '/' ∉ stem)
    (hdir : dir = [] ∨ dir.getLast? = some '/') :
    getDefaultTitle (dir ++ (stem ++ ".md".toList)) [] = stem := by
  unfold getDefaultTitle
  rw [if_pos rfl, Base_md dir stem hstem hdir, TrimSuffix_append]

theorem assemblePage_title (env : Env) (mdPath : Str) (metadata : Metadata) (body : Str)
    (page : Page) (h : assemblePage env mdPath metadata body = .ok page) :
    page.Title = getDefaultTitle mdPath metadata.Title := by
  unfold assemblePage at h
  simp only [] at h
  split at h
  · cases h
  · split at h
    · cases h
    · cases h
      rfl

theorem assemblePage_inlineCSS (env : Env) (mdPath : Str) (metadata : Metadata) (body : Str)
    (page : Page) (h : assemblePage env mdPath metadata body = .ok page) :
    generateHighlightCSS env "monokai".toList = .ok page.InlineCSS := by
  unfold assemblePage at h
  simp only [] at h
  split at h
  · cases h
  · split at h
    · cases h
    · rename_i css hcss
      cases h
      exact hcss

/-! ## Directory entries -/

theorem getEntry_replaceEntry_same (es : Entries) (c : Str) (n : Node)
    (h : (getEntry es c).isSome) : getEntry (replaceEntry es c n) c = some n := by
  induction es with
  | nil => simp [getEntry] at h
  | cons e es ih =>
    obtain ⟨k, v⟩ := e
    by_cases hk : k = c
    · simp [replaceEntry, getEntry, hk]
    · simp only [getEntry, if_neg hk] at h
      simp [replaceEntry, getEntry, hk, ih h]

theorem getEntry_insertEntry_same (es : Entries) (c : Str) (n : Node)
    (h : getEntry es c = none) : getEntry (insertEntry es c n) c = some n := by
  induction es with
  | nil => simp [insertEntry, getEntry]
  | cons e es ih =>
    obtain ⟨k, v⟩ := e
    by_cases hk : k = c
    · simp [getEntry, hk] at h
    · simp only [getEntry, if_neg hk] at h
      unfold insertEntry
      split
      · simp [getEntry]
      · simp [getEntry, hk, ih h]

theorem getEntry_setEntry_same (es : Entries) (c : Str) (n : Node) :
    getEntry (setEntry es c n) c = some n := by
  unfold setEntry
  split
  · rename_i h
    exact getEntry_replaceEntry_same es c n h
  · rename_i h
    exact getEntry_insertEntry_same es c n (by simpa using h)

theorem getEntry_replaceEntry_other (es : Entries) (c c' : Str) (n : Node) (hc : c' ≠ c) :
    getEntry (replaceEntry es c n) c' = getEntry es c' := by
  induction es with
  | nil => rfl
  | cons e es ih =>
    obtain ⟨k, v⟩ := e
    by_cases hk : k = c
    · subst hk
      have : ¬ k = c' := fun h => hc h.symm
      simp [replaceEntry, getEntry, this]
    · by_cases hk' : k = c'
      · subst hk'
        simp [replaceEntry, getEntry, hk]
      · simp [replaceEntry, getEntry, hk, hk', ih]

theorem getEntry_insertEntry_other (es : Entries) (c c' : Str) (n : Node) (hc : c' ≠ c) :
    getEntry (insertEntry es c n) c' = getEntry es c' := by
  have hcc : ¬ c = c' := fun h => hc h.symm
  induction es with
  | nil => simp [insertEntry, getEntry, hcc]
  | cons e es ih =>
    obtain ⟨k, v⟩ := e
    unfold insertEntry
    split
    · simp [getEntry, hcc]
    · by_cases hk' : k = c'
      · simp [getEntry, hk']
      · simp [getEntry, hk', ih]

theorem getEntry_setEntry_other (es : Entries) (c c' : Str) (n : Node) (hc : c' ≠ c) :
    getEntry (setEntry es c n) c' = getEntry es c' := by
  unfold setEntry
  split
  · exact getEntry_replaceEntry_other es c c' n hc
  · exact getEntry_insertEntry_other es c c' n hc

theorem replaceEntry_self (es : Entries) (c : Str) (n : Node) (h : getEntry es c = some n) :
    replaceEntry es c n = es := by
  induction es with
  | nil => rfl
  | cons e es ih =>
    obtain ⟨k, v⟩ := e
    by_cases hk : k = c
    · simp only [getEntry, if_pos hk] at h
      cases h
      simp [replaceEntry, hk]
    · simp only [getEntry, if_neg hk] at h
      simp [replaceEntry, hk, ih h]

theorem setEntry_self (es : Entries) (c : Str) (n : Node) (h : getEntry es c = some n) :
    setEntry es c n = es := by
  unfold setEntry
  rw [if_pos (by simp [h])]
  exact replaceEntry_self es c n h

theorem filter_replaceEntry (es : Entries) (c : Str) (n : Node) :
    (replaceEntry es c n).filter (fun e => e.1 ≠ c) = es.filter (fun e => e.1 ≠ c) := by
  induction es with
  | nil => rfl
  | cons e es ih =>
    obtain ⟨k, v⟩ := e
    by_cases hk : k = c
    · simp [replaceEntry, hk]
    · simp only [decide_not] at ih
      simp [replaceEntry, hk, ih]

theorem filter_insertEntry (es : Entries) (c : Str) (n : Node) :
    (insertEntry es c n).filter (fun e => e.1 ≠ c) = es.filter (fun e => e.1 ≠ c) := by
  induction es with
  | nil => simp [insertEntry]
  | cons e es ih =>
    obtain ⟨k, v⟩ := e
    unfold insertEntry
    split
    · simp
    · simp only [decide_not] at ih
      by_cases hk : k = c
      · simp [hk, ih]
      · simp [hk, ih]

theorem filter_setEntry (es : Entries) (c : Str) (n : Node) :
    (setEntry es c n).filter (fun e => e.1 ≠ c) = es.filter (fun e => e.1 ≠ c) := by
  unfold setEntry
  split
  · exact filter_replaceEntry es c n
  · exact filter_insertEntry es c n

/-! ## Trees: creating directories and writing files -/

theorem mkdirAll_dir_cons (es : Entries) (c : Str) (cs : List Str) :
    (Node.dir es).mkdirAll (c :: cs) =
      match ((getEntry es c).getD (.dir [])).mkdirAll cs with
      | none => none
      | some n => some (.dir (setEntry es c n)) := by
  rw [Node.mkdirAll]

theorem writeFile_dir_cons (es : Entries) (c : Str) (cs : List Str) (data : Str) :
    (Node.dir es).writeFile (c :: cs) data =
      match getEntry es c with
      | none => if cs = [] then some (.dir (setEntry es c (.file data))) else none
      | some n =>
        match n.writeFile cs data with
        | none => none
        | some n' => some (.dir (setEntry es c n')) := by
  rw [Node.writeFile]

theorem lookup_dir_cons (es : Entries) (c : Str) (cs : List Str) :
    (Node.dir es).lookup (c :: cs) =
      match getEntry es c with
      | none => none
      | some n => n.lookup cs := by
  rw [Node.lookup]

theorem lookup_nil (n : Node) : n.lookup [] = some n := by
  cases n <;> rw [Node.lookup]

theorem mkdirAll_file (d : Str) (cs : List Str) : (Node.file d).mkdirAll cs = none := by
  cases cs <;> rw [Node.mkdirAll]

/-- A write below a chain of directories that `mkdirAll` has just created
succeeds. -/
theorem mkdirAll_fresh_writeFile (cs : List Str) (name data : Str) (g : Node)
    (h : (Node.dir []).mkdirAll cs = some g) :
    (g.writeFile (cs ++ [name]) data).isSome := by
  induction cs generalizing g with
  | nil =>
    rw [Node.mkdirAll] at h
    cases h
    simp [writeFile_dir_cons, getEntry]
  | cons c cs ih =>
    rw [mkdirAll_dir_cons] at h
    simp only [getEntry, Option.getD_none] at h
    cases hm : (Node.dir []).mkdirAll cs with
    | none => rw [hm] at h; cases h
    | some g' =>
      rw [hm] at h
      cases h
      have := ih g' hm
      rw [List.cons_append, writeFile_dir_cons, getEntry_setEntry_same]
      cases hw : g'.writeFile (cs ++ [name]) data with
      | none => rw [hw] at this; cases this
      | some g'' => simp [hw]

/-- When the directories of a path exist after `mkdirAll` and the write below
them fails, `mkdirAll` created nothing. -/
theorem mkdirAll_writeFile_none (ds : List Str) (name data : Str) (n n1 : Node)
    (hm : n.mkdirAll ds = some n1) (hw : n1.writeFile (ds ++ [name]) data = none) :
    n1 = n := by
  induction ds generalizing n n1 with
  | nil =>
    cases n with
    | file d => rw [mkdirAll_file] at hm; cases hm
    | dir es => rw [Node.mkdirAll] at hm; cases hm; rfl
  | cons c cs ih =>
    cases n with
    | file d => rw [mkdirAll_file] at hm; cases hm
    | dir es =>
      rw [mkdirAll_dir_cons] at hm
      cases hc : ((getEntry es c).getD (.dir [])).mkdirAll cs with
      | none => rw [hc] at hm; cases hm
      | some child1 =>
        rw [hc] at hm
        cases hm
        rw [List.cons_append, writeFile_dir_cons, getEntry_setEntry_same] at hw
        have hw' : child1.writeFile (cs ++ [name]) data = none := by
          cases hx : child1.writeFile (cs ++ [name]) data with
          | none => rfl
          | some x => simp only [hx] at hw; cases hw
        cases he : getEntry es c with
        | none =>
          rw [he] at hc
          have := mkdirAll_fresh_writeFile cs name data child1 hc
          rw [hw'] at this
          cases this
        | some child =>
          rw [he] at hc
          have := ih child child1 hc hw'
          subst this
          rw [setEntry_self es c child1 he]

theorem lookup_writeFile_same (cs : List Str) (data : Str) (n n' : Node)
    (h : n.writeFile cs data = some n') : n'.lookup cs = some (.file data) := by
  induction cs generalizing n n' with
  | nil =>
    cases n with
    | file d => rw [Node.writeFile] at h; cases h; rw [lookup_nil]
    | dir es => rw [Node.writeFile] at h; cases h
  | cons c cs ih =>
    cases n with
    | file d => rw [Node.writeFile] at h; cases h
    | dir es =>
      rw [writeFile_dir_cons] at h
      cases he : getEntry es c with
      | none =>
        rw [he] at h
        simp only [] at h
        split at h
        · rename_i hcs
          cases h
          subst hcs
          rw [lookup_dir_cons, getEntry_setEntry_same]
          simp only []
          rw [lookup_nil]
        · cases h
      | some child =>
        rw [he] at h
        simp only [] at h
        cases hw : child.writeFile cs data with
        | none => rw [hw] at h; cases h
        | some child' =>
          rw [hw] at h
          cases h
          rw [lookup_dir_cons, getEntry_setEntry_same]
          exact ih child child' hw

/-! ## The shape of a cleaned path -/

theorem foldl_cleanStep_dotdot (k : Nat) :
    (List.replicate k ['.', '.']).foldl (cleanStep false) [] = List.replicate k ['.', '.'] := by
  induction k with
  | zero => rfl
  | succ k ih =>
    rw [List.replicate_succ', List.foldl_append, ih]
    cases k with
    | zero => simp [cleanStep]
    | succ k =>
      rw [← List.replicate_succ', List.replicate_succ]
      simp [cleanStep, List.replicate_succ]

/-- The output buffer of `filepath.Clean` holds names above a run of `..`
elements, and no `..` element when the path is rooted. -/
theorem cleanStep_shape (rooted : Bool) (out : List Str) (e : Str)
    (h : ∃ tops k, out = tops ++ List.replicate k ['.', '.'] ∧ (∀ n ∈ tops, IsName n) ∧
      (rooted = true → k = 0)) :
    ∃ tops k, cleanStep rooted out e = tops ++ List.replicate k ['.', '.'] ∧
      (∀ n ∈ tops, IsName n) ∧ (rooted = true → k = 0) := by
  obtain ⟨tops, k, hout, hn, hk⟩ := h
  unfold cleanStep
  split
  · exact ⟨tops, k, hout, hn, hk⟩
  · rename_i h1
    split
    · rename_i h2
      subst h2
      cases tops with
      | nil =>
        cases k with
        | zero =>
          simp only [List.replicate, List.append_nil] at hout
          subst hout
          cases rooted with
          | true => exact ⟨[], 0, by simp, by simp, by simp⟩
          | false => exact ⟨[], 1, by simp, by simp, by simp⟩
        | succ k =>
          cases rooted with
          | true => exact absurd (hk rfl) (by simp)
          | false =>
            refine ⟨[], k + 2, ?_, by simp, by simp⟩
            subst hout
            simp [List.replicate_succ]
      | cons t ts =>
        subst hout
        have ht : t ≠ ['.', '.'] := (hn t (by simp)).2.2
        refine ⟨ts, k, ?_, fun n hm => hn n (by simp [hm]), hk⟩
        simp [ht]
    · rename_i h2
      refine ⟨e :: tops, k, by simp [hout], ?_, hk⟩
      intro n hm
      rcases List.mem_cons.mp hm with h' | h'
      · subst h'
        refine ⟨?_, ?_, h2⟩
        · intro h0; exact h1 (Or.inl h0)
        · intro h0; exact h1 (Or.inr h0)
      · exact hn n h'

theorem foldl_cleanStep_shape (rooted : Bool) (l : List Str) (out : List Str)
    (h : ∃ tops k, out = tops ++ List.replicate k ['.', '.'] ∧ (∀ n ∈ tops, IsName n) ∧
      (rooted = true → k = 0)) :
    ∃ tops k, l.foldl (cleanStep rooted) out = tops ++ List.replicate k ['.', '.'] ∧
      (∀ n ∈ tops, IsName n) ∧ (rooted = true → k = 0) := by
  induction l generalizing out with
  | nil => exact h
  | cons e es ih => exact ih _ (cleanStep_shape rooted out e h)

theorem cleanOut_shape (p : Str) :
    ∃ tops k, cleanOut p = tops ++ List.replicate k ['.', '.'] ∧ (∀ n ∈ tops, IsName n) ∧
      (decide (p.head? = some '/') = true → k = 0) :=
  foldl_cleanStep_shape _ _ [] ⟨[], 0, by simp, by simp, by simp⟩

/-- Cleaning the elements of a relative cleaned path again gives them back. -/
theorem foldl_cleanStep_refold (tops : List Str) (k : Nat) (hn : ∀ n ∈ tops, IsName n) :
    (tops ++ List.replicate k ['.', '.']).reverse.foldl (cleanStep false) [] =
      tops ++ List.replicate k ['.', '.'] := by
  rw [List.reverse_append, List.foldl_append, List.reverse_replicate, foldl_cleanStep_dotdot,
    foldl_cleanStep_names false tops.reverse (fun e he => hn e (List.mem_reverse.mp he))]
  simp

theorem shape_elem (tops : List Str) (k : Nat) (hn : ∀ n ∈ tops, IsName n) :
    ∀ e ∈ tops ++ List.replicate k ['.', '.'], e ≠ [] ∧ e ≠ ['.'] := by
  intro e he
  rcases List.mem_append.mp he with h | h
  · exact ⟨(hn e h).1, (hn e h).2.1⟩
  · have := List.eq_of_mem_replicate h
    subst this
    exact ⟨by simp, by simp⟩

theorem joinSlash_head (l : List Str) (hl : ∀ e ∈ l, e ≠ [] ∧ '/' ∉ e) :
    (joinSlash l).head? ≠ some '/' := by
  cases l with
  | nil => simp [joinSlash]
  | cons e es =>
    obtain ⟨h1, h2⟩ := hl e (by simp)
    cases e with
    | nil => exact absurd rfl h1
    | cons c cs =>
      have hc : c ≠ '/' := fun h => h2 (by simp [h])
      cases es with
      | nil => simpa [joinSlash] using hc
      | cons e' es' => simpa [joinSlash] using hc

/-- The names a path of non-empty elements other than `.` resolves to. -/
theorem resolve_joinSlash (l : List Str) (hne : l ≠ [])
    (hl : ∀ e ∈ l, e ≠ [] ∧ e ≠ ['.'] ∧ '/' ∉ e) :
    resolve (joinSlash l) = if ['.', '.'] ∈ l then none else some l := by
  have hhead := joinSlash_head l (fun e he => ⟨(hl e he).1, (hl e he).2.2⟩)
  have hnil : joinSlash l ≠ [] := by
    intro h0
    have := splitSlash_joinSlash l hne (fun e he => (hl e he).2.2)
    rw [h0] at this
    cases l with
    | nil => exact hne rfl
    | cons e es =>
      simp [splitSlash] at this
      exact (hl e (by simp)).1 this.1
  unfold resolve
  rw [if_neg (by simp [hnil, hhead])]
  simp only []
  rw [splitSlash_joinSlash l hne (fun e he => (hl e he).2.2)]
  have hf : l.filter (fun e => decide (e ≠ [] ∧ e ≠ ['.'])) = l := by
    rw [List.filter_eq_self]
    intro e he
    simp [(hl e he).1, (hl e he).2.1]
  rw [hf]

/-! ## `filepath.Dir` of a cleaned path -/

theorem Dir_append (a last : Str) (hl : '/' ∉ last)
    (ha : a = [] ∨ a.getLast? = some '/') : Dir (a ++ last) = Clean a := by
  unfold Dir
  rw [lastElem_dir_name a last hl ha]
  simp

theorem Clean_rooted_head (p : Str) (hp : p.head? = some '/') : (Clean p).head? = some '/' := by
  have hne : p ≠ [] := by
    intro h; subst h; simp at hp
  unfold Clean
  rw [if_neg hne, if_pos hp]
  rfl

theorem resolve_rooted (p : Str) (hp : p.head? = some '/') : resolve p = none := by
  unfold resolve
  rw [if_pos (Or.inr hp)]

theorem cleanOut_trailing_slash (a : Str) :
    cleanOut (a ++ ['/']) =
      (splitSlash a).foldl (cleanStep ((a ++ ['/']).head? = some '/')) [] := by
  unfold cleanOut
  rw [splitSlash_append_slash, List.foldl_append]
  simp [splitSlash, cleanStep]

/-- The directory of a cleaned path that ends in a name resolves to the names
of the path without the last one; both are outside the model together. -/
theorem resolve_Dir_Clean (q last : Str) (rest : List Str) (hq : q ≠ [])
    (hout : cleanOut q = last :: rest) (hlast : IsName last) :
    (resolve (Clean q) = none ∧ resolve (Dir (Clean q)) = none) ∨
    (∃ ds, resolve (Dir (Clean q)) = some ds ∧ resolve (Clean q) = some (ds ++ [last])) := by
  obtain ⟨tops, k, hshape, hn, hk⟩ := cleanOut_shape q
  have hslash := cleanOut_noSlash q
  have hls : '/' ∉ last := hslash last (by simp [hout])
  -- the elements below the last one
  obtain ⟨ts, hts, hrest⟩ : ∃ ts, tops = last :: ts ∧ rest = ts ++ List.replicate k ['.', '.'] := by
    cases tops with
    | nil =>
      rw [hout] at hshape
      cases k with
      | zero => simp at hshape
      | succ k =>
        rw [List.replicate_succ] at hshape
        simp only [List.nil_append, List.cons.injEq] at hshape
        exact absurd hshape.1 hlast.2.2
    | cons t ts =>
      rw [hout] at hshape
      simp only [List.cons_append, List.cons.injEq] at hshape
      exact ⟨ts, by rw [hshape.1], hshape.2⟩
  have hnts : ∀ n ∈ ts, IsName n := fun n hm => hn n (by simp [hts, hm])
  have hrev : (cleanOut q).reverse = rest.reverse ++ [last] := by simp [hout]
  have hEs : ∀ e ∈ rest.reverse, '/' ∉ e :=
    fun e he => hslash e (by simp [hout, List.mem_reverse.mp he])
  have hEn : ∀ e ∈ rest.reverse, e ≠ [] ∧ e ≠ ['.'] := by
    intro e he
    exact shape_elem ts k hnts e (by rw [← hrest]; exact List.mem_reverse.mp he)
  have hjoin : joinSlash (rest.reverse ++ [last]) =
      (if rest.reverse = [] then [] else joinSlash rest.reverse ++ ['/']) ++ last := by
    split
    · rename_i h; rw [h]; simp [joinSlash]
    · rename_i h
      rw [joinSlash_append _ _ h (by simp)]
      simp [joinSlash]
  by_cases hr : q.head? = some '/'
  · left
    have h1 := Clean_rooted_head q hr
    refine ⟨resolve_rooted _ h1, ?_⟩
    have hP : Clean q = ('/' :: (if rest.reverse = [] then []
        else joinSlash rest.reverse ++ ['/'])) ++ last := by
      unfold Clean
      rw [if_neg hq, if_pos hr, hrev, hjoin]
      rfl
    rw [hP, Dir_append _ last hls]
    · exact resolve_rooted _ (Clean_rooted_head _ rfl)
    · right
      split
      · rfl
      · exact List.getLast?_concat ('/' :: joinSlash rest.reverse)
  · have hP : Clean q = (if rest.reverse = [] then []
        else joinSlash rest.reverse ++ ['/']) ++ last := by
      unfold Clean
      rw [if_neg hq, if_neg hr, if_neg (by simp [hout]), hrev, hjoin]
    have hPr : resolve (Clean q) =
        if ['.', '.'] ∈ rest.reverse ++ [last] then none else some (rest.reverse ++ [last]) := by
      have : Clean q = joinSlash (rest.reverse ++ [last]) := by rw [hP, hjoin]
      rw [this]
      apply resolve_joinSlash _ (by simp)
      intro e he
      rcases List.mem_append.mp he with h | h
      · exact ⟨(hEn e h).1, (hEn e h).2, hEs e h⟩
      · have : e = last := by simpa using h
        subst this
        exact ⟨hlast.1, hlast.2.1, hls⟩
    by_cases hE : rest.reverse = []
    · have hD : Dir (Clean q) = ['.'] := by
        rw [hP, if_pos hE, Dir_append _ last hls (Or.inl rfl)]
        rfl
      right
      refine ⟨[], ?_, ?_⟩
      · rw [hD]; decide
      · rw [hPr, hE]
        have : ¬ ['.', '.'] = last := fun h => hlast.2.2 h.symm
        simp [this]
    · have hD : Dir (Clean q) = joinSlash rest.reverse := by
        rw [hP, if_neg hE, Dir_append _ last hls (Or.inr (by simp))]
        have hA : joinSlash rest.reverse ++ ['/'] ≠ [] := by simp
        have hAh : ¬ (joinSlash rest.reverse ++ ['/']).head? = some '/' := by
          have hj : joinSlash rest.reverse ≠ [] := by
            intro h0
            have := splitSlash_joinSlash rest.reverse hE hEs
            rw [h0] at this
            cases hh : rest.reverse with
            | nil => exact hE hh
            | cons e es =>
              rw [hh] at this
              simp [splitSlash] at this
              exact (hEn e (by simp [hh])).1 this.1
          rw [head?_append_of_ne_nil _ _ hj]
          exact joinSlash_head _ (fun e he => ⟨(hEn e he).1, hEs e he⟩)
        have hco : cleanOut (joinSlash rest.reverse ++ ['/']) = rest := by
          rw [cleanOut_trailing_slash, splitSlash_joinSlash _ hE hEs]
          have : decide ((joinSlash rest.reverse ++ ['/']).head? = some '/') = false := by
            simpa using hAh
          rw [this, hrest]
          exact foldl_cleanStep_refold ts k hnts
        unfold Clean
        rw [if_neg hA, if_neg hAh, hco, if_neg (by simpa using hE)]
      have hDr : resolve (Dir (Clean q)) =
          if ['.', '.'] ∈ rest.reverse then none else some rest.reverse := by
        rw [hD]
        exact resolve_joinSlash _ hE (fun e he => ⟨(hEn e he).1, (hEn e he).2, hEs e he⟩)
      have hld : ¬ ['.', '.'] = last := fun h => hlast.2.2 h.symm
      by_cases hdd : ['.', '.'] ∈ rest.reverse
      · left
        constructor
        · rw [hPr, if_pos (List.mem_append_left _ hdd)]
        · rw [hDr, if_pos hdd]
      · right
        refine ⟨rest.reverse, ?_, ?_⟩
        · rw [hDr, if_neg hdd]
        · rw [hPr, if_neg]
          intro hm
          rcases List.mem_append.mp hm with h | h
          · exact hdd h
          · exact hld (by simpa using h)

/-! ## A page task that fails leaves the tree as it was -/

theorem isName_html (l : Str) : IsName (l ++ ".html".toList) := by
  refine ⟨by simp, ?_, ?_⟩ <;>
  · intro h0
    have := congrArg List.length h0
    simp at this

theorem cleanOut_html (t : Str) :
    ∃ last rest, cleanOut (t ++ ".html".toList) = last :: rest ∧ IsName last := by
  obtain ⟨init, l, _, h2⟩ := splitSlash_append_noSlash t ".html".toList (by decide)
  refine ⟨l ++ ".html".toList,
    init.foldl (cleanStep ((t ++ ".html".toList).head? = some '/')) [], ?_, isName_html l⟩
  unfold cleanOut
  rw [h2, List.foldl_append, List.foldl_cons, List.foldl_nil]
  exact cleanStep_name _ _ _ (isName_html l)

/-- The output path of a page and its directory resolve together: to the
names of the directory and to those names with the file name after them. -/
theorem htmlPath_resolve (mdPath srcDir distDir : Str) :
    ∃ last,
      (resolve (htmlPath mdPath srcDir distDir) = none ∧
        resolve (Dir (htmlPath mdPath srcDir distDir)) = none) ∨
      (∃ ds, resolve (Dir (htmlPath mdPath srcDir distDir)) = some ds ∧
        resolve (htmlPath mdPath srcDir distDir) = some (ds ++ [last])) := by
  unfold htmlPath
  simp only []
  generalize TrimSuffix (TrimPrefix mdPath srcDir) ".md".toList = x
  unfold Join
  by_cases hd : distDir = []
  · rw [if_neg (by simpa using hd), if_pos (by simp)]
    obtain ⟨last, rest, h1, h2⟩ := cleanOut_html x
    exact ⟨last, resolve_Dir_Clean _ last rest (by simp) h1 h2⟩
  · rw [if_pos hd]
    have : distDir ++ '/' :: (x ++ ".html".toList) = (distDir ++ '/' :: x) ++ ".html".toList := by
      simp
    rw [this]
    obtain ⟨last, rest, h1, h2⟩ := cleanOut_html (distDir ++ '/' :: x)
    exact ⟨last, resolve_Dir_Clean _ last rest (by simp) h1 h2⟩

theorem saveHTMLFile_err_unchanged (fs : FS) (data mdPath srcDir distDir : Str)
    (h : (saveHTMLFile fs data mdPath srcDir distDir).err ≠ none) :
    (saveHTMLFile fs data mdPath srcDir distDir).fs = fs := by
  obtain ⟨last, hres⟩ := htmlPath_resolve mdPath srcDir distDir
  unfold saveHTMLFile at h ⊢
  simp only [] at h ⊢
  cases hm : MkdirAll fs (Dir (htmlPath mdPath srcDir distDir)) with
  | error e => rfl
  | ok fs1 =>
    rw [hm] at h
    simp only [] at h ⊢
    cases hw : WriteFile fs1 (htmlPath mdPath srcDir distDir) data with
    | ok fs2 => rw [hw] at h; exact absurd rfl h
    | error e =>
      simp only []
      unfold MkdirAll at hm
      rcases hres with ⟨_, h2⟩ | ⟨ds, h1, h2⟩
      · rw [h2] at hm; cases hm
      · rw [h1] at hm
        simp only [] at hm
        cases hmk : fs.mkdirAll ds with
        | none => rw [hmk] at hm; cases hm
        | some g =>
          rw [hmk] at hm
          cases hm
          unfold WriteFile at hw
          rw [h2] at hw
          simp only [] at hw
          cases hwf : fs1.writeFile (ds ++ [last]) data with
          | some g' => rw [hwf] at hw; cases hw
          | none => exact mkdirAll_writeFile_none ds last data fs fs1 hmk hwf

theorem renderHTMLPage_err_unchanged (env : Env) (fs : FS) (page : Page)
    (mdPath srcDir distDir : Str)
    (h : (renderHTMLPage env fs page mdPath srcDir distDir).err ≠ none) :
    (renderHTMLPage env fs page mdPath srcDir distDir).fs = fs := by
  unfold renderHTMLPage at h ⊢
  simp only [] at h ⊢
  split
  · rfl
  · rename_i layout hl
    rw [hl] at h
    simp only [] at h
    split
    · rfl
    · rename_i output ho
      rw [ho] at h
      exact saveHTMLFile_err_unchanged fs output mdPath srcDir distDir h

/-- A call of `processMarkdownFile` that returns an error leaves the tree as
it was. -/
theorem processMarkdownFile_err_unchanged (env : Env) (fs : FS) (mdPath srcDir distDir : Str)
    (h : (processMarkdownFile env fs mdPath srcDir distDir).err ≠ none) :
    (processMarkdownFile env fs mdPath srcDir distDir).fs = fs := by
  unfold processMarkdownFile at h ⊢
  split
  · rfl
  · rename_i content hc
    rw [hc] at h
    simp only [] at h ⊢
    split
    · rfl
    · rename_i fm body hp
      rw [hp] at h
      simp only [] at h ⊢
      split
      · rfl
      · rename_i hs
        rw [if_neg hs] at h
        split
        · rfl
        · rename_i page hpage
          rw [hpage] at h
          exact renderHTMLPage_err_unchanged env fs page mdPath srcDir distDir h

theorem processTask_fs (env : Env) (srcDir distDir : Str) (st : RunState) (file : Str) :
    (processTask env srcDir distDir st file).fs =
      (processMarkdownFile env st.fs file srcDir distDir).fs := by
  unfold processTask
  split <;> rename_i h <;> rw [h]

theorem runTasks_append (env : Env) (srcDir distDir : Str) (xs ys : List Str) (st : RunState) :
    runTasks env srcDir distDir (xs ++ ys) st =
      runTasks env srcDir distDir ys (runTasks env srcDir distDir xs st) := by
  unfold runTasks
  rw [List.foldl_append]

theorem runTasks_cons (env : Env) (srcDir distDir : Str) (x : Str) (xs : List Str)
    (st : RunState) :
    runTasks env srcDir distDir (x :: xs) st =
      runTasks env srcDir distDir xs (processTask env srcDir distDir st x) := rfl

/-- The tree a run of tasks leaves depends on the tree it starts from, not on
the log. -/
theorem runTasks_fs_congr (env : Env) (srcDir distDir : Str) (order : List Str)
    (st1 st2 : RunState) (h : st1.fs = st2.fs) :
    (runTasks env srcDir distDir order st1).fs = (runTasks env srcDir distDir order st2).fs := by
  induction order generalizing st1 st2 with
  | nil => exact h
  | cons x xs ih =>
    rw [runTasks_cons, runTasks_cons]
    apply ih
    rw [processTask_fs, processTask_fs, h]

/-! ## Trees: what an operation below one top-level name leaves alone -/

theorem remove_dir_single (es : Entries) (c : Str) :
    (Node.dir es).remove [c] = .dir (es.filter (fun e => e.1 ≠ c)) := by
  rw [Node.remove]

theorem remove_file (d : Str) (cs : List Str) : (Node.file d).remove cs = .file d := by
  cases cs <;> rw [Node.remove]

theorem remove_remove (n : Node) (c : Str) : (n.remove [c]).remove [c] = n.remove [c] := by
  cases n with
  | file d => rw [remove_file, remove_file]
  | dir es => rw [remove_dir_single, remove_dir_single, List.filter_filter]; simp

theorem frame_mkdirAll (n n' : Node) (c : Str) (cs : List Str)
    (h : n.mkdirAll (c :: cs) = some n') : n'.remove [c] = n.remove [c] := by
  cases n with
  | file d => rw [mkdirAll_file] at h; cases h
  | dir es =>
    rw [mkdirAll_dir_cons] at h
    cases hc : ((getEntry es c).getD (.dir [])).mkdirAll cs with
    | none => rw [hc] at h; cases h
    | some child =>
      rw [hc] at h
      cases h
      rw [remove_dir_single, remove_dir_single, filter_setEntry]

theorem frame_writeFile (n n' : Node) (c : Str) (cs : List Str) (data : Str)
    (h : n.writeFile (c :: cs) data = some n') : n'.remove [c] = n.remove [c] := by
  cases n with
  | file d => rw [Node.writeFile] at h; cases h
  | dir es =>
    rw [writeFile_dir_cons] at h
    cases he : getEntry es c with
    | none =>
      rw [he] at h
      simp only [] at h
      split at h
      · cases h
        rw [remove_dir_single, remove_dir_single, filter_setEntry]
      · cases h
    | some child =>
      rw [he] at h
      simp only [] at h
      cases hw : child.writeFile cs data with
      | none => rw [hw] at h; cases h
      | some child' =>
        rw [hw] at h
        cases h
        rw [remove_dir_single, remove_dir_single, filter_setEntry]

theorem getEntry_filter_ne (es : Entries) (c c' : Str) (hc : c' ≠ c) :
    getEntry (es.filter (fun e => e.1 ≠ c)) c' = getEntry es c' := by
  induction es with
  | nil => rfl
  | cons e es ih =>
    obtain ⟨k, v⟩ := e
    by_cases hk : k = c
    · subst hk
      have : ¬ k = c' := fun h => hc h.symm
      simp only [decide_not] at ih
      simp [getEntry, this, ih]
    · simp only [decide_not] at ih
      by_cases hk' : k = c'
      · subst hk'
        simp [getEntry, hk]
      · simp [getEntry, hk, hk', ih]

theorem lookup_remove_other (n : Node) (c c' : Str) (p : List Str) (hc : c' ≠ c) :
    (n.remove [c]).lookup (c' :: p) = n.lookup (c' :: p) := by
  cases n with
  | file d => rw [remove_file]
  | dir es => rw [remove_dir_single, lookup_dir_cons, lookup_dir_cons, getEntry_filter_ne es c c' hc]

/-- Two trees that agree outside the top-level name `c` agree below any other
top-level name. -/
theorem lookup_of_remove_eq (a b : Node) (c c' : Str) (p : List Str) (hc : c' ≠ c)
    (h : a.remove [c] = b.remove [c]) : a.lookup (c' :: p) = b.lookup (c' :: p) := by
  rw [← lookup_remove_other a c c' p hc, ← lookup_remove_other b c c' p hc, h]

theorem lookup_file_cons (d : Str) (c : Str) (cs : List Str) :
    (Node.file d).lookup (c :: cs) = none := by
  rw [Node.lookup]

/-- Creating directories leaves every file as it is. -/
theorem lookup_file_mkdirAll (p cs : List Str) (d : Str) (n n' : Node)
    (hl : n.lookup p = some (.file d)) (hm : n.mkdirAll cs = some n') :
    n'.lookup p = some (.file d) := by
  induction cs generalizing n n' p with
  | nil =>
    cases n with
    | file d' => rw [mkdirAll_file] at hm; cases hm
    | dir es => rw [Node.mkdirAll] at hm; cases hm; exact hl
  | cons c cs ih =>
    cases n with
    | file d' => rw [mkdirAll_file] at hm; cases hm
    | dir es =>
      rw [mkdirAll_dir_cons] at hm
      cases hc : ((getEntry es c).getD (.dir [])).mkdirAll cs with
      | none => rw [hc] at hm; cases hm
      | some child' =>
        rw [hc] at hm
        cases hm
        cases p with
        | nil => rw [lookup_nil] at hl; cases hl
        | cons c' p' =>
          rw [lookup_dir_cons] at hl ⊢
          by_cases hcc : c' = c
          · subst hcc
            rw [getEntry_setEntry_same]
            simp only []
            cases he : getEntry es c' with
            | none => rw [he] at hl; cases hl
            | some child =>
              rw [he] at hl hc
              exact ih p' child child' hl hc
          · rw [getEntry_setEntry_other es c c' child' hcc]
            exact hl

/-- Writing a file leaves every other file as it is. -/
theorem lookup_file_writeFile_other (p q : List Str) (d data : Str) (n n' : Node)
    (hl : n.lookup p = some (.file d)) (hpq : p ≠ q) (hw : n.writeFile q data = some n') :
    n'.lookup p = some (.file d) := by
  induction q generalizing n n' p with
  | nil =>
    cases n with
    | file d' =>
      cases p with
      | nil => exact absurd rfl hpq
      | cons c' p' => rw [lookup_file_cons] at hl; cases hl
    | dir es => rw [Node.writeFile] at hw; cases hw
  | cons c cs ih =>
    cases n with
    | file d' => rw [Node.writeFile] at hw; cases hw
    | dir es =>
      rw [writeFile_dir_cons] at hw
      cases p with
      | nil => rw [lookup_nil] at hl; cases hl
      | cons c' p' =>
        rw [lookup_dir_cons] at hl
        have hset : ∀ x, n' = .dir (setEntry es c x) → c' ≠ c →
            n'.lookup (c' :: p') = some (.file d) := by
          intro x hx hcc
          rw [hx, lookup_dir_cons, getEntry_setEntry_other es c c' x hcc]
          exact hl
        cases he : getEntry es c with
        | none =>
          rw [he] at hw
          simp only [] at hw
          split at hw
          · cases hw
            by_cases hcc : c' = c
            · subst hcc
              rw [he] at hl
              cases hl
            · exact hset _ rfl hcc
          · cases hw
        | some child =>
          rw [he] at hw
          simp only [] at hw
          cases hwc : child.writeFile cs data with
          | none => rw [hwc] at hw; cases hw
          | some child' =>
            rw [hwc] at hw
            cases hw
            by_cases hcc : c' = c
            · subst hcc
              rw [he] at hl
              simp only [] at hl
              rw [lookup_dir_cons, getEntry_setEntry_same]
              exact ih p' child child' hl (fun h => hpq (by rw [h])) hwc
            · exact hset _ rfl hcc

/-! ## The paths a walk visits -/

theorem pathBelow_nil (root : Str) : pathBelow root [] = root := rfl

theorem pathBelow_cons (root name : Str) (p : List Str) :
    pathBelow (root ++ '/' :: name) p = pathBelow root (name :: p) := by
  unfold pathBelow
  cases p with
  | nil => simp [joinSlash]
  | cons e es => simp [joinSlash]

theorem isWalkRoot_child (root name : Str) (hroot : IsWalkRoot root)
    (hname : validName name = true) :
    Join root name = root ++ '/' :: name ∧ IsWalkRoot (root ++ '/' :: name) := by
  obtain ⟨h1, h2, h3⟩ := hroot
  obtain ⟨hn, hs⟩ := (validName_iff name).mp hname
  have hj : Join root name = root ++ '/' :: name := by
    have := Join_clean_names root h1 h2 h3 [name] (by simp) (by simpa using hn) (by simpa using hs)
    simpa [joinSlash] using this
  have hne : root ≠ [] := clean_ne_nil_of_fixed root h1
  refine ⟨hj, ?_, ?_, ?_⟩
  · rw [← hj]
    unfold Join
    rw [if_pos hne]
    unfold Join at hj
    rw [if_pos hne] at hj
    rw [hj, hj]
  · intro h0
    have := congrArg List.length h0
    have hl := List.length_pos.mpr hne
    simp at this
    omega
  · intro h0
    have := congrArg List.length h0
    have hl := List.length_pos.mpr hne
    simp at this
    omega

mutual
theorem walkNode_sound : ∀ (n : Node) (root : Str), n.validNames = true → IsWalkRoot root →
    ∀ v ∈ walkNode root n, ∃ p, (∀ e ∈ p, validName e = true) ∧ v.1 = pathBelow root p
  | .file d, root, _, _, v, hv => by
    rw [walkNode] at hv
    have : v = (root, false) := by simpa using hv
    exact ⟨[], by simp, by rw [this]; rfl⟩
  | .dir es, root, hval, hroot, v, hv => by
    rw [walkNode] at hv
    rcases List.mem_cons.mp hv with h | h
    · exact ⟨[], by simp, by rw [h]; rfl⟩
    · rw [Node.validNames] at hval
      exact walkEntries_sound es root hval hroot v h
theorem walkEntries_sound : ∀ (es : List (Str × Node)) (root : Str),
    Node.validNames.entriesValid es = true → IsWalkRoot root →
    ∀ v ∈ walkNode.walkEntries root es,
      ∃ p, (∀ e ∈ p, validName e = true) ∧ v.1 = pathBelow root p
  | [], root, _, _, v, hv => by
    rw [walkNode.walkEntries] at hv
    simp at hv
  | (name, n) :: rest, root, hval, hroot, v, hv => by
    rw [walkNode.walkEntries] at hv
    rw [Node.validNames.entriesValid] at hval
    simp only [Bool.and_eq_true] at hval
    obtain ⟨⟨hname, hn⟩, hrest⟩ := hval
    rcases List.mem_append.mp hv with h | h
    · obtain ⟨hj, hroot'⟩ := isWalkRoot_child root name hroot hname
      rw [hj] at h
      obtain ⟨p, hp, hv1⟩ := walkNode_sound n (root ++ '/' :: name) hn hroot' v h
      refine ⟨name :: p, ?_, ?_⟩
      · intro e he
        rcases List.mem_cons.mp he with h' | h'
        · rw [h']; exact hname
        · exact hp e h'
      · rw [hv1, pathBelow_cons]
    · exact walkEntries_sound rest root hrest hroot v h
end

mutual
theorem walkNode_complete : ∀ (n : Node) (root : Str) (p : List Str) (d : Str),
    n.validNames = true → IsWalkRoot root → n.lookup p = some (.file d) →
    (pathBelow root p, false) ∈ walkNode root n
  | .file d', root, p, d, _, _, hl => by
    cases p with
    | nil => rw [walkNode]; simp [pathBelow]
    | cons c cs => rw [lookup_file_cons] at hl; cases hl
  | .dir es, root, p, d, hval, hroot, hl => by
    cases p with
    | nil => rw [lookup_nil] at hl; cases hl
    | cons c cs =>
      rw [lookup_dir_cons] at hl
      rw [Node.validNames] at hval
      rw [walkNode]
      apply List.mem_cons_of_mem
      cases he : getEntry es c with
      | none => rw [he] at hl; cases hl
      | some child =>
        rw [he] at hl
        exact walkEntries_complete es root c cs d child hval hroot he hl
theorem walkEntries_complete : ∀ (es : List (Str × Node)) (root c : Str) (cs : List Str)
    (d : Str) (child : Node),
    Node.validNames.entriesValid es = true → IsWalkRoot root → getEntry es c = some child →
    child.lookup cs = some (.file d) →
    (pathBelow root (c :: cs), false) ∈ walkNode.walkEntries root es
  | [], root, c, cs, d, child, _, _, he, _ => by
    rw [getEntry] at he
    cases he
  | (name, n) :: rest, root, c, cs, d, child, hval, hroot, he, hl => by
    rw [walkNode.walkEntries]
    rw [Node.validNames.entriesValid] at hval
    simp only [Bool.and_eq_true] at hval
    obtain ⟨⟨hname, hn⟩, hrest⟩ := hval
    rw [getEntry] at he
    by_cases hk : name = c
    · rw [if_pos hk] at he
      cases he
      subst hk
      obtain ⟨hj, hroot'⟩ := isWalkRoot_child root name hroot hname
      apply List.mem_append_left
      rw [hj, ← pathBelow_cons]
      exact walkNode_complete n (root ++ '/' :: name) cs d hn hroot' hl
    · rw [if_neg hk] at he
      apply List.mem_append_right
      exact walkEntries_complete rest root c cs d child hrest hroot he hl
end

theorem entriesValid_getEntry (es : Entries) (c : Str) (child : Node)
    (hval : Node.validNames.entriesValid es = true) (he : getEntry es c = some child) :
    validName c = true ∧ child.validNames = true := by
  induction es with
  | nil => rw [getEntry] at he; cases he
  | cons e es ih =>
    obtain ⟨k, v⟩ := e
    rw [Node.validNames.entriesValid] at hval
    simp only [Bool.and_eq_true] at hval
    rw [getEntry] at he
    by_cases hk : k = c
    · rw [if_pos hk] at he
      cases he
      subst hk
      exact ⟨hval.1.1, hval.1.2⟩
    · rw [if_neg hk] at he
      exact ih hval.2 he

/-- The names on the way to a node of a tree of file names are file names,
and so are the names below it. -/
theorem validNames_lookup (p : List Str) (n m : Node) (hval : n.validNames = true)
    (hl : n.lookup p = some m) : (∀ e ∈ p, validName e = true) ∧ m.validNames = true := by
  induction p generalizing n with
  | nil =>
    rw [lookup_nil] at hl
    cases hl
    exact ⟨by simp, hval⟩
  | cons c cs ih =>
    cases n with
    | file d => rw [lookup_file_cons] at hl; cases hl
    | dir es =>
      rw [lookup_dir_cons] at hl
      rw [Node.validNames] at hval
      cases he : getEntry es c with
      | none => rw [he] at hl; cases hl
      | some child =>
        rw [he] at hl
        obtain ⟨h1, h2⟩ := entriesValid_getEntry es c child hval he
        obtain ⟨h3, h4⟩ := ih child h2 hl
        refine ⟨?_, h4⟩
        intro e hm
        rcases List.mem_cons.mp hm with h | h
        · rw [h]; exact h1
        · exact h3 e h

/-! ## The paths of the pipeline below `src`, `src/assets` and `dist` -/

theorem resolve_joinSlash_valid (l : List Str) (hne : l ≠ [])
    (hl : ∀ e ∈ l, validName e = true) : resolve (joinSlash l) = some l := by
  have h := fun e he => (validName_iff e).mp (hl e he)
  rw [resolve_joinSlash l hne (fun e he => ⟨(h e he).1.1, (h e he).1.2.1, (h e he).2⟩)]
  rw [if_neg]
  intro hm
  exact (h _ hm).1.2.2 rfl

theorem pathBelow_joinSlash (rn p : List Str) (hrn : rn ≠ []) :
    pathBelow (joinSlash rn) p = joinSlash (rn ++ p) := by
  unfold pathBelow
  split
  · rename_i h; rw [h]; simp
  · rename_i h; rw [joinSlash_append rn p hrn h]

/-- A path below a root of file names resolves to the names of the root
followed by the names below it. -/
theorem resolve_pathBelow (rn p : List Str) (hrn : rn ≠ [])
    (hv : ∀ e ∈ rn, validName e = true) (hp : ∀ e ∈ p, validName e = true) :
    resolve (pathBelow (joinSlash rn) p) = some (rn ++ p) := by
  rw [pathBelow_joinSlash rn p hrn]
  apply resolve_joinSlash_valid _ (by simp [hrn])
  intro e he
  rcases List.mem_append.mp he with h | h
  · exact hv e h
  · exact hp e h

theorem isTreePath_joinSlash (p : List Str) (hne : p ≠ []) (hp : ∀ e ∈ p, validName e = true) :
    isTreePath (joinSlash p) = true := by
  unfold isTreePath
  rw [splitSlash_joinSlash p hne (fun e he => ((validName_iff e).mp (hp e he)).2)]
  exact List.all_eq_true.mpr hp

theorem pathBelow_eq_Join (root : Str) (p : List Str) (hroot : IsWalkRoot root) (hne : p ≠ [])
    (hp : ∀ e ∈ p, validName e = true) : pathBelow root p = Join root (joinSlash p) := by
  obtain ⟨h1, h2, h3⟩ := hroot
  rw [Join_clean_treePath root _ h1 h2 h3 (isTreePath_joinSlash p hne hp)]
  unfold pathBelow
  rw [if_neg hne]

theorem isWalkRoot_src : IsWalkRoot "src".toList := ⟨by decide, by decide, by decide⟩

theorem isWalkRoot_assets : IsWalkRoot (Join "src".toList "assets".toList) :=
  ⟨by decide, by decide, by decide⟩

theorem isWalkRoot_dist : IsWalkRoot "dist".toList := ⟨by decide, by decide, by decide⟩

/-- The destination `copyAssets` derives for a visited path below
`src/assets` is the path of the same names below `dist`. -/
theorem copyAssets_destPath (p : List Str) (hp : ∀ e ∈ p, validName e = true) :
    Join "dist".toList
      (TrimPrefix (pathBelow (Join "src".toList "assets".toList) p)
        (Join "src".toList "assets".toList)) = pathBelow "dist".toList p := by
  cases p with
  | nil => decide
  | cons e es =>
    have hne : e :: es ≠ [] := by simp
    unfold pathBelow
    rw [if_neg hne, if_neg hne, TrimPrefix_append, Join_slash _ _ (by decide)]
    have := pathBelow_eq_Join "dist".toList (e :: es) isWalkRoot_dist hne hp
    unfold pathBelow at this
    rw [if_neg hne] at this
    exact this.symm

/-! ## The pipeline writes below `dist` only -/

theorem frame_MkdirAll (fs fs' : FS) (path c : Str) (cs : List Str)
    (hr : resolve path = some (c :: cs)) (h : MkdirAll fs path = .ok fs') :
    fs'.remove [c] = fs.remove [c] := by
  unfold MkdirAll at h
  rw [hr] at h
  simp only [] at h
  cases hm : fs.mkdirAll (c :: cs) with
  | none => rw [hm] at h; cases h
  | some g =>
    rw [hm] at h
    cases h
    exact frame_mkdirAll fs fs' c cs hm

theorem frame_WriteFile (fs fs' : FS) (path data c : Str) (cs : List Str)
    (hr : resolve path = some (c :: cs)) (h : WriteFile fs path data = .ok fs') :
    fs'.remove [c] = fs.remove [c] := by
  unfold WriteFile at h
  rw [hr] at h
  simp only [] at h
  cases hm : fs.writeFile (c :: cs) data with
  | none => rw [hm] at h; cases h
  | some g =>
    rw [hm] at h
    cases h
    exact frame_writeFile fs fs' c cs data hm

theorem frame_copyFile (fs : FS) (srcPath destPath c : Str) (cs : List Str)
    (hr : resolve destPath = some (c :: cs)) :
    (copyFile fs srcPath destPath).fs.remove [c] = fs.remove [c] := by
  unfold copyFile
  split
  · rfl
  · split
    · rfl
    · rename_i fs1 h1
      have e1 := frame_WriteFile fs fs1 destPath [] c cs hr h1
      split
      · exact e1
      · split
        · exact e1
        · rename_i fs2 h2
          rw [frame_WriteFile fs1 fs2 destPath _ c cs hr h2, e1]

theorem resolve_dist_below (p : List Str) (hp : ∀ e ∈ p, validName e = true) :
    resolve (pathBelow "dist".toList p) = some ("dist".toList :: p) :=
  resolve_pathBelow ["dist".toList] p (by simp) (by decide) hp

theorem frame_copyAssetsVisit (fs : FS) (p : List Str) (isDir : Bool)
    (hp : ∀ e ∈ p, validName e = true) :
    (copyAssetsVisit fs (Join "src".toList "assets".toList) "dist".toList
      (pathBelow (Join "src".toList "assets".toList) p) isDir).fs.remove ["dist".toList] =
      fs.remove ["dist".toList] := by
  unfold copyAssetsVisit
  simp only []
  rw [copyAssets_destPath p hp]
  split
  · split
    · rfl
    · rename_i fs1 h1
      exact frame_MkdirAll fs fs1 _ _ p (resolve_dist_below p hp) h1
  · exact frame_copyFile fs _ _ _ p (resolve_dist_below p hp)

theorem frame_copyAssetsWalk (visits : List (Str × Bool)) (fs : FS)
    (hv : ∀ v ∈ visits, ∃ p, (∀ e ∈ p, validName e = true) ∧
      v.1 = pathBelow (Join "src".toList "assets".toList) p) :
    (copyAssetsWalk (Join "src".toList "assets".toList) "dist".toList visits fs).fs.remove
      ["dist".toList] = fs.remove ["dist".toList] := by
  induction visits generalizing fs with
  | nil => rfl
  | cons v vs ih =>
    obtain ⟨path, isDir⟩ := v
    obtain ⟨p, hp, hpath⟩ := hv (path, isDir) (by simp)
    simp only [] at hpath
    subst hpath
    have hstep := frame_copyAssetsVisit fs p isDir hp
    rw [copyAssetsWalk]
    split
    · rename_i fs1 e h1
      rw [h1] at hstep
      exact hstep
    · rename_i fs1 h1
      rw [h1] at hstep
      rw [ih fs1 (fun v hm => hv v (List.mem_cons_of_mem _ hm))]
      exact hstep

theorem lookup_cons_eq (n : Node) (c : Str) (cs : List Str) :
    n.lookup (c :: cs) = (n.lookup [c]).bind (fun m => m.lookup cs) := by
  cases n with
  | file d => rw [lookup_file_cons, lookup_file_cons]; rfl
  | dir es =>
    rw [lookup_dir_cons, lookup_dir_cons]
    cases getEntry es c with
    | none => rfl
    | some m => simp [lookup_nil]

theorem resolve_src : resolve "src".toList = some ["src".toList] := by decide

theorem resolve_assets :
    resolve (Join "src".toList "assets".toList) = some ["src".toList, "assets".toList] := by
  decide

/-- The node of the assets directory of a tree with a valid source holds file
names only. -/
theorem assets_validNames (fs : FS) (n : Node) (hvalid : sourceValid fs = true)
    (h : Lstat fs (Join "src".toList "assets".toList) = .ok n) : n.validNames = true := by
  unfold Lstat at h
  rw [resolve_assets] at h
  simp only [] at h
  cases hl : fs.lookup ["src".toList, "assets".toList] with
  | none => rw [hl] at h; cases h
  | some m =>
    rw [hl] at h
    cases h
    rw [lookup_cons_eq] at hl
    unfold sourceValid at hvalid
    cases hs : fs.lookup ["src".toList] with
    | none => rw [hs] at hl; cases hl
    | some s =>
      rw [hs] at hl hvalid
      simp only [Option.bind_some] at hl hvalid
      exact (validNames_lookup _ s n hvalid hl).2

theorem frame_copyAssets (fs : FS) (hvalid : sourceValid fs = true) :
    (copyAssets fs (Join "src".toList "assets".toList) "dist".toList).fs.remove
      ["dist".toList] = fs.remove ["dist".toList] := by
  unfold copyAssets
  split
  · rfl
  · rename_i n hn
    apply frame_copyAssetsWalk
    exact walkNode_sound n _ (assets_validNames fs n hvalid hn) isWalkRoot_assets

theorem HasSuffix_of_append_slash (a r suf : Str) (hs : '/' ∉ suf)
    (h : HasSuffix (a ++ '/' :: r) suf = true) : HasSuffix r suf = true := by
  obtain ⟨t, ht⟩ := (HasSuffix_iff _ _).mp h
  rw [HasSuffix_iff]
  rcases List.append_eq_append_iff.mp ht with ⟨a', _, h2⟩ | ⟨c', _, h2⟩
  · cases a' with
    | nil =>
      exfalso
      apply hs
      rw [← List.nil_append suf, ← h2]
      simp
    | cons x a'' =>
      simp only [List.cons_append, List.cons.injEq] at h2
      exact ⟨a'', h2.2⟩
  · exfalso
    apply hs
    rw [h2]
    simp

theorem Lstat_src (fs : FS) (n : Node) (h : Lstat fs "src".toList = .ok n) :
    fs.lookup ["src".toList] = some n := by
  unfold Lstat at h
  rw [resolve_src] at h
  simp only [] at h
  cases hl : fs.lookup ["src".toList] with
  | none => rw [hl] at h; cases h
  | some m => rw [hl] at h; cases h; rfl

/-- Every file `collectMarkdownFiles` returns for the root `src` is `src`
joined with a path of file names that ends in `.md`. -/
theorem collect_form (fs : FS) (hvalid : sourceValid fs = true) (f : Str)
    (hf : f ∈ (collectMarkdownFiles fs "src".toList).1) :
    ∃ r, isTreePath r = true ∧ HasSuffix r ".md".toList = true ∧ f = Join "src".toList r := by
  unfold collectMarkdownFiles at hf
  cases hn : Lstat fs "src".toList with
  | error e => rw [hn] at hf; simp at hf
  | ok n =>
    rw [hn] at hf
    simp only [] at hf
    have hv : n.validNames = true := by
      have := Lstat_src fs n hn
      unfold sourceValid at hvalid
      rw [this] at hvalid
      exact hvalid
    obtain ⟨v, hv1, hv2⟩ := List.mem_map.mp hf
    obtain ⟨hmem, hflt⟩ := List.mem_filter.mp hv1
    obtain ⟨p, hp, hpath⟩ := walkNode_sound n _ hv isWalkRoot_src v hmem
    rw [hv2] at hpath
    have hmd : HasSuffix f ".md".toList = true := by
      rw [← hv2]
      have : v.2 = false ∧ HasSuffix v.1 ".md".toList = true := by simpa using hflt
      exact this.2
    have hne : p ≠ [] := by
      intro h0
      rw [h0, pathBelow_nil] at hpath
      rw [hpath] at hmd
      revert hmd
      decide
    refine ⟨joinSlash p, isTreePath_joinSlash p hne hp, ?_, ?_⟩
    · apply HasSuffix_of_append_slash "src".toList _ _ (by decide)
      have : pathBelow "src".toList p = "src".toList ++ '/' :: joinSlash p := by
        unfold pathBelow
        rw [if_neg hne]
      rw [← this, ← hpath]
      exact hmd
    · rw [hpath]
      exact pathBelow_eq_Join _ p isWalkRoot_src hne hp

/-- The output path of a Markdown file below `src` and its directory resolve
below `dist`. -/
theorem htmlPath_dist (r : Str) (hr : isTreePath r = true)
    (hmd : HasSuffix r ".md".toList = true) :
    htmlPath (Join "src".toList r) "src".toList "dist".toList =
      pathBelow "dist".toList (splitSlash (swapExt r)) ∧
    resolve (htmlPath (Join "src".toList r) "src".toList "dist".toList) =
      some ("dist".toList :: splitSlash (swapExt r)) ∧
    ∃ ds, resolve (Dir (htmlPath (Join "src".toList r) "src".toList "dist".toList)) =
      some ("dist".toList :: ds) := by
  have hx := isTreePath_swapExt r hr hmd
  obtain ⟨h1, h2, h3, h4⟩ := isTreePath_names _ hx
  have hvalid : ∀ e ∈ splitSlash (swapExt r), validName e = true :=
    fun e he => List.all_eq_true.mp hx e he
  have hP : htmlPath (Join "src".toList r) "src".toList "dist".toList =
      pathBelow "dist".toList (splitSlash (swapExt r)) := by
    rw [htmlPath_join _ _ r (by decide) (by decide) (by decide) (by decide) hr hmd,
      pathBelow_eq_Join _ _ isWalkRoot_dist h1 hvalid, h4]
  have hres := resolve_dist_below _ hvalid
  refine ⟨hP, by rw [hP]; exact hres, ?_⟩
  obtain ⟨last, hcase⟩ := htmlPath_resolve (Join "src".toList r) "src".toList "dist".toList
  rw [hP] at hcase
  rcases hcase with ⟨h, _⟩ | ⟨ds, hd, hp⟩
  · rw [hres] at h; cases h
  · rw [hres] at hp
    cases ds with
    | nil =>
      simp only [List.nil_append, Option.some.injEq, List.cons.injEq] at hp
      exact absurd hp.2 h1
    | cons c ds' =>
      simp only [List.cons_append, Option.some.injEq, List.cons.injEq] at hp
      rw [hP, hd, ← hp.1]
      exact ⟨ds', rfl⟩

theorem frame_saveHTMLFile (fs : FS) (data mdPath srcDir distDir c : Str) (cs ds : List Str)
    (hP : resolve (htmlPath mdPath srcDir distDir) = some (c :: cs))
    (hD : resolve (Dir (htmlPath mdPath srcDir distDir)) = some (c :: ds)) :
    (saveHTMLFile fs data mdPath srcDir distDir).fs.remove [c] = fs.remove [c] := by
  unfold saveHTMLFile
  simp only []
  split
  · rfl
  · rename_i fs1 h1
    have e1 := frame_MkdirAll fs fs1 _ c ds hD h1
    split
    · exact e1
    · rename_i fs2 h2
      rw [frame_WriteFile fs1 fs2 _ data c cs hP h2, e1]

theorem processMarkdownFile_fs_cases (env : Env) (fs : FS) (mdPath srcDir distDir : Str) :
    (processMarkdownFile env fs mdPath srcDir distDir).fs = fs ∨
    ∃ data, (processMarkdownFile env fs mdPath srcDir distDir).fs =
      (saveHTMLFile fs data mdPath srcDir distDir).fs := by
  unfold processMarkdownFile
  split
  · exact Or.inl rfl
  · split
    · exact Or.inl rfl
    · simp only []
      split
      · exact Or.inl rfl
      · split
        · exact Or.inl rfl
        · unfold renderHTMLPage
          simp only []
          split
          · exact Or.inl rfl
          · split
            · exact Or.inl rfl
            · rename_i output _
              exact Or.inr ⟨output, rfl⟩

theorem frame_processMarkdownFile (env : Env) (fs : FS) (r : Str) (hr : isTreePath r = true)
    (hmd : HasSuffix r ".md".toList = true) :
    (processMarkdownFile env fs (Join "src".toList r) "src".toList "dist".toList).fs.remove
      ["dist".toList] = fs.remove ["dist".toList] := by
  obtain ⟨_, hP, ds, hD⟩ := htmlPath_dist r hr hmd
  rcases processMarkdownFile_fs_cases env fs (Join "src".toList r) "src".toList
    "dist".toList with h | ⟨data, h⟩
  · rw [h]
  · rw [h]
    exact frame_saveHTMLFile fs data _ _ _ _ _ ds hP hD

theorem frame_runTasks (env : Env) (order : List Str) (st : RunState)
    (ho : ∀ f ∈ order, ∃ r, isTreePath r = true ∧ HasSuffix r ".md".toList = true ∧
      f = Join "src".toList r) :
    (runTasks env "src".toList "dist".toList order st).fs.remove ["dist".toList] =
      st.fs.remove ["dist".toList] := by
  induction order generalizing st with
  | nil => rfl
  | cons f fs ih =>
    rw [runTasks_cons, ih _ (fun g hg => ho g (List.mem_cons_of_mem _ hg)), processTask_fs]
    obtain ⟨r, hr, hmd, hf⟩ := ho f (by simp)
    rw [hf]
    exact frame_processMarkdownFile env st.fs r hr hmd

/-! ## A run depends on the tree outside `dist` only, and leaves it alone -/

theorem RemoveAll_dist (fs : FS) :
    RemoveAll fs "dist".toList = .ok (fs.remove ["dist".toList]) := by
  unfold RemoveAll
  rw [if_neg (by decide), if_neg (by decide)]
  have : resolve "dist".toList = some ["dist".toList] := by decide
  rw [this]

theorem resolve_dist : resolve "dist".toList = some ["dist".toList] := by decide

theorem prepareDirectories_congr (a b : FS)
    (h : a.remove ["dist".toList] = b.remove ["dist".toList]) :
    prepareDirectories a "dist".toList = prepareDirectories b "dist".toList := by
  unfold prepareDirectories
  rw [RemoveAll_dist, RemoveAll_dist, h]

theorem frame_prepareDirectories (fs : FS) :
    (prepareDirectories fs "dist".toList).fs.remove ["dist".toList] =
      fs.remove ["dist".toList] := by
  unfold prepareDirectories
  rw [RemoveAll_dist]
  simp only []
  split
  · exact remove_remove fs _
  · rename_i fs2 h2
    rw [frame_MkdirAll _ fs2 _ _ [] resolve_dist h2]
    exact remove_remove fs _

theorem sourceValid_congr (a b : FS) (h : a.remove ["dist".toList] = b.remove ["dist".toList]) :
    sourceValid a = sourceValid b := by
  unfold sourceValid
  rw [lookup_of_remove_eq a b "dist".toList "src".toList [] (by decide) h]

theorem collectMarkdownFiles_congr (a b : FS)
    (h : a.remove ["dist".toList] = b.remove ["dist".toList]) :
    collectMarkdownFiles a "src".toList = collectMarkdownFiles b "src".toList := by
  unfold collectMarkdownFiles Lstat
  rw [resolve_src]
  simp only []
  rw [lookup_of_remove_eq a b "dist".toList "src".toList [] (by decide) h]

/-- A run of the program is determined by the tree outside `dist`. -/
theorem main_congr (env : Env) (sched : List Str → List Str) (a b : FS)
    (h : a.remove ["dist".toList] = b.remove ["dist".toList]) :
    main env sched a = main env sched b := by
  unfold main run
  rw [prepareDirectories_congr a b h]

/-- A run of the program leaves the tree outside `dist` as it was. -/
theorem frame_main (env : Env) (sched : List Str → List Str) (hs : IsSchedule sched) (fs : FS)
    (hvalid : sourceValid fs = true) :
    (main env sched fs).fs.remove ["dist".toList] = fs.remove ["dist".toList] := by
  have hprep := frame_prepareDirectories fs
  unfold main run
  split
  · rename_i fs1 e h1
    rw [h1] at hprep
    exact hprep
  · rename_i fs1 h1
    rw [h1] at hprep
    simp only [] at hprep ⊢
    have hv1 : sourceValid fs1 = true := by
      rw [sourceValid_congr fs1 fs hprep]; exact hvalid
    have hcopy := frame_copyAssets fs1 hv1
    have hv2 : sourceValid
        (copyAssets fs1 (Join "src".toList "assets".toList) "dist".toList).fs = true := by
      rw [sourceValid_congr _ fs1 hcopy]; exact hv1
    split
    · rw [hcopy, hprep]
    · rename_i files hfiles
      simp only []
      unfold processFilesConcurrently
      rw [frame_runTasks env (sched files) _ ?_]
      · simp only []
        rw [hcopy, hprep]
      · intro f hf
        have hmem : f ∈ files := (hs files).mem_iff.mp hf
        apply collect_form _ hv2 f
        rw [hfiles]
        exact hmem

/-! ## The copies of the assets -/

theorem lookup_file_MkdirAll (fs fs' : FS) (path : Str) (q : List Str) (d : Str)
    (hl : fs.lookup q = some (.file d)) (h : MkdirAll fs path = .ok fs') :
    fs'.lookup q = some (.file d) := by
  unfold MkdirAll at h
  cases hr : resolve path with
  | none => rw [hr] at h; cases h
  | some cs =>
    rw [hr] at h
    simp only [] at h
    cases hm : fs.mkdirAll cs with
    | none => rw [hm] at h; cases h
    | some g =>
      rw [hm] at h
      cases h
      exact lookup_file_mkdirAll q cs d fs fs' hl hm

theorem lookup_file_WriteFile_other (fs fs' : FS) (path data : Str) (q cs : List Str) (d : Str)
    (hr : resolve path = some cs) (hq : q ≠ cs)
    (hl : fs.lookup q = some (.file d)) (h : WriteFile fs path data = .ok fs') :
    fs'.lookup q = some (.file d) := by
  unfold WriteFile at h
  rw [hr] at h
  simp only [] at h
  cases hm : fs.writeFile cs data with
  | none => rw [hm] at h; cases h
  | some g =>
    rw [hm] at h
    cases h
    exact lookup_file_writeFile_other q cs d data fs fs' hl hq hm

theorem lookup_WriteFile_same (fs fs' : FS) (path data : Str) (cs : List Str)
    (hr : resolve path = some cs) (h : WriteFile fs path data = .ok fs') :
    fs'.lookup cs = some (.file data) := by
  unfold WriteFile at h
  rw [hr] at h
  simp only [] at h
  cases hm : fs.writeFile cs data with
  | none => rw [hm] at h; cases h
  | some g =>
    rw [hm] at h
    cases h
    exact lookup_writeFile_same cs data fs fs' hm

theorem ReadFile_eq_lookup (fs : FS) (path data : Str) (cs : List Str)
    (hr : resolve path = some cs) :
    ReadFile fs path = .ok data ↔ fs.lookup cs = some (.file data) := by
  unfold ReadFile Lstat
  rw [hr]
  simp only []
  cases hl : fs.lookup cs with
  | none => simp
  | some n =>
    cases n with
    | file d => simp
    | dir es => simp

theorem resolve_assets_below (p : List Str) (hp : ∀ e ∈ p, validName e = true) :
    resolve (pathBelow (Join "src".toList "assets".toList) p) =
      some ("src".toList :: "assets".toList :: p) := by
  have : Join "src".toList "assets".toList = joinSlash ["src".toList, "assets".toList] := by
    decide
  rw [this]
  exact resolve_pathBelow ["src".toList, "assets".toList] p (by simp) (by decide) hp

/-- A successful `copyFile` from below `src/assets` to the same names below
`dist` leaves there the bytes of the source. -/
theorem copyFile_asset (fs : FS) (p : List Str) (bytes : Str)
    (hp : ∀ e ∈ p, validName e = true)
    (hsrc : fs.lookup ("src".toList :: "assets".toList :: p) = some (.file bytes))
    (hok : (copyFile fs (pathBelow (Join "src".toList "assets".toList) p)
      (pathBelow "dist".toList p)).err = none) :
    (copyFile fs (pathBelow (Join "src".toList "assets".toList) p)
      (pathBelow "dist".toList p)).fs.lookup ("dist".toList :: p) = some (.file bytes) := by
  have hrd := resolve_dist_below p hp
  have hrs := resolve_assets_below p hp
  unfold copyFile at hok ⊢
  split at hok
  · cases hok
  · split at hok
    · cases hok
    · rename_i fs1 h1
      have hframe := frame_WriteFile fs fs1 _ [] _ p hrd h1
      have hsrc1 : fs1.lookup ("src".toList :: "assets".toList :: p) = some (.file bytes) := by
        rw [lookup_of_remove_eq fs1 fs "dist".toList "src".toList _ (by decide) hframe]
        exact hsrc
      have hread : ReadFile fs1 (pathBelow (Join "src".toList "assets".toList) p) =
          .ok bytes := (ReadFile_eq_lookup fs1 _ bytes _ hrs).mpr hsrc1
      rw [hread] at hok ⊢
      simp only [] at hok ⊢
      cases h2 : WriteFile fs1 (pathBelow "dist".toList p) bytes with
      | error e => rw [h2] at hok; cases hok
      | ok fs2 => exact lookup_WriteFile_same fs1 fs2 _ bytes _ hrd h2

/-- A successful `copyFile` to other names below `dist` leaves a file below
`dist` as it is. -/
theorem copyFile_other (fs : FS) (srcPath : Str) (p q : List Str) (bytes : Str)
    (hq : ∀ e ∈ q, validName e = true) (hpq : p ≠ q)
    (hl : fs.lookup ("dist".toList :: p) = some (.file bytes)) :
    (copyFile fs srcPath (pathBelow "dist".toList q)).fs.lookup ("dist".toList :: p) =
      some (.file bytes) := by
  have hrd := resolve_dist_below q hq
  have hne : "dist".toList :: p ≠ "dist".toList :: q := by
    intro h
    exact hpq (List.cons.inj h).2
  unfold copyFile
  split
  · exact hl
  · split
    · exact hl
    · rename_i fs1 h1
      have hl1 := lookup_file_WriteFile_other fs fs1 _ [] _ _ bytes hrd hne hl h1
      split
      · exact hl1
      · split
        · exact hl1
        · rename_i fs2 h2
          exact lookup_file_WriteFile_other fs1 fs2 _ _ _ _ bytes hrd hne hl1 h2

/-- One successful visit of `copyAssets` keeps a copy that is in place. -/
theorem copyAssetsVisit_keeps (fs : FS) (p q : List Str) (isDir : Bool) (bytes : Str)
    (hq : ∀ e ∈ q, validName e = true)
    (hsrc : fs.lookup ("src".toList :: "assets".toList :: p) = some (.file bytes))
    (hl : fs.lookup ("dist".toList :: p) = some (.file bytes))
    (hok : (copyAssetsVisit fs (Join "src".toList "assets".toList) "dist".toList
      (pathBelow (Join "src".toList "assets".toList) q) isDir).err = none) :
    (copyAssetsVisit fs (Join "src".toList "assets".toList) "dist".toList
      (pathBelow (Join "src".toList "assets".toList) q) isDir).fs.lookup
        ("dist".toList :: p) = some (.file bytes) := by
  unfold copyAssetsVisit at hok ⊢
  simp only [] at hok ⊢
  rw [copyAssets_destPath q hq] at hok ⊢
  cases isDir with
  | true =>
    simp only [if_true] at hok ⊢
    split
    · exact hl
    · rename_i fs1 h1
      exact lookup_file_MkdirAll fs fs1 _ _ bytes hl h1
  | false =>
    simp only [Bool.false_eq_true, if_false] at hok ⊢
    by_cases hpq : p = q
    · subst hpq
      exact copyFile_asset fs p bytes hq hsrc hok
    · exact copyFile_other fs _ p q bytes hq hpq hl

theorem copyAssetsVisit_src (fs : FS) (p q : List Str) (isDir : Bool) (bytes : Str)
    (hq : ∀ e ∈ q, validName e = true)
    (hsrc : fs.lookup ("src".toList :: "assets".toList :: p) = some (.file bytes)) :
    (copyAssetsVisit fs (Join "src".toList "assets".toList) "dist".toList
      (pathBelow (Join "src".toList "assets".toList) q) isDir).fs.lookup
        ("src".toList :: "assets".toList :: p) = some (.file bytes) := by
  rw [lookup_of_remove_eq _ fs "dist".toList "src".toList _ (by decide)
    (frame_copyAssetsVisit fs q isDir hq)]
  exact hsrc

theorem copyAssetsWalk_cons (src dest path : Str) (isDir : Bool) (rest : List (Str × Bool))
    (fs : FS) :
    copyAssetsWalk src dest ((path, isDir) :: rest) fs =
      match copyAssetsVisit fs src dest path isDir with
      | ⟨fs1, some e⟩ => ⟨fs1, some e⟩
      | ⟨fs1, none⟩ => copyAssetsWalk src dest rest fs1 := by
  rw [copyAssetsWalk]

/-- A successful walk of `copyAssets` keeps a copy that is in place. -/
theorem copyAssetsWalk_keeps (visits : List (Str × Bool)) (fs : FS) (p : List Str)
    (bytes : Str)
    (hv : ∀ v ∈ visits, ∃ q, (∀ e ∈ q, validName e = true) ∧
      v.1 = pathBelow (Join "src".toList "assets".toList) q)
    (hsrc : fs.lookup ("src".toList :: "assets".toList :: p) = some (.file bytes))
    (hl : fs.lookup ("dist".toList :: p) = some (.file bytes))
    (hok : (copyAssetsWalk (Join "src".toList "assets".toList) "dist".toList visits fs).err =
      none) :
    (copyAssetsWalk (Join "src".toList "assets".toList) "dist".toList visits fs).fs.lookup
      ("dist".toList :: p) = some (.file bytes) := by
  induction visits generalizing fs with
  | nil => exact hl
  | cons v vs ih =>
    obtain ⟨path, isDir⟩ := v
    obtain ⟨q, hq, hpath⟩ := hv (path, isDir) (by simp)
    simp only [] at hpath
    subst hpath
    rw [copyAssetsWalk_cons] at hok ⊢
    have hk := copyAssetsVisit_keeps fs p q isDir bytes hq hsrc hl
    have hs := copyAssetsVisit_src fs p q isDir bytes hq hsrc
    cases hstep : copyAssetsVisit fs (Join "src".toList "assets".toList) "dist".toList
        (pathBelow (Join "src".toList "assets".toList) q) isDir with
    | mk fs1 err =>
      rw [hstep] at hok hk hs
      cases err with
      | some e => cases hok
      | none =>
        simp only [] at hok hk hs ⊢
        exact ih fs1 (fun v hm => hv v (List.mem_cons_of_mem _ hm)) hs (hk trivial) hok

/-- A successful walk of `copyAssets` that visits a file leaves its bytes at
the same names below `dist`. -/
theorem copyAssetsWalk_copies (visits : List (Str × Bool)) (fs : FS) (p : List Str)
    (bytes : Str) (hp : ∀ e ∈ p, validName e = true)
    (hv : ∀ v ∈ visits, ∃ q, (∀ e ∈ q, validName e = true) ∧
      v.1 = pathBelow (Join "src".toList "assets".toList) q)
    (hmem : (pathBelow (Join "src".toList "assets".toList) p, false) ∈ visits)
    (hsrc : fs.lookup ("src".toList :: "assets".toList :: p) = some (.file bytes))
    (hok : (copyAssetsWalk (Join "src".toList "assets".toList) "dist".toList visits fs).err =
      none) :
    (copyAssetsWalk (Join "src".toList "assets".toList) "dist".toList visits fs).fs.lookup
      ("dist".toList :: p) = some (.file bytes) := by
  induction visits generalizing fs with
  | nil => simp at hmem
  | cons v vs ih =>
    obtain ⟨path, isDir⟩ := v
    have hvs : ∀ v ∈ vs, ∃ q, (∀ e ∈ q, validName e = true) ∧
        v.1 = pathBelow (Join "src".toList "assets".toList) q :=
      fun v hm => hv v (List.mem_cons_of_mem _ hm)
    rcases List.mem_cons.mp hmem with h | h
    · cases h
      rw [copyAssetsWalk_cons] at hok ⊢
      have hs := copyAssetsVisit_src fs p p false bytes hp hsrc
      have hc : (copyAssetsVisit fs (Join "src".toList "assets".toList) "dist".toList
          (pathBelow (Join "src".toList "assets".toList) p) false).err = none →
          (copyAssetsVisit fs (Join "src".toList "assets".toList) "dist".toList
          (pathBelow (Join "src".toList "assets".toList) p) false).fs.lookup
            ("dist".toList :: p) = some (.file bytes) := by
        intro hok'
        unfold copyAssetsVisit at hok' ⊢
        simp only [] at hok' ⊢
        rw [copyAssets_destPath p hp] at hok' ⊢
        simp only [Bool.false_eq_true, if_false] at hok' ⊢
        exact copyFile_asset fs p bytes hp hsrc hok'
      cases hstep : copyAssetsVisit fs (Join "src".toList "assets".toList) "dist".toList
          (pathBelow (Join "src".toList "assets".toList) p) false with
      | mk fs1 err =>
        rw [hstep] at hok hc hs
        cases err with
        | some e => cases hok
        | none =>
          simp only [] at hok hc hs ⊢
          exact copyAssetsWalk_keeps vs fs1 p bytes hvs hs (hc trivial) hok
    · obtain ⟨q, hq, hpath⟩ := hv (path, isDir) (by simp)
      simp only [] at hpath
      subst hpath
      rw [copyAssetsWalk_cons] at hok ⊢
      have hs := copyAssetsVisit_src fs p q isDir bytes hq hsrc
      cases hstep : copyAssetsVisit fs (Join "src".toList "assets".toList) "dist".toList
          (pathBelow (Join "src".toList "assets".toList) q) isDir with
      | mk fs1 err =>
        rw [hstep] at hok hs
        cases err with
        | some e => cases hok
        | none =>
          simp only [] at hok hs ⊢
          exact ih fs1 hvs h hs hok

theorem lookup_append (a b : List Str) (n : Node) :
    n.lookup (a ++ b) = (n.lookup a).bind (fun m => m.lookup b) := by
  induction a generalizing n with
  | nil => simp [lookup_nil]
  | cons c cs ih =>
    cases n with
    | file d => rw [List.cons_append, lookup_file_cons, lookup_file_cons]; rfl
    | dir es =>
      rw [List.cons_append, lookup_dir_cons, lookup_dir_cons]
      cases getEntry es c with
      | none => rfl
      | some m => exact ih m

/-- When `copyAssets` returns no error, every file below `src/assets` has its
bytes at the same names below `dist`. -/
theorem copyAssets_copies (fs : FS) (hvalid : sourceValid fs = true) (p : List Str)
    (bytes : Str)
    (hsrc : fs.lookup ("src".toList :: "assets".toList :: p) = some (.file bytes))
    (hok : (copyAssets fs (Join "src".toList "assets".toList) "dist".toList).err = none) :
    (copyAssets fs (Join "src".toList "assets".toList) "dist".toList).fs.lookup
      ("dist".toList :: p) = some (.file bytes) := by
  unfold copyAssets at hok ⊢
  cases hn : Lstat fs (Join "src".toList "assets".toList) with
  | error e => rw [hn] at hok; cases hok
  | ok n =>
    rw [hn] at hok
    simp only [] at hok ⊢
    have hval := assets_validNames fs n hvalid hn
    have hnl : fs.lookup ["src".toList, "assets".toList] = some n := by
      unfold Lstat at hn
      rw [resolve_assets] at hn
      simp only [] at hn
      cases hl : fs.lookup ["src".toList, "assets".toList] with
      | none => rw [hl] at hn; cases hn
      | some m => rw [hl] at hn; cases hn; rfl
    have hpl : n.lookup p = some (.file bytes) := by
      have := lookup_append ["src".toList, "assets".toList] p fs
      rw [hnl] at this
      simp only [List.cons_append, List.nil_append] at this
      rw [this] at hsrc
      simpa using hsrc
    have hp := (validNames_lookup p n _ hval hpl).1
    exact copyAssetsWalk_copies _ fs p bytes hp
      (walkNode_sound n _ hval isWalkRoot_assets)
      (walkNode_complete n _ p bytes hval isWalkRoot_assets hpl) hsrc hok

/-! ## The page tasks leave the other files below `dist` alone -/

theorem saveHTMLFile_keeps (fs : FS) (data mdPath srcDir distDir : Str) (q cs : List Str)
    (d : Str) (hr : resolve (htmlPath mdPath srcDir distDir) = some cs) (hq : q ≠ cs)
    (hl : fs.lookup q = some (.file d)) :
    (saveHTMLFile fs data mdPath srcDir distDir).fs.lookup q = some (.file d) := by
  unfold saveHTMLFile
  simp only []
  split
  · exact hl
  · rename_i fs1 h1
    have hl1 := lookup_file_MkdirAll fs fs1 _ q d hl h1
    split
    · exact hl1
    · rename_i fs2 h2
      exact lookup_file_WriteFile_other fs1 fs2 _ data q cs d hr hq hl1 h2

theorem processMarkdownFile_keeps (env : Env) (fs : FS) (mdPath srcDir distDir : Str)
    (q cs : List Str) (d : Str) (hr : resolve (htmlPath mdPath srcDir distDir) = some cs)
    (hq : q ≠ cs) (hl : fs.lookup q = some (.file d)) :
    (processMarkdownFile env fs mdPath srcDir distDir).fs.lookup q = some (.file d) := by
  rcases processMarkdownFile_fs_cases env fs mdPath srcDir distDir with h | ⟨data, h⟩
  · rw [h]; exact hl
  · rw [h]; exact saveHTMLFile_keeps fs data mdPath srcDir distDir q cs d hr hq hl

/-- The tasks of Markdown files below `src` keep a file below `dist` that is
not the output path of any of them. -/
theorem runTasks_keeps (env : Env) (order : List Str) (st : RunState) (p : List Str)
    (bytes : Str)
    (ho : ∀ f ∈ order, ∃ r, isTreePath r = true ∧ HasSuffix r ".md".toList = true ∧
      f = Join "src".toList r)
    (hfree : ∀ f ∈ order, htmlPath f "src".toList "dist".toList ≠ pathBelow "dist".toList p)
    (hl : st.fs.lookup ("dist".toList :: p) = some (.file bytes)) :
    (runTasks env "src".toList "dist".toList order st).fs.lookup ("dist".toList :: p) =
      some (.file bytes) := by
  induction order generalizing st with
  | nil => exact hl
  | cons f fs ih =>
    rw [runTasks_cons]
    apply ih _ (fun g hg => ho g (List.mem_cons_of_mem _ hg))
      (fun g hg => hfree g (List.mem_cons_of_mem _ hg))
    rw [processTask_fs]
    obtain ⟨r, hr, hmd, hf⟩ := ho f (by simp)
    obtain ⟨hP, hres, _⟩ := htmlPath_dist r hr hmd
    have hne := hfree f (by simp)
    rw [hf] at hne ⊢
    apply processMarkdownFile_keeps env st.fs _ _ _ _ _ bytes hres _ hl
    intro h0
    apply hne
    rw [hP, ← (List.cons.inj h0).2]

/-! ## Directory entries: setting two names -/

theorem replaceEntry_cons_eq (es : Entries) (k : Str) (v n : Node) :
    replaceEntry ((k, v) :: es) k n = (k, n) :: es := by
  simp [replaceEntry]

theorem replaceEntry_cons_ne (es : Entries) (k c : Str) (v n : Node) (h : k ≠ c) :
    replaceEntry ((k, v) :: es) c n = (k, v) :: replaceEntry es c n := by
  simp [replaceEntry, h]

theorem getEntry_cons_eq (es : Entries) (k : Str) (v : Node) :
    getEntry ((k, v) :: es) k = some v := by
  simp [getEntry]

theorem getEntry_cons_ne (es : Entries) (k c : Str) (v : Node) (h : k ≠ c) :
    getEntry ((k, v) :: es) c = getEntry es c := by
  simp [getEntry, h]

theorem insertEntry_cons_lt (es : Entries) (k c : Str) (v n : Node) (h : c < k) :
    insertEntry ((k, v) :: es) c n = (c, n) :: (k, v) :: es := by
  simp [insertEntry, h]

theorem insertEntry_cons_not_lt (es : Entries) (k c : Str) (v n : Node) (h : ¬ c < k) :
    insertEntry ((k, v) :: es) c n = (k, v) :: insertEntry es c n := by
  simp [insertEntry, h]

theorem replaceEntry_replaceEntry_same (es : Entries) (c : Str) (x y : Node) :
    replaceEntry (replaceEntry es c x) c y = replaceEntry es c y := by
  induction es with
  | nil => rfl
  | cons e es ih =>
    obtain ⟨k, v⟩ := e
    by_cases hk : k = c
    · subst hk
      rw [replaceEntry_cons_eq, replaceEntry_cons_eq, replaceEntry_cons_eq]
    · rw [replaceEntry_cons_ne _ _ _ _ _ hk, replaceEntry_cons_ne _ _ _ _ _ hk,
        replaceEntry_cons_ne _ _ _ _ _ hk, ih]

theorem replaceEntry_insertEntry_same (es : Entries) (c : Str) (x y : Node)
    (h : getEntry es c = none) :
    replaceEntry (insertEntry es c x) c y = insertEntry es c y := by
  induction es with
  | nil => simp [insertEntry, replaceEntry]
  | cons e es ih =>
    obtain ⟨k, v⟩ := e
    by_cases hk : k = c
    · subst hk
      rw [getEntry_cons_eq] at h
      cases h
    · rw [getEntry_cons_ne _ _ _ _ hk] at h
      by_cases hlt : c < k
      · rw [insertEntry_cons_lt _ _ _ _ _ hlt, insertEntry_cons_lt _ _ _ _ _ hlt,
          replaceEntry_cons_eq]
      · rw [insertEntry_cons_not_lt _ _ _ _ _ hlt, insertEntry_cons_not_lt _ _ _ _ _ hlt,
          replaceEntry_cons_ne _ _ _ _ _ hk, ih h]

theorem setEntry_of_isSome (es : Entries) (c : Str) (n : Node)
    (h : (getEntry es c).isSome = true) : setEntry es c n = replaceEntry es c n := by
  unfold setEntry
  rw [if_pos h]

theorem setEntry_of_not_isSome (es : Entries) (c : Str) (n : Node)
    (h : ¬ (getEntry es c).isSome = true) : setEntry es c n = insertEntry es c n := by
  unfold setEntry
  rw [if_neg h]

theorem setEntry_setEntry_same (es : Entries) (c : Str) (x y : Node) :
    setEntry (setEntry es c x) c y = setEntry es c y := by
  have h1 : (getEntry (setEntry es c x) c).isSome = true := by
    rw [getEntry_setEntry_same]; rfl
  rw [setEntry_of_isSome _ c y h1]
  by_cases h : (getEntry es c).isSome = true
  · rw [setEntry_of_isSome es c x h, setEntry_of_isSome es c y h,
      replaceEntry_replaceEntry_same]
  · rw [setEntry_of_not_isSome es c x h, setEntry_of_not_isSome es c y h]
    exact replaceEntry_insertEntry_same es c x y (by simpa using h)

theorem replaceEntry_comm (es : Entries) (a b : Str) (x y : Node) (hab : a ≠ b) :
    replaceEntry (replaceEntry es a x) b y = replaceEntry (replaceEntry es b y) a x := by
  induction es with
  | nil => rfl
  | cons e es ih =>
    obtain ⟨k, v⟩ := e
    by_cases hka : k = a
    · subst hka
      rw [replaceEntry_cons_eq, replaceEntry_cons_ne _ _ _ _ _ hab,
        replaceEntry_cons_ne _ _ _ _ _ hab, replaceEntry_cons_eq]
    · by_cases hkb : k = b
      · subst hkb
        rw [replaceEntry_cons_ne _ _ _ _ _ hka, replaceEntry_cons_eq, replaceEntry_cons_eq,
          replaceEntry_cons_ne _ _ _ _ _ hka]
      · rw [replaceEntry_cons_ne _ _ _ _ _ hka, replaceEntry_cons_ne _ _ _ _ _ hkb,
          replaceEntry_cons_ne _ _ _ _ _ hkb, replaceEntry_cons_ne _ _ _ _ _ hka, ih]

theorem replaceEntry_insertEntry_comm (es : Entries) (a b : Str) (x y : Node) (hab : a ≠ b) :
    replaceEntry (insertEntry es b y) a x = insertEntry (replaceEntry es a x) b y := by
  have hba : b ≠ a := fun h => hab h.symm
  induction es with
  | nil => simp [insertEntry, replaceEntry, hba]
  | cons e es ih =>
    obtain ⟨k, v⟩ := e
    by_cases hka : k = a
    · subst hka
      by_cases hlt : b < k
      · rw [insertEntry_cons_lt _ _ _ _ _ hlt, replaceEntry_cons_ne _ _ _ _ _ hba,
          replaceEntry_cons_eq, insertEntry_cons_lt _ _ _ _ _ hlt]
      · rw [insertEntry_cons_not_lt _ _ _ _ _ hlt, replaceEntry_cons_eq, replaceEntry_cons_eq,
          insertEntry_cons_not_lt _ _ _ _ _ hlt]
    · by_cases hlt : b < k
      · rw [insertEntry_cons_lt _ _ _ _ _ hlt, replaceEntry_cons_ne _ _ _ _ _ hba,
          replaceEntry_cons_ne _ _ _ _ _ hka, insertEntry_cons_lt _ _ _ _ _ hlt]
      · rw [insertEntry_cons_not_lt _ _ _ _ _ hlt, replaceEntry_cons_ne _ _ _ _ _ hka,
          replaceEntry_cons_ne _ _ _ _ _ hka, insertEntry_cons_not_lt _ _ _ _ _ hlt, ih]

theorem insertEntry_comm (es : Entries) (a b : Str) (x y : Node) (hab : a ≠ b) :
    insertEntry (insertEntry es a x) b y = insertEntry (insertEntry es b y) a x := by
  induction es with
  | nil =>
    rcases lt_trichotomy a b with h | h | h
    · have h' : ¬ b < a := lt_asymm h
      simp [insertEntry, h, h']
    · exact absurd h hab
    · have h' : ¬ a < b := lt_asymm h
      simp [insertEntry, h, h']
  | cons e es ih =>
    obtain ⟨k, v⟩ := e
    by_cases ha : a < k
    · by_cases hb : b < k
      · rcases lt_trichotomy a b with h | h | h
        · have h' : ¬ b < a := lt_asymm h
          simp [insertEntry, ha, hb, h, h']
        · exact absurd h hab
        · have h' : ¬ a < b := lt_asymm h
          simp [insertEntry, ha, hb, h, h']
      · have h' : ¬ b < a := fun h => hb (lt_trans h ha)
        simp [insertEntry, ha, hb, h']
    · by_cases hb : b < k
      · have h' : ¬ a < b := fun h => ha (lt_trans h hb)
        simp [insertEntry, ha, hb, h']
      · simp [insertEntry, ha, hb, ih]

/-- Setting two different names of a directory gives the same entries in either
order. -/
theorem setEntry_comm (es : Entries) (a b : Str) (x y : Node) (hab : a ≠ b) :
    setEntry (setEntry es a x) b y = setEntry (setEntry es b y) a x := by
  have hba : b ≠ a := fun h => hab h.symm
  have e1 : (getEntry (setEntry es a x) b).isSome = (getEntry es b).isSome := by
    rw [getEntry_setEntry_other es a b x hba]
  have e2 : (getEntry (setEntry es b y) a).isSome = (getEntry es a).isSome := by
    rw [getEntry_setEntry_other es b a y hab]
  by_cases h1 : (getEntry es a).isSome = true
  · have s1 : setEntry es a x = replaceEntry es a x := setEntry_of_isSome es a x h1
    have s4 : setEntry (setEntry es b y) a x = replaceEntry (setEntry es b y) a x :=
      setEntry_of_isSome _ a x (e2.trans h1)
    by_cases h2 : (getEntry es b).isSome = true
    · have s2 : setEntry es b y = replaceEntry es b y := setEntry_of_isSome es b y h2
      have s3 : setEntry (setEntry es a x) b y = replaceEntry (setEntry es a x) b y :=
        setEntry_of_isSome _ b y (e1.trans h2)
      rw [s3, s4, s1, s2]
      exact replaceEntry_comm es a b x y hab
    · have s2 : setEntry es b y = insertEntry es b y := setEntry_of_not_isSome es b y h2
      have s3 : setEntry (setEntry es a x) b y = insertEntry (setEntry es a x) b y :=
        setEntry_of_not_isSome _ b y (fun h => h2 (e1.symm.trans h))
      rw [s3, s4, s1, s2]
      exact (replaceEntry_insertEntry_comm es a b x y hab).symm
  · have s1 : setEntry es a x = insertEntry es a x := setEntry_of_not_isSome es a x h1
    have s4 : setEntry (setEntry es b y) a x = insertEntry (setEntry es b y) a x :=
      setEntry_of_not_isSome _ a x (fun h => h1 (e2.symm.trans h))
    by_cases h2 : (getEntry es b).isSome = true
    · have s2 : setEntry es b y = replaceEntry es b y := setEntry_of_isSome es b y h2
      have s3 : setEntry (setEntry es a x) b y = replaceEntry (setEntry es a x) b y :=
        setEntry_of_isSome _ b y (e1.trans h2)
      rw [s3, s4, s1, s2]
      exact replaceEntry_insertEntry_comm es b a y x hba
    · have s2 : setEntry es b y = insertEntry es b y := setEntry_of_not_isSome es b y h2
      have s3 : setEntry (setEntry es a x) b y = insertEntry (setEntry es a x) b y :=
        setEntry_of_not_isSome _ b y (fun h => h2 (e1.symm.trans h))
      rw [s3, s4, s1, s2]
      exact insertEntry_comm es a b x y hab

/-! ## Trees: saving two files in either order -/

theorem writeFile_single (es : Entries) (name data : Str) :
    (Node.dir es).writeFile [name] data =
      match getEntry es name with
      | some (.dir _) => none
      | _ => some (.dir (setEntry es name (.file data))) := by
  rw [writeFile_dir_cons]
  cases h : getEntry es name with
  | none => simp
  | some n =>
    cases n with
    | file d => simp [Node.writeFile]
    | dir es' => simp [Node.writeFile]

theorem save_file (d : Str) (ds : List Str) (name data : Str) :
    (Node.file d).save ds name data = .file d := by
  unfold Node.save
  rw [mkdirAll_file]

theorem save_dir_nil_dir (es es' : Entries) (name data : Str)
    (h : getEntry es name = some (.dir es')) : (Node.dir es).save [] name data = .dir es := by
  unfold Node.save
  rw [Node.mkdirAll]
  simp only [List.nil_append]
  rw [writeFile_single, h]

theorem save_dir_nil_other (es : Entries) (name data : Str)
    (h : ∀ es', getEntry es name ≠ some (.dir es')) :
    (Node.dir es).save [] name data = .dir (setEntry es name (.file data)) := by
  unfold Node.save
  rw [Node.mkdirAll]
  simp only [List.nil_append]
  rw [writeFile_single]
  cases hg : getEntry es name with
  | none => rfl
  | some n =>
    cases n with
    | file d => rfl
    | dir es' => exact absurd hg (h es')

theorem save_dir_cons_none (es : Entries) (c : Str) (ds : List Str) (name data : Str)
    (h : ((getEntry es c).getD (.dir [])).mkdirAll ds = none) :
    (Node.dir es).save (c :: ds) name data = .dir es := by
  unfold Node.save
  rw [mkdirAll_dir_cons, h]

theorem save_dir_cons_some (es : Entries) (c : Str) (ds : List Str) (name data : Str)
    (h : (((getEntry es c).getD (.dir [])).mkdirAll ds).isSome = true) :
    (Node.dir es).save (c :: ds) name data =
      .dir (setEntry es c (((getEntry es c).getD (.dir [])).save ds name data)) := by
  cases hm : ((getEntry es c).getD (.dir [])).mkdirAll ds with
  | none => rw [hm] at h; cases h
  | some c1 =>
    unfold Node.save
    rw [mkdirAll_dir_cons, hm]
    simp only [List.cons_append]
    rw [writeFile_dir_cons, getEntry_setEntry_same]
    simp only []
    cases hw : c1.writeFile (ds ++ [name]) data with
    | some c2 =>
      simp only []
      rw [setEntry_setEntry_same]
    | none =>
      simp only []
      cases he : getEntry es c with
      | none =>
        rw [he] at hm
        have := mkdirAll_fresh_writeFile ds name data c1 hm
        rw [hw] at this
        cases this
      | some child =>
        rw [setEntry_self es c _ (by simp [he])]

theorem save_shape (n : Node) (ds : List Str) (name data : Str) :
    (∃ d, n = .file d ∧ n.save ds name data = .file d) ∨
    (∃ es es', n = .dir es ∧ n.save ds name data = .dir es') := by
  cases n with
  | file d => exact Or.inl ⟨d, rfl, save_file d ds name data⟩
  | dir es =>
    right
    cases ds with
    | nil =>
      by_cases h : ∃ es', getEntry es name = some (.dir es')
      · obtain ⟨es', h'⟩ := h
        exact ⟨es, es, rfl, save_dir_nil_dir es es' name data h'⟩
      · exact ⟨es, _, rfl, save_dir_nil_other es name data (fun es' h' => h ⟨es', h'⟩)⟩
    | cons c ds =>
      cases hm : ((getEntry es c).getD (.dir [])).mkdirAll ds with
      | none => exact ⟨es, es, rfl, save_dir_cons_none es c ds name data hm⟩
      | some c1 => exact ⟨es, _, rfl, save_dir_cons_some es c ds name data (by rw [hm]; rfl)⟩

theorem mkdirAll_isSome_dir_cons (es : Entries) (c : Str) (ds : List Str) :
    ((Node.dir es).mkdirAll (c :: ds)).isSome =
      (((getEntry es c).getD (.dir [])).mkdirAll ds).isSome := by
  rw [mkdirAll_dir_cons]
  cases ((getEntry es c).getD (.dir [])).mkdirAll ds <;> rfl

/-- Saving a file that is not on the way does not change whether directories
can be created. -/
theorem mkdirAll_isSome_save (ds1 : List Str) (n : Node) (ds2 : List Str) (n2 d2 : Str)
    (h : ¬ (ds2 ++ [n2]) <+: ds1) :
    ((n.save ds2 n2 d2).mkdirAll ds1).isSome = (n.mkdirAll ds1).isSome := by
  induction ds1 generalizing n ds2 with
  | nil =>
    rcases save_shape n ds2 n2 d2 with ⟨d, h1, h2⟩ | ⟨es, es', h1, h2⟩
    · rw [h2, h1]
    · rw [h2, h1, Node.mkdirAll, Node.mkdirAll]
      rfl
  | cons c ds1' ih =>
    cases n with
    | file d => rw [save_file]
    | dir es =>
      cases ds2 with
      | nil =>
        have hne : c ≠ n2 := by
          intro h0
          apply h
          rw [h0]
          simp
        by_cases hd : ∃ es', getEntry es n2 = some (.dir es')
        · obtain ⟨es', h'⟩ := hd
          rw [save_dir_nil_dir es es' n2 d2 h']
        · rw [save_dir_nil_other es n2 d2 (fun es' h' => hd ⟨es', h'⟩),
            mkdirAll_isSome_dir_cons, mkdirAll_isSome_dir_cons,
            getEntry_setEntry_other es n2 c _ hne]
      | cons c2 ds2' =>
        cases hm : ((getEntry es c2).getD (.dir [])).mkdirAll ds2' with
        | none => rw [save_dir_cons_none es c2 ds2' n2 d2 hm]
        | some x =>
          rw [save_dir_cons_some es c2 ds2' n2 d2 (by rw [hm]; rfl),
            mkdirAll_isSome_dir_cons, mkdirAll_isSome_dir_cons]
          by_cases hc : c = c2
          · subst hc
            rw [getEntry_setEntry_same]
            simp only [Option.getD_some]
            apply ih
            intro hp
            apply h
            simpa using hp
          · rw [getEntry_setEntry_other es c2 c _ hc]

/-- A save acts on a directory through the entry of its first name only: it
leaves the directory as it is or sets that entry, and does the same on every
directory with the same entry of that name. -/
theorem save_key_cases (es : Entries) (ds : List Str) (name data k : Str)
    (hk : (ds ++ [name]).head? = some k) :
    (∀ es2, getEntry es2 k = getEntry es k → (Node.dir es2).save ds name data = .dir es2) ∨
    (∃ x, ∀ es2, getEntry es2 k = getEntry es k →
      (Node.dir es2).save ds name data = .dir (setEntry es2 k x)) := by
  cases ds with
  | nil =>
    have hkn : name = k := by simpa using hk
    subst hkn
    by_cases hd : ∃ es', getEntry es name = some (.dir es')
    · left
      intro es2 h2
      obtain ⟨es', h'⟩ := hd
      exact save_dir_nil_dir es2 es' name data (h2.trans h')
    · right
      refine ⟨.file data, ?_⟩
      intro es2 h2
      apply save_dir_nil_other
      intro es' h'
      exact hd ⟨es', h2.symm.trans h'⟩
  | cons c ds' =>
    have hkc : c = k := by simpa using hk
    subst hkc
    cases hm : ((getEntry es c).getD (.dir [])).mkdirAll ds' with
    | none =>
      left
      intro es2 h2
      apply save_dir_cons_none
      rw [h2, hm]
    | some x =>
      right
      refine ⟨((getEntry es c).getD (.dir [])).save ds' name data, ?_⟩
      intro es2 h2
      rw [save_dir_cons_some es2 c ds' name data (by rw [h2, hm]; rfl), h2]

theorem save_comm_keys (es : Entries) (ds1 ds2 : List Str) (n1 d1 n2 d2 k1 k2 : Str)
    (hk1 : (ds1 ++ [n1]).head? = some k1) (hk2 : (ds2 ++ [n2]).head? = some k2)
    (hne : k1 ≠ k2) :
    ((Node.dir es).save ds1 n1 d1).save ds2 n2 d2 =
      ((Node.dir es).save ds2 n2 d2).save ds1 n1 d1 := by
  have hne' : k2 ≠ k1 := fun h => hne h.symm
  rcases save_key_cases es ds1 n1 d1 k1 hk1 with a1 | ⟨x1, a1⟩ <;>
  rcases save_key_cases es ds2 n2 d2 k2 hk2 with a2 | ⟨x2, a2⟩
  · rw [a1 es rfl, a2 es rfl, a1 es rfl]
  · rw [a1 es rfl, a2 es rfl, a1 _ (getEntry_setEntry_other es k2 k1 x2 hne)]
  · rw [a1 es rfl, a2 es rfl, a2 _ (getEntry_setEntry_other es k1 k2 x1 hne'), a1 es rfl]
  · rw [a1 es rfl, a2 es rfl, a2 _ (getEntry_setEntry_other es k1 k2 x1 hne'),
      a1 _ (getEntry_setEntry_other es k2 k1 x2 hne), setEntry_comm es k1 k2 x1 x2 hne]

/-- Two saves to paths neither of which is on the way to the other give the
same tree in either order. -/
theorem save_comm (ds1 : List Str) (n : Node) (ds2 : List Str) (n1 d1 n2 d2 : Str)
    (h12 : ¬ (ds1 ++ [n1]) <+: (ds2 ++ [n2])) (h21 : ¬ (ds2 ++ [n2]) <+: (ds1 ++ [n1])) :
    (n.save ds1 n1 d1).save ds2 n2 d2 = (n.save ds2 n2 d2).save ds1 n1 d1 := by
  induction ds1 generalizing n ds2 with
  | nil =>
    cases n with
    | file d => rw [save_file, save_file, save_file]
    | dir es =>
      cases ds2 with
      | nil =>
        apply save_comm_keys es [] [] n1 d1 n2 d2 n1 n2 rfl rfl
        intro h0
        apply h12
        rw [h0]
      | cons c2 ds2' =>
        apply save_comm_keys es [] (c2 :: ds2') n1 d1 n2 d2 n1 c2 rfl rfl
        intro h0
        apply h12
        rw [h0]
        simp
  | cons c1 ds1' ih =>
    cases n with
    | file d => rw [save_file, save_file, save_file]
    | dir es =>
      cases ds2 with
      | nil =>
        apply save_comm_keys es (c1 :: ds1') [] n1 d1 n2 d2 c1 n2 rfl rfl
        intro h0
        apply h21
        rw [h0]
        simp
      | cons c2 ds2' =>
        by_cases hc : c1 = c2
        · subst hc
          have h12' : ¬ (ds1' ++ [n1]) <+: (ds2' ++ [n2]) := by
            intro hp; apply h12; simpa using hp
          have h21' : ¬ (ds2' ++ [n2]) <+: (ds1' ++ [n1]) := by
            intro hp; apply h21; simpa using hp
          have g12 : ¬ (ds1' ++ [n1]) <+: ds2' :=
            fun hp => h12' (hp.trans (List.prefix_append _ _))
          have g21 : ¬ (ds2' ++ [n2]) <+: ds1' :=
            fun hp => h21' (hp.trans (List.prefix_append _ _))
          -- whether the directories of each path can be created below the entry
          cases hm1 : ((getEntry es c1).getD (.dir [])).mkdirAll ds1' with
          | none =>
            rw [save_dir_cons_none es c1 ds1' n1 d1 hm1]
            cases hm2 : ((getEntry es c1).getD (.dir [])).mkdirAll ds2' with
            | none =>
              rw [save_dir_cons_none es c1 ds2' n2 d2 hm2,
                save_dir_cons_none es c1 ds1' n1 d1 hm1]
            | some y =>
              rw [save_dir_cons_some es c1 ds2' n2 d2 (by rw [hm2]; rfl)]
              rw [save_dir_cons_none _ c1 ds1' n1 d1]
              rw [getEntry_setEntry_same]
              simp only [Option.getD_some]
              have := mkdirAll_isSome_save ds1' ((getEntry es c1).getD (.dir [])) ds2' n2 d2 g21
              rw [hm1] at this
              cases hx : (((getEntry es c1).getD (.dir [])).save ds2' n2 d2).mkdirAll ds1' with
              | none => rfl
              | some z => rw [hx] at this; cases this
          | some x =>
            rw [save_dir_cons_some es c1 ds1' n1 d1 (by rw [hm1]; rfl)]
            have i2 := mkdirAll_isSome_save ds2' ((getEntry es c1).getD (.dir [])) ds1' n1 d1 g12
            cases hm2 : ((getEntry es c1).getD (.dir [])).mkdirAll ds2' with
            | none =>
              rw [save_dir_cons_none es c1 ds2' n2 d2 hm2,
                save_dir_cons_some es c1 ds1' n1 d1 (by rw [hm1]; rfl)]
              rw [save_dir_cons_none _ c1 ds2' n2 d2]
              rw [getEntry_setEntry_same]
              simp only [Option.getD_some]
              rw [hm2] at i2
              cases hx : (((getEntry es c1).getD (.dir [])).save ds1' n1 d1).mkdirAll ds2' with
              | none => rfl
              | some z => rw [hx] at i2; cases i2
            | some y =>
              have i1 := mkdirAll_isSome_save ds1' ((getEntry es c1).getD (.dir [])) ds2' n2 d2
                g21
              rw [hm1] at i1
              rw [hm2] at i2
              rw [save_dir_cons_some es c1 ds2' n2 d2 (by rw [hm2]; rfl)]
              rw [save_dir_cons_some _ c1 ds2' n2 d2
                (by rw [getEntry_setEntry_same]; simpa using i2)]
              rw [save_dir_cons_some _ c1 ds1' n1 d1
                (by rw [getEntry_setEntry_same]; simpa using i1)]
              rw [getEntry_setEntry_same, getEntry_setEntry_same, setEntry_setEntry_same,
                setEntry_setEntry_same]
              simp only [Option.getD_some]
              rw [ih _ ds2' h12' h21']
        · exact save_comm_keys es (c1 :: ds1') (c2 :: ds2') n1 d1 n2 d2 c1 c2 rfl rfl hc

/-! ## The page tasks in either order -/

/-- The tree `saveHTMLFile` leaves is the tree as it was, or the save of the
data at the names its output path resolves to. -/
theorem saveHTMLFile_as_save (mdPath srcDir distDir : Str) :
    (∀ (fs : FS) (data : Str), (saveHTMLFile fs data mdPath srcDir distDir).fs = fs) ∨
    (∃ ds name, resolve (htmlPath mdPath srcDir distDir) = some (ds ++ [name]) ∧
      ∀ (fs : FS) (data : Str),
        (saveHTMLFile fs data mdPath srcDir distDir).fs = fs.save ds name data) := by
  obtain ⟨last, hcase⟩ := htmlPath_resolve mdPath srcDir distDir
  rcases hcase with ⟨_, hD⟩ | ⟨ds, hD, hP⟩
  · left
    intro fs data
    unfold saveHTMLFile MkdirAll
    simp only []
    rw [hD]
  · right
    refine ⟨ds, last, hP, ?_⟩
    intro fs data
    unfold saveHTMLFile MkdirAll WriteFile Node.save
    simp only []
    rw [hD, hP]
    simp only []
    cases hm : fs.mkdirAll ds with
    | none => rfl
    | some fs1 =>
      simp only []
      cases hw : fs1.writeFile (ds ++ [last]) data with
      | none =>
        simp only []
        exact mkdirAll_writeFile_none ds last data fs fs1 hm hw
      | some fs2 => rfl

theorem ReadFile_congr (a b : FS) (path c : Str) (p : List Str)
    (hr : resolve path = some (c :: p)) (hc : c ≠ "dist".toList)
    (h : a.remove ["dist".toList] = b.remove ["dist".toList]) :
    ReadFile a path = ReadFile b path := by
  unfold ReadFile Lstat
  rw [hr]
  simp only []
  rw [lookup_of_remove_eq a b "dist".toList c p hc h]

theorem resolve_Join_src (r : Str) (hr : isTreePath r = true) :
    resolve (Join "src".toList r) = some ("src".toList :: splitSlash r) := by
  obtain ⟨h1, _, _, h4⟩ := isTreePath_names r hr
  have hp : ∀ e ∈ splitSlash r, validName e = true := fun e he => List.all_eq_true.mp hr e he
  have : Join "src".toList r = pathBelow "src".toList (splitSlash r) := by
    rw [pathBelow_eq_Join _ _ isWalkRoot_src h1 hp, h4]
  rw [this]
  exact resolve_pathBelow ["src".toList] _ (by simp) (by decide) hp

/-- The task of a Markdown file below `src` leaves the tree as it was, or saves
one and the same data, on all trees that are equal outside `dist`. -/
theorem processMarkdownFile_uniform (env : Env) (r : Str) (hr : isTreePath r = true)
    (z : FS) :
    (∀ z' : FS, z'.remove ["dist".toList] = z.remove ["dist".toList] →
      (processMarkdownFile env z' (Join "src".toList r) "src".toList "dist".toList).fs = z') ∨
    (∃ data, ∀ z' : FS, z'.remove ["dist".toList] = z.remove ["dist".toList] →
      (processMarkdownFile env z' (Join "src".toList r) "src".toList "dist".toList).fs =
        (saveHTMLFile z' data (Join "src".toList r) "src".toList "dist".toList).fs) := by
  have hread : ∀ z' : FS, z'.remove ["dist".toList] = z.remove ["dist".toList] →
      ReadFile z' (Join "src".toList r) = ReadFile z (Join "src".toList r) :=
    fun z' h => ReadFile_congr z' z _ _ _ (resolve_Join_src r hr) (by decide) h
  have hlayout : ∀ z' : FS, z'.remove ["dist".toList] = z.remove ["dist".toList] →
      parseFiles env z' (Join "src".toList "layout.html".toList) =
        parseFiles env z (Join "src".toList "layout.html".toList) := by
    intro z' h
    unfold parseFiles
    rw [ReadFile_congr z' z _ "src".toList ["layout.html".toList] (by decide) (by decide) h]
  cases h1 : ReadFile z (Join "src".toList r) with
  | error e =>
    left
    intro z' h
    unfold processMarkdownFile
    rw [hread z' h, h1]
  | ok content =>
    cases h2 : env.parseFrontMatter content with
    | error e =>
      left
      intro z' h
      unfold processMarkdownFile
      rw [hread z' h, h1]
      simp only []
      rw [h2]
    | ok parsed =>
      obtain ⟨frontMatter, body⟩ := parsed
      by_cases hs : (!(frontMatter.decodeInto Metadata.zero).Status) = true
      · left
        intro z' h
        unfold processMarkdownFile
        rw [hread z' h, h1]
        simp only []
        rw [h2]
        simp only []
        rw [if_pos hs]
      · cases h3 : assemblePage env (Join "src".toList r) (frontMatter.decodeInto Metadata.zero)
            body with
        | error e =>
          left
          intro z' h
          unfold processMarkdownFile
          rw [hread z' h, h1]
          simp only []
          rw [h2]
          simp only []
          rw [if_neg hs, h3]
        | ok page =>
          have hstep : ∀ z' : FS, z'.remove ["dist".toList] = z.remove ["dist".toList] →
              processMarkdownFile env z' (Join "src".toList r) "src".toList "dist".toList =
                renderHTMLPage env z' page (Join "src".toList r) "src".toList "dist".toList := by
            intro z' h
            unfold processMarkdownFile
            rw [hread z' h, h1]
            simp only []
            rw [h2]
            simp only []
            rw [if_neg hs, h3]
          cases h4 : parseFiles env z (Join "src".toList "layout.html".toList) with
          | error e =>
            left
            intro z' h
            rw [hstep z' h]
            unfold renderHTMLPage
            simp only []
            rw [hlayout z' h, h4]
          | ok layout =>
            cases h5 : env.executeTemplate layout page with
            | error e =>
              left
              intro z' h
              rw [hstep z' h]
              unfold renderHTMLPage
              simp only []
              rw [hlayout z' h, h4]
              simp only []
              rw [h5]
            | ok output =>
              right
              refine ⟨output, ?_⟩
              intro z' h
              rw [hstep z' h]
              unfold renderHTMLPage
              simp only []
              rw [hlayout z' h, h4]
              simp only []
              rw [h5]

theorem outputNames_eq (f : Str) (cs : List Str)
    (h : resolve (htmlPath f "src".toList "dist".toList) = some cs) : outputNames f = cs := by
  unfold outputNames
  rw [h]
  rfl

/-- The tasks of two Markdown files below `src` whose output paths are not on
the way to one another leave the same tree in either order. -/
theorem processMarkdownFile_comm (env : Env) (r1 r2 : Str)
    (hr1 : isTreePath r1 = true) (hmd1 : HasSuffix r1 ".md".toList = true)
    (hr2 : isTreePath r2 = true) (hmd2 : HasSuffix r2 ".md".toList = true)
    (h12 : ¬ outputNames (Join "src".toList r1) <+: outputNames (Join "src".toList r2))
    (h21 : ¬ outputNames (Join "src".toList r2) <+: outputNames (Join "src".toList r1))
    (z : FS) :
    (processMarkdownFile env
      (processMarkdownFile env z (Join "src".toList r1) "src".toList "dist".toList).fs
      (Join "src".toList r2) "src".toList "dist".toList).fs =
    (processMarkdownFile env
      (processMarkdownFile env z (Join "src".toList r2) "src".toList "dist".toList).fs
      (Join "src".toList r1) "src".toList "dist".toList).fs := by
  have f1 := frame_processMarkdownFile env z r1 hr1 hmd1
  have f2 := frame_processMarkdownFile env z r2 hr2 hmd2
  rcases processMarkdownFile_uniform env r1 hr1 z with a1 | ⟨data1, a1⟩ <;>
  rcases processMarkdownFile_uniform env r2 hr2 z with a2 | ⟨data2, a2⟩
  · rw [a1 z rfl, a2 z rfl, a1 z rfl]
  · rw [a1 z rfl, a1 _ f2]
  · rw [a2 z rfl, a2 _ f1]
  · have g1 : ∀ z' : FS, z'.remove ["dist".toList] = z.remove ["dist".toList] →
        (saveHTMLFile z' data1 (Join "src".toList r1) "src".toList
          "dist".toList).fs.remove ["dist".toList] = z.remove ["dist".toList] := by
      intro z' h
      rw [← a1 z' h, frame_processMarkdownFile env z' r1 hr1 hmd1, h]
    have g2 : ∀ z' : FS, z'.remove ["dist".toList] = z.remove ["dist".toList] →
        (saveHTMLFile z' data2 (Join "src".toList r2) "src".toList
          "dist".toList).fs.remove ["dist".toList] = z.remove ["dist".toList] := by
      intro z' h
      rw [← a2 z' h, frame_processMarkdownFile env z' r2 hr2 hmd2, h]
    rw [a1 z rfl, a2 z rfl, a2 _ (g1 z rfl), a1 _ (g2 z rfl)]
    rcases saveHTMLFile_as_save (Join "src".toList r1) "src".toList "dist".toList with
      s1 | ⟨ds1, n1, p1, s1⟩ <;>
    rcases saveHTMLFile_as_save (Join "src".toList r2) "src".toList "dist".toList with
      s2 | ⟨ds2, n2, p2, s2⟩
    · simp only [s1, s2]
    · simp only [s1]
    · simp only [s2]
    · simp only [s1, s2]
      rw [outputNames_eq _ _ p1, outputNames_eq _ _ p2] at h12 h21
      exact save_comm ds1 z ds2 n1 data1 n2 data2 h12 h21

theorem runTasks_fs_foldl (env : Env) (srcDir distDir : Str) (order : List Str)
    (st : RunState) :
    (runTasks env srcDir distDir order st).fs =
      order.foldl (fun z f => (processMarkdownFile env z f srcDir distDir).fs) st.fs := by
  induction order generalizing st with
  | nil => rfl
  | cons f fs ih => rw [runTasks_cons, ih, processTask_fs, List.foldl_cons]

theorem noPathClash_spec (files : List Str) (h : noPathClash files = true) (f g : Str)
    (hf : f ∈ files) (hg : g ∈ files) (hne : f ≠ g) :
    ¬ outputNames f <+: outputNames g := by
  unfold noPathClash at h
  have h1 := List.all_eq_true.mp (List.all_eq_true.mp h f hf) g hg
  simp only [Bool.or_eq_true, decide_eq_true_eq, Bool.not_eq_true'] at h1
  rcases h1 with h1 | h1
  · exact absurd h1 hne
  · intro hp
    rw [← List.isPrefixOf_iff_prefix] at hp
    rw [hp] at h1
    cases h1

/-- When no output path is on the way to another, the tree the tasks leave is
the same for every order they take effect in. -/
theorem runTasks_perm (env : Env) (files o1 o2 : List Str) (st : RunState)
    (hform : ∀ f ∈ files, ∃ r, isTreePath r = true ∧ HasSuffix r ".md".toList = true ∧
      f = Join "src".toList r)
    (hclash : noPathClash files = true) (h1 : o1.Perm files) (h2 : o2.Perm files) :
    (runTasks env "src".toList "dist".toList o1 st).fs =
      (runTasks env "src".toList "dist".toList o2 st).fs := by
  rw [runTasks_fs_foldl, runTasks_fs_foldl]
  apply List.Perm.foldl_eq' (h1.trans h2.symm)
  intro x hx y hy z
  have hxf : x ∈ files := h1.mem_iff.mp hx
  have hyf : y ∈ files := h1.mem_iff.mp hy
  by_cases hxy : x = y
  · rw [hxy]
  · obtain ⟨r1, hr1, hmd1, e1⟩ := hform x hxf
    obtain ⟨r2, hr2, hmd2, e2⟩ := hform y hyf
    have c12 := noPathClash_spec files hclash x y hxf hyf hxy
    have c21 := noPathClash_spec files hclash y x hyf hxf (fun h => hxy h.symm)
    rw [e1, e2] at c12 c21 ⊢
    exact processMarkdownFile_comm env r1 r2 hr1 hmd1 hr2 hmd2 c12 c21 z

/-- When no output path of a collected file is on the way to another, the tree
a run leaves does not depend on the order of the goroutines. -/
theorem main_fs_schedule (env : Env) (s1 s2 : List Str → List Str) (h1 : IsSchedule s1)
    (h2 : IsSchedule s2) (fs : FS) (hvalid : sourceValid fs = true)
    (hclash : noPathClash (collectMarkdownFiles fs "src".toList).1 = true) :
    (main env s1 fs).fs = (main env s2 fs).fs := by
  have hprep := frame_prepareDirectories fs
  unfold main run
  cases hpd : prepareDirectories fs "dist".toList with
  | mk fs1 err =>
    rw [hpd] at hprep
    cases err with
    | some e => rfl
    | none =>
      simp only [] at hprep ⊢
      have hv1 : sourceValid fs1 = true := by
        rw [sourceValid_congr fs1 fs hprep]; exact hvalid
      have hframe := frame_copyAssets fs1 hv1
      have hv2 : sourceValid
          (copyAssets fs1 (Join "src".toList "assets".toList) "dist".toList).fs = true := by
        rw [sourceValid_congr _ fs1 hframe]; exact hv1
      have hcol : collectMarkdownFiles
          (copyAssets fs1 (Join "src".toList "assets".toList) "dist".toList).fs "src".toList =
          collectMarkdownFiles fs "src".toList :=
        collectMarkdownFiles_congr _ _ (hframe.trans hprep)
      have hform := collect_form _ hv2
      rw [hcol] at hform ⊢
      cases hc : collectMarkdownFiles fs "src".toList with
      | mk files cerr =>
        rw [hc] at hform hclash
        cases cerr with
        | some e => rfl
        | none =>
          simp only [] at hform hclash ⊢
          unfold processFilesConcurrently
          exact runTasks_perm env files (s1 files) (s2 files) _ hform hclash (h1 files)
            (h2 files)

/-- After `saveHTMLFile` returns no error the output path holds the data. -/
theorem saveHTMLFile_ok_read (fs : FS) (data mdPath srcDir distDir : Str)
    (h : (saveHTMLFile fs data mdPath srcDir distDir).err = none) :
    ReadFile (saveHTMLFile fs data mdPath srcDir distDir).fs (htmlPath mdPath srcDir distDir) =
      .ok data := by
  unfold saveHTMLFile at h ⊢
  simp only [] at h ⊢
  cases hm : MkdirAll fs (Dir (htmlPath mdPath srcDir distDir)) with
  | error e => rw [hm] at h; cases h
  | ok fs1 =>
    rw [hm] at h
    simp only [] at h ⊢
    cases hw : WriteFile fs1 (htmlPath mdPath srcDir distDir) data with
    | error e => rw [hw] at h; cases h
    | ok fs2 =>
      simp only []
      unfold WriteFile at hw
      cases hr : resolve (htmlPath mdPath srcDir distDir) with
      | none => rw [hr] at hw; cases hw
      | some cs =>
        rw [hr] at hw
        simp only [] at hw
        cases hwf : fs1.writeFile cs data with
        | none => rw [hwf] at hw; cases hw
        | some g =>
          rw [hwf] at hw
          cases hw
          unfold ReadFile Lstat
          rw [hr]
          simp only []
          rw [lookup_writeFile_same cs data fs1 fs2 hwf]

/-! ## The claims -/

/-- C1 (amended): for clean relative roots `srcDir` and `distDir` with `srcDir`
other than `.`, and a Markdown path `srcDir/r` below the source root (`r` a
path of file names that ends in `.md`), the path `saveHTMLFile` derives is
`distDir` joined with `r` with its extension swapped, and when it returns no
error the tree holds the data at that path. -/
theorem saveHTMLFile_path (fs : FS) (data srcDir distDir r : Str)
    (hsrc : isCleanRel srcDir = true) (hdot : srcDir ≠ ".".toList)
    (hdist : isCleanRel distDir = true) (hr : isTreePath r = true)
    (hmd : HasSuffix r ".md".toList = true) :
    htmlPath (Join srcDir r) srcDir distDir = Join distDir (swapExt r) ∧
    ((saveHTMLFile fs data (Join srcDir r) srcDir distDir).err = none →
      ReadFile (saveHTMLFile fs data (Join srcDir r) srcDir distDir).fs
        (Join distDir (swapExt r)) = .ok data) := by
  have hs : Clean srcDir = srcDir ∧ srcDir.head? ≠ some '/' := by
    simpa [isCleanRel] using hsrc
  have hd : Clean distDir = distDir ∧ distDir.head? ≠ some '/' := by
    simpa [isCleanRel] using hdist
  have hroot : srcDir ≠ ['/'] := by
    intro h0
    rw [h0] at hs
    exact hs.2 rfl
  have hpath := htmlPath_join srcDir distDir r hs.1 hdot hroot
    (clean_ne_nil_of_fixed distDir hd.1) hr hmd
  refine ⟨hpath, fun h => ?_⟩
  rw [← hpath]
  exact saveHTMLFile_ok_read fs data _ srcDir distDir h

/-- C1, at the example of the specification: `src/posts/hello.md` with the
roots `src` and `dist` is written to `dist/posts/hello.html`. -/
theorem saveHTMLFile_path_witness :
    htmlPath (Join "src".toList "posts/hello.md".toList) "src".toList "dist".toList =
      "dist/posts/hello.html".toList ∧
    ReadFile (saveHTMLFile (.dir []) "page".toList (Join "src".toList "posts/hello.md".toList)
      "src".toList "dist".toList).fs "dist/posts/hello.html".toList = .ok "page".toList :=
  have h := saveHTMLFile_path (.dir []) "page".toList "src".toList "dist".toList
    "posts/hello.md".toList (by decide) (by decide) (by decide) (by decide) (by decide)
  ⟨h.1, h.2 rfl⟩

/-- C1 as stated fails at the source root `.`: the file `.a.md` below `.` is
the path `.a.md`, from which `strings.TrimPrefix` strips the leading dot of the
file name, and the page is written to `dist/a.html`, not `dist/.a.html`. -/
theorem saveHTMLFile_path_counterexample :
    isCleanRel ".".toList = true ∧ isCleanRel "dist".toList = true ∧
    isTreePath ".a.md".toList = true ∧ HasSuffix ".a.md".toList ".md".toList = true ∧
    htmlPath (Join ".".toList ".a.md".toList) ".".toList "dist".toList = "dist/a.html".toList ∧
    Join "dist".toList (swapExt ".a.md".toList) = "dist/.a.html".toList ∧
    htmlPath (Join ".".toList ".a.md".toList) ".".toList "dist".toList ≠
      Join "dist".toList (swapExt ".a.md".toList) := by decide

/-- C2: a document that is read, whose front matter parses and has `status`
false or absent, is skipped: `processMarkdownFile` returns no error and leaves
the tree exactly as it was. -/
theorem processMarkdownFile_unpublished (env : Env) (fs : FS)
    (mdPath srcDir distDir content body : Str) (frontMatter : FrontMatter)
    (hread : ReadFile fs mdPath = .ok content)
    (hparse : env.parseFrontMatter content = .ok (frontMatter, body))
    (hstatus : frontMatter.status = some false ∨ frontMatter.status = none) :
    processMarkdownFile env fs mdPath srcDir distDir = ⟨fs, none⟩ := by
  unfold processMarkdownFile
  rw [hread]
  simp only []
  rw [hparse]
  simp only []
  have : (frontMatter.decodeInto Metadata.zero).Status = false := by
    rcases hstatus with h | h <;> simp [FrontMatter.decodeInto, Metadata.zero, h]
  rw [this]
  rfl

/-- C2, at the draft `src/draft.md` of the sample tree. -/
theorem processMarkdownFile_unpublished_witness :
    processMarkdownFile demoEnv sampleTree "src/draft.md".toList "src".toList "dist".toList =
      ⟨sampleTree, none⟩ :=
  processMarkdownFile_unpublished demoEnv sampleTree "src/draft.md".toList "src".toList
    "dist".toList draftHeader [] { FrontMatter.empty with status := some false }
    rfl rfl (Or.inl rfl)

/-- C3: a file whose processing fails does not disturb its siblings.  Whatever
order the goroutines of `processFilesConcurrently` take effect in, when the
task of the file `bad` returns an error (for instance for malformed front
matter), that task leaves the tree as it found it, so it produces no output
file; the error is logged with the path and the tasks after it are still run;
and the tree at the end is the one the same tasks leave without `bad` among
them, so every sibling's output is what it would have been. -/
theorem processFiles_failure_isolated (env : Env) (sched : List Str → List Str)
    (files : List Str) (srcDir distDir : Str) (pre post : List Str) (bad : Str) (st : RunState)
    (hsched : sched files = pre ++ bad :: post)
    (hfail : (processMarkdownFile env (runTasks env srcDir distDir pre st).fs bad srcDir
      distDir).err ≠ none) :
    (processMarkdownFile env (runTasks env srcDir distDir pre st).fs bad srcDir distDir).fs =
      (runTasks env srcDir distDir pre st).fs ∧
    (∃ e, processFilesConcurrently env sched files srcDir distDir st =
      runTasks env srcDir distDir post
        ⟨(runTasks env srcDir distDir pre st).fs,
          (runTasks env srcDir distDir pre st).log ++
            ["Error processing file ".toList ++ bad ++ ": ".toList ++ e]⟩) ∧
    (processFilesConcurrently env sched files srcDir distDir st).fs =
      (runTasks env srcDir distDir (pre ++ post) st).fs := by
  have hfs := processMarkdownFile_err_unchanged env _ bad srcDir distDir hfail
  have hstep : ∃ e, processTask env srcDir distDir (runTasks env srcDir distDir pre st) bad =
      ⟨(runTasks env srcDir distDir pre st).fs,
        (runTasks env srcDir distDir pre st).log ++
          ["Error processing file ".toList ++ bad ++ ": ".toList ++ e]⟩ := by
    unfold processTask
    split
    · rename_i fs1 h
      rw [h] at hfail
      exact absurd rfl hfail
    · rename_i fs1 e h
      rw [h] at hfs
      simp only [] at hfs
      exact ⟨e, by rw [hfs]⟩
  obtain ⟨e, he⟩ := hstep
  have hrun : processFilesConcurrently env sched files srcDir distDir st =
      runTasks env srcDir distDir post
        ⟨(runTasks env srcDir distDir pre st).fs,
          (runTasks env srcDir distDir pre st).log ++
            ["Error processing file ".toList ++ bad ++ ": ".toList ++ e]⟩ := by
    unfold processFilesConcurrently
    rw [hsched, runTasks_append, runTasks_cons, he]
  refine ⟨hfs, ⟨e, hrun⟩, ?_⟩
  rw [hrun, runTasks_append]
  exact runTasks_fs_congr env srcDir distDir post _ _ rfl

/-- C3, on the sample tree: the document `src/bad.md` has malformed front
matter, and the published `src/posts/hello.md` is built after it as without
it. -/
theorem processFiles_failure_isolated_witness :
    (processFilesConcurrently demoEnv id ["src/bad.md".toList, "src/posts/hello.md".toList]
      "src".toList "dist".toList ⟨sampleTree, []⟩).fs =
      (runTasks demoEnv "src".toList "dist".toList ["src/posts/hello.md".toList]
        ⟨sampleTree, []⟩).fs ∧
    ReadFile (processFilesConcurrently demoEnv id
      ["src/bad.md".toList, "src/posts/hello.md".toList]
      "src".toList "dist".toList ⟨sampleTree, []⟩).fs "dist/posts/hello.html".toList =
      .ok "L".toList ∧
    Lstat (processFilesConcurrently demoEnv id
      ["src/bad.md".toList, "src/posts/hello.md".toList]
      "src".toList "dist".toList ⟨sampleTree, []⟩).fs "dist/bad.html".toList =
      .error "no such file or directory".toList :=
  ⟨(processFiles_failure_isolated demoEnv id
      ["src/bad.md".toList, "src/posts/hello.md".toList] "src".toList "dist".toList []
      ["src/posts/hello.md".toList] "src/bad.md".toList ⟨sampleTree, []⟩ rfl (by decide)).2.2,
    rfl, rfl⟩

/-- C4: `getDefaultTitle` returns a non-empty title unchanged, and for an
empty title the base name of the Markdown path without its `.md` extension:
for the path `dir ++ stem ++ ".md"` whose last element is `stem ++ ".md"`, the
result is `stem`.  The page assembled for a document whose `title` key is
absent or empty therefore has that `stem` as its title. -/
theorem getDefaultTitle_spec (env : Env) (dir stem : Str) (hstem : '/' ∉ stem)
    (hdir : dir = [] ∨ dir.getLast? = some '/') :
    (∀ title, title ≠ [] → getDefaultTitle (dir ++ (stem ++ ".md".toList)) title = title) ∧
    Base (dir ++ (stem ++ ".md".toList)) = stem ++ ".md".toList ∧
    getDefaultTitle (dir ++ (stem ++ ".md".toList)) [] = stem ∧
    (∀ (frontMatter : FrontMatter) (body : Str) (page : Page),
      frontMatter.title = none ∨ frontMatter.title = some [] →
      assemblePage env (dir ++ (stem ++ ".md".toList)) (frontMatter.decodeInto Metadata.zero)
        body = .ok page →
      page.Title = stem) := by
  refine ⟨?_, Base_md dir stem hstem hdir, getDefaultTitle_md dir stem hstem hdir, ?_⟩
  · intro title ht
    unfold getDefaultTitle
    rw [if_neg ht]
  · intro fm body page ht hpage
    rw [assemblePage_title env _ _ body page hpage]
    have : (fm.decodeInto Metadata.zero).Title = [] := by
      rcases ht with h | h <;> simp [FrontMatter.decodeInto, Metadata.zero, h]
    rw [this]
    exact getDefaultTitle_md dir stem hstem hdir

/-- C4, at the example of the specification: `src/posts/hello.md` gives the
title `hello`. -/
theorem getDefaultTitle_spec_witness :
    getDefaultTitle "src/posts/hello.md".toList "Hi".toList = "Hi".toList ∧
    getDefaultTitle "src/posts/hello.md".toList [] = "hello".toList ∧
    (assemblePage demoEnv "src/posts/hello.md".toList
      ({ FrontMatter.empty with status := some true }.decodeInto Metadata.zero)
      "# Hello".toList).map (fun page => page.Title) = .ok "hello".toList :=
  have h := getDefaultTitle_spec demoEnv "src/posts/".toList "hello".toList (by decide)
    (Or.inr rfl)
  ⟨h.1 "Hi".toList (by decide), h.2.2.1, rfl⟩

/-- C5 fails on a document named `.md`: the walk returns `src/.md`, it ends in
`.md` and is not a directory, its base name without the extension is the empty
string, and with no `title` key the page assembled for it has the empty
title. -/
theorem emptyTitle_dotMd :
    "src/.md".toList ∈ (collectMarkdownFiles sampleTree "src".toList).1 ∧
    getDefaultTitle "src/.md".toList [] = [] ∧
    (assemblePage demoEnv "src/.md".toList
      ({ FrontMatter.empty with status := some true }.decodeInto Metadata.zero) []).map
        (fun page => page.Title) = .ok [] :=
  ⟨by decide, by decide, rfl⟩

/-- C6 (amended): on a tree whose names below `src` are file names, when a run
of `main` completes and its `copyAssets` reports no error, every file below
`src/assets` at the relative path `r` whose place `dist/r` is not the output
path of a collected Markdown file is in the output tree at `dist/r` with the
bytes of the source file. -/
theorem assets_copied (env : Env) (sched : List Str → List Str) (hs : IsSchedule sched)
    (fs : FS) (hvalid : sourceValid fs = true)
    (hdone : (main env sched fs).fatal = false)
    (hcopy : (copyAssets (prepareDirectories fs "dist".toList).fs
      (Join "src".toList "assets".toList) "dist".toList).err = none)
    (r bytes : Str) (hr : isTreePath r = true)
    (hfile : ReadFile fs (Join (Join "src".toList "assets".toList) r) = .ok bytes)
    (hfree : ∀ f ∈ (collectMarkdownFiles fs "src".toList).1,
      htmlPath f "src".toList "dist".toList ≠ Join "dist".toList r) :
    ReadFile (main env sched fs).fs (Join "dist".toList r) = .ok bytes := by
  obtain ⟨h1, _, _, h4⟩ := isTreePath_names r hr
  have hp : ∀ e ∈ splitSlash r, validName e = true := fun e he => List.all_eq_true.mp hr e he
  have hsrcPath : Join (Join "src".toList "assets".toList) r =
      pathBelow (Join "src".toList "assets".toList) (splitSlash r) := by
    rw [pathBelow_eq_Join _ _ isWalkRoot_assets h1 hp, h4]
  have hdistPath : Join "dist".toList r = pathBelow "dist".toList (splitSlash r) := by
    rw [pathBelow_eq_Join _ _ isWalkRoot_dist h1 hp, h4]
  rw [hsrcPath] at hfile
  rw [hdistPath] at hfree ⊢
  have hl := (ReadFile_eq_lookup fs _ bytes _ (resolve_assets_below _ hp)).mp hfile
  rw [ReadFile_eq_lookup _ _ bytes _ (resolve_dist_below _ hp)]
  have hprep := frame_prepareDirectories fs
  unfold main run at hdone ⊢
  cases hpd : prepareDirectories fs "dist".toList with
  | mk fs1 err =>
    rw [hpd] at hdone hprep hcopy
    cases err with
    | some e => cases hdone
    | none =>
      simp only [] at hdone hprep hcopy ⊢
      have hv1 : sourceValid fs1 = true := by
        rw [sourceValid_congr fs1 fs hprep]; exact hvalid
      have hl1 : fs1.lookup ("src".toList :: "assets".toList :: splitSlash r) =
          some (.file bytes) := by
        rw [lookup_of_remove_eq fs1 fs "dist".toList "src".toList _ (by decide) hprep]
        exact hl
      have hcopied := copyAssets_copies fs1 hv1 _ bytes hl1 hcopy
      have hframe := frame_copyAssets fs1 hv1
      have hv2 : sourceValid
          (copyAssets fs1 (Join "src".toList "assets".toList) "dist".toList).fs = true := by
        rw [sourceValid_congr _ fs1 hframe]; exact hv1
      have hcol : collectMarkdownFiles
          (copyAssets fs1 (Join "src".toList "assets".toList) "dist".toList).fs "src".toList =
          collectMarkdownFiles fs "src".toList :=
        collectMarkdownFiles_congr _ _ (hframe.trans hprep)
      rw [hcol] at hdone ⊢
      cases hc : collectMarkdownFiles fs "src".toList with
      | mk files cerr =>
        rw [hc] at hdone hfree
        cases cerr with
        | some e => cases hdone
        | none =>
          simp only [] at hfree ⊢
          unfold processFilesConcurrently
          apply runTasks_keeps env (sched files) _ _ bytes _ _ hcopied
          · intro f hf
            apply collect_form _ hv2 f
            rw [hcol, hc]
            exact (hs files).mem_iff.mp hf
          · intro f hf
            exact hfree f ((hs files).mem_iff.mp hf)

/-- C6, on a tree with the asset `src/assets/logo.svg`. -/
theorem assets_copied_witness :
    ReadFile (main demoEnv id assetTree).fs (Join "dist".toList "logo.svg".toList) =
      .ok "<svg/>".toList :=
  assets_copied demoEnv id (fun files => List.Perm.refl files) assetTree (by decide)
    (by rfl) (by rfl) "logo.svg".toList "<svg/>".toList (by decide) (by rfl) (by decide)

/-- C6 as stated fails when a page has the output path of an asset: in the
tree with `src/assets/index.html` and the published `src/index.md` the copy
reports no error and the run completes, and `dist/index.html` holds the
rendered page, not the bytes of the asset. -/
theorem assets_copied_counterexample :
    sourceValid assetClashTree = true ∧
    (main demoEnv id assetClashTree).fatal = false ∧
    (copyAssets (prepareDirectories assetClashTree "dist".toList).fs
      (Join "src".toList "assets".toList) "dist".toList).err = none ∧
    ReadFile assetClashTree (Join (Join "src".toList "assets".toList) "index.html".toList) =
      .ok "A".toList ∧
    ReadFile (main demoEnv id assetClashTree).fs (Join "dist".toList "index.html".toList) =
      .ok "L".toList ∧
    ReadFile (main demoEnv id assetClashTree).fs (Join "dist".toList "index.html".toList) ≠
      .ok "A".toList :=
  ⟨by decide, rfl, rfl, rfl, rfl, by
    intro h
    have h2 : ReadFile (main demoEnv id assetClashTree).fs
        (Join "dist".toList "index.html".toList) = .ok "L".toList := rfl
    rw [h2] at h
    exact absurd (Except.ok.inj h) (by decide)⟩

/-- C7 (amended): for every clean source root `srcDir` other than `.` and
every output root `distDir`, two distinct Markdown paths below the source
root (`srcDir` joined with paths of file names that end in `.md`) have
distinct output paths: no two tasks write the same output file. -/
theorem htmlPath_injective (srcDir distDir r1 r2 : Str) (hsrc : Clean srcDir = srcDir)
    (hdot : srcDir ≠ ".".toList)
    (hr1 : isTreePath r1 = true) (hmd1 : HasSuffix r1 ".md".toList = true)
    (hr2 : isTreePath r2 = true) (hmd2 : HasSuffix r2 ".md".toList = true)
    (hne : Join srcDir r1 ≠ Join srcDir r2) :
    htmlPath (Join srcDir r1) srcDir distDir ≠ htmlPath (Join srcDir r2) srcDir distDir := by
  intro h
  apply hne
  rw [htmlPath_eq_imp srcDir distDir r1 r2 hsrc hdot hr1 hmd1 hr2 hmd2 h]

/-- C7, at two documents below `src`. -/
theorem htmlPath_injective_witness :
    htmlPath (Join "src".toList "a.md".toList) "src".toList "dist".toList ≠
      htmlPath (Join "src".toList "posts/a.md".toList) "src".toList "dist".toList :=
  htmlPath_injective "src".toList "dist".toList "a.md".toList "posts/a.md".toList
    (by decide) (by decide) (by decide) (by decide) (by decide) (by decide) (by decide)

/-- C7 as stated fails at the source root `.`: the distinct files `.a.md` and
`a.md` below it are both written to `dist/a.html`. -/
theorem htmlPath_injective_counterexample :
    Join ".".toList ".a.md".toList ≠ Join ".".toList "a.md".toList ∧
    Clean (Join ".".toList ".a.md".toList) = Join ".".toList ".a.md".toList ∧
    Clean (Join ".".toList "a.md".toList) = Join ".".toList "a.md".toList ∧
    HasSuffix (Join ".".toList ".a.md".toList) ".md".toList = true ∧
    HasSuffix (Join ".".toList "a.md".toList) ".md".toList = true ∧
    htmlPath (Join ".".toList ".a.md".toList) ".".toList "dist".toList =
      htmlPath (Join ".".toList "a.md".toList) ".".toList "dist".toList := by decide

/-- C8 (amended): on a tree whose names below `src` are file names, whatever
the previous contents of `dist`: when no output path of a collected Markdown
file is a directory on the way to another's, running the program on the tree
it has left gives the same tree again, in whatever orders the goroutines of
the two runs take effect; for a fixed order, the second run gives the same
result as the first on every tree; and the result of a run is the same for
every tree that is equal outside `dist`, so nothing of the previous contents
of `dist` survives. -/
theorem main_idempotent (env : Env) (fs : FS) (hvalid : sourceValid fs = true) :
    (noPathClash (collectMarkdownFiles fs "src".toList).1 = true →
      ∀ s1 s2 : List Str → List Str, IsSchedule s1 → IsSchedule s2 →
        (main env s2 (main env s1 fs).fs).fs = (main env s1 fs).fs) ∧
    (∀ sched : List Str → List Str, IsSchedule sched →
      main env sched (main env sched fs).fs = main env sched fs) ∧
    (∀ (sched : List Str → List Str) (fs' : FS),
      fs'.remove ["dist".toList] = fs.remove ["dist".toList] →
      main env sched fs' = main env sched fs) := by
  refine ⟨?_, ?_, fun sched fs' h => main_congr env sched fs' fs h⟩
  · intro hclash s1 s2 h1 h2
    rw [main_congr env s2 _ _ (frame_main env s1 h1 fs hvalid)]
    exact main_fs_schedule env s2 s1 h2 h1 fs hvalid hclash
  · intro sched hs
    exact main_congr env sched _ _ (frame_main env sched hs fs hvalid)

/-- C8, on the sample tree: a second run with the goroutines in the opposite
order, and a second run in the same order. -/
theorem main_idempotent_witness :
    (main demoEnv List.reverse (main demoEnv id sampleTree).fs).fs =
      (main demoEnv id sampleTree).fs ∧
    main demoEnv id (main demoEnv id sampleTree).fs = main demoEnv id sampleTree :=
  have h := main_idempotent demoEnv sampleTree (by decide)
  ⟨h.1 (by decide) id List.reverse (fun files => List.Perm.refl files)
      (fun files => List.reverse_perm files),
    h.2.1 id (fun files => List.Perm.refl files)⟩

/-- C8 as stated fails when the goroutines of the two runs take effect in
different orders: with the documents `src/a.html/b.md` and `src/a.md`, a first
run in the order of the walk leaves the directory `dist/a.html` with the page
`b.html`, and a second run in the opposite order leaves the file
`dist/a.html`. -/
theorem main_idempotent_counterexample :
    IsSchedule id ∧ IsSchedule List.reverse ∧ sourceValid pathClashTree = true ∧
    noPathClash (collectMarkdownFiles pathClashTree "src".toList).1 = false ∧
    ReadFile (main demoEnv id pathClashTree).fs "dist/a.html/b.html".toList = .ok "L".toList ∧
    ReadFile (main demoEnv List.reverse (main demoEnv id pathClashTree).fs).fs
      "dist/a.html".toList = .ok "L".toList ∧
    (main demoEnv List.reverse (main demoEnv id pathClashTree).fs).fs ≠
      (main demoEnv id pathClashTree).fs :=
  ⟨fun files => List.Perm.refl files, fun files => List.reverse_perm files, by decide,
    by decide, rfl, rfl,
    by
    intro h
    have h1 : ReadFile (main demoEnv List.reverse (main demoEnv id pathClashTree).fs).fs
      "dist/a.html".toList = .ok "L".toList := rfl
    have h2 : ReadFile (main demoEnv id pathClashTree).fs "dist/a.html".toList =
      .error "is a directory".toList := rfl
    rw [h] at h1
    rw [h1] at h2
    cases h2⟩

/-- C9 fails: `styles.Get` never returns `nil`, so the check of
`generateHighlightCSS` for an unknown style never fires.  For a name that is
not registered the function writes the CSS of the fallback style; its result
is never the error `style <name> not found`. -/
theorem generateHighlightCSS_unregistered (env : Env) (styleName : Str)
    (h : env.Registry styleName = none) :
    generateHighlightCSS env styleName =
      (match env.writeCSS env.Fallback with
        | .error e => .error ("error writing CSS: ".toList ++ e)
        | .ok css => .ok css) ∧
    generateHighlightCSS env styleName ≠
      .error ("style ".toList ++ styleName ++ " not found".toList) := by
  have h1 : generateHighlightCSS env styleName =
      (match env.writeCSS env.Fallback with
        | .error e => .error ("error writing CSS: ".toList ++ e)
        | .ok css => .ok css) := by
    unfold generateHighlightCSS Env.stylesGet
    rw [h]
  refine ⟨h1, ?_⟩
  rw [h1]
  cases env.writeCSS env.Fallback with
  | error e =>
    intro h0
    simp only [Except.error.injEq] at h0
    have := congrArg List.head? h0
    simp at this
  | ok css => simp

/-- C9, at a name that is not registered: the result is the stylesheet of the
fallback style, without error. -/
theorem generateHighlightCSS_unregistered_witness :
    generateHighlightCSS demoEnv "nosuchstyle".toList = .ok "/* swapoff */".toList :=
  (generateHighlightCSS_unregistered demoEnv "nosuchstyle".toList rfl).1

/-- C10: the inline stylesheet of a page is the CSS generated for the fixed
style name `monokai`, which is not the style `monokailight` the converter
highlights code with, and the page does not depend on the `css` key: two
metadata values that differ only in `CSS` are assembled into equal pages. -/
theorem assemblePage_css_independent (env : Env) (mdPath body : Str) (metadata : Metadata)
    (css css' : Str) :
    assemblePage env mdPath { metadata with CSS := css } body =
      assemblePage env mdPath { metadata with CSS := css' } body ∧
    (∀ page, assemblePage env mdPath metadata body = .ok page →
      generateHighlightCSS env "monokai".toList = .ok page.InlineCSS) ∧
    markdownParser.highlightStyle = "monokailight".toList ∧
    "monokai".toList ≠ markdownParser.highlightStyle :=
  ⟨rfl, fun page h => assemblePage_inlineCSS env mdPath metadata body page h, rfl, by decide⟩

/-- C10, on a published document of the sample tree with and without a `css`
key. -/
theorem assemblePage_css_independent_witness :
    (assemblePage demoEnv "src/posts/hello.md".toList
      { Metadata.zero with Status := true, CSS := "dracula".toList } "# Hello".toList).map
        (fun page => page.InlineCSS) = .ok "/* monokai */".toList ∧
    generateHighlightCSS demoEnv "monokai".toList = .ok "/* monokai */".toList :=
  ⟨rfl, (assemblePage_css_independent demoEnv "src/posts/hello.md".toList "# Hello".toList
    { Metadata.zero with Status := true } "dracula".toList []).2.1
      (createPage { Metadata.zero with Status := true, Title := "hello".toList }
        "# Hello".toList "/* monokai */".toList []) rfl⟩

end SanoSitegen
